import Mathlib

/-!
# The slab allocator of xv6-ssu (`xv6_ssu_slab/slab.c`)

A shallow embedding of `setBit`, `getBit`, `slabinit`, `kmalloc` and `kmfree`
and the properties of the allocator that follow from the code.

Modelling conventions.

* C `int` values are `Int`; no wrap-around is modelled (signed overflow is
  undefined in C and the counters of the table stay far below `2^31`).
* A `char *` is its address, a `Nat`; `0` is the null pointer.  Pointer
  arithmetic is exact: `addr - s->page[i]` is the difference of the two
  addresses as an integer, without 32-bit wrap-around.
* An execution that reads or writes outside an array, shifts by a negative
  amount or dereferences the one-past-the-end class has no defined behaviour in
  C: the embedding returns `none` there, and `some` for every defined run.
* The page allocator (`kalloc`, `kfree`) and the spin lock (`acquire`,
  `release`) live outside `slab.c`.  Calls to them are recorded in a trace; the
  value a `kalloc` call returns is an argument of the operation that calls it.
* `NSLAB`, `MAX_PAGES_PER_SLAB` (from `slab.h`) and `PGSIZE` (from `mmu.h`) are
  not part of the translated file and are parameters (`Config`).
-/

namespace SlabAlloc

/-! ## Data model -/

/-- Build-time constants used by `slab.c` and defined in headers outside it. -/
structure Config where
  NSLAB : Nat
  MAX_PAGES_PER_SLAB : Nat
  PGSIZE : Nat
deriving DecidableEq

/-- Calls that leave `slab.c`: the lock operations and the page allocator. -/
inductive Event where
  | acquire : Event
  | release : Event
  | kalloc (r : Nat) : Event
  | kfree (p : Nat) : Event
deriving DecidableEq

/-- One size class (`struct slab`), with the fields `slab.c` uses.  `bitmap`
holds the bytes of the page `s->bitmap` points to, each as its unsigned bit
pattern (a null `s->bitmap` has no bytes); `page` is the array
`s->page[MAX_PAGES_PER_SLAB]` of page base addresses, `0` for an empty slot. -/
structure Slab where
  size : Int
  num_pages : Int
  num_free_objects : Int
  num_used_objects : Int
  num_objects_per_page : Int
  bitmap : List Nat
  page : List Nat
deriving DecidableEq

/-- The global `stable`: the class array `stable.slab[NSLAB]`, and the trace of
the calls made so far on `stable.lock` and on the page allocator. -/
structure Stable where
  slab : List Slab
  trace : List Event
deriving DecidableEq

/-- Array read `a[i]` with a C `int` index; `none` outside the array. -/
def readAt {α : Type} (l : List α) (i : Int) : Option α :=
  if 0 ≤ i then l[i.toNat]? else none

/-- Array write `a[i] = v` with a C `int` index; `none` outside the array. -/
def writeAt {α : Type} (l : List α) (i : Int) (v : α) : Option (List α) :=
  if 0 ≤ i ∧ i.toNat < l.length then some (l.set i.toNat v) else none

/-! ## `setBit` and `getBit` -/

/-- The function `setBit(bitmap, idx, val)`.  The byte is promoted to `int`, or-ed with
`1 << bit_offset` or and-ed with `~(1 << bit_offset)`, and stored back as a
`char` (its low eight bits).  A negative `idx` gives a negative shift count or
a byte before the bitmap. -/
def setBit (bitmap : List Nat) (idx : Int) (val : Int) : Option (List Nat) :=
  if idx < 0 then none
  else
    let byte_idx := (Int.tdiv idx 8).toNat
    let bit_offset := (Int.tmod idx 8).toNat
    match bitmap[byte_idx]? with
    | none => none
    | some b =>
      some (bitmap.set byte_idx
        ((if val ≠ 0 then b ||| (1 <<< bit_offset)
          else b &&& (4294967295 - (1 <<< bit_offset))) % 256))

/-- The function `getBit(bitmap, idx)`: `(bitmap[byte_idx] >> bit_offset) & 1`. -/
def getBit (bitmap : List Nat) (idx : Int) : Option Nat :=
  if idx < 0 then none
  else
    let byte_idx := (Int.tdiv idx 8).toNat
    let bit_offset := (Int.tmod idx 8).toNat
    match bitmap[byte_idx]? with
    | none => none
    | some b => some ((b >>> bit_offset) &&& 1)

/-! ## External calls -/

/-- The call `acquire(&stable.lock)`. -/
def acquire (st : Stable) : Stable :=
  { st with trace := st.trace ++ [Event.acquire] }

/-- The call `release(&stable.lock)`. -/
def release (st : Stable) : Stable :=
  { st with trace := st.trace ++ [Event.release] }

/-- A call of `kalloc()` that returned `r` (`0` when no page is left). -/
def kalloc (st : Stable) (r : Nat) : Stable :=
  { st with trace := st.trace ++ [Event.kalloc r] }

/-- A call of `kfree(p)`. -/
def kfree (st : Stable) (p : Nat) : Stable :=
  { st with trace := st.trace ++ [Event.kfree p] }

/-! ## `slabinit` -/

/-- The call `memset(s->page, 0, MAX_PAGES_PER_SLAB)` on an array of 4-byte
little-endian pointers, from slot `j` on: the first `nbytes` bytes of the array
are cleared, that is slots `0 .. nbytes / 4 - 1` and the low `nbytes % 4` bytes
of the next slot. -/
def memset_page (nbytes : Nat) : Nat → List Nat → List Nat
  | _, [] => []
  | j, p :: ps =>
    (if 4 * (j + 1) ≤ nbytes then 0
     else if 4 * j < nbytes then p / 2 ^ (8 * (nbytes - 4 * j)) * 2 ^ (8 * (nbytes - 4 * j))
     else p) :: memset_page nbytes (j + 1) ps

/-- The body of the loop of `slabinit` for class `i`; `kb` and `kp` are the
results of its two `kalloc()` calls.  `memset` through a null `s->bitmap` is
undefined. -/
def slabinit_body (cfg : Config) (i : Nat) (s : Slab) (kb kp : Nat) : Option Slab :=
  let size : Int := ((1 <<< (i + 4) : Nat) : Int)
  let obj_per_pg : Int := Int.tdiv cfg.PGSIZE size
  if kb = 0 then none
  else
    match writeAt (memset_page cfg.MAX_PAGES_PER_SLAB 0 s.page) 0 kp with
    | none => none
    | some pages =>
      some { size := size
             num_pages := s.num_pages + 1
             num_free_objects := obj_per_pg
             num_used_objects := 0
             num_objects_per_page := obj_per_pg
             bitmap := List.replicate cfg.PGSIZE 0
             page := pages }

/-- The loop `for (int i = 0; i < NSLAB; i++)` of `slabinit`, with `n`
iterations left; `kr j` is the result of the `j`-th `kalloc()` call. -/
def slabinit_loop (cfg : Config) (kr : Nat → Nat) : Nat → Nat → Stable → Option Stable
  | 0, _, st => some st
  | n + 1, i, st =>
    match st.slab[i]? with
    | none => none
    | some s =>
      match slabinit_body cfg i s (kr (2 * i)) (kr (2 * i + 1)) with
      | none => none
      | some s1 =>
        slabinit_loop cfg kr n (i + 1)
          (kalloc (kalloc { st with slab := st.slab.set i s1 } (kr (2 * i))) (kr (2 * i + 1)))

/-- The function `slabinit()`. -/
def slabinit (cfg : Config) (kr : Nat → Nat) (st : Stable) : Option Stable :=
  (slabinit_loop cfg kr cfg.NSLAB 0 (acquire st)).map release

/-- The table as the loader leaves it: `stable` is a zero-initialised global. -/
def zeroed (cfg : Config) : Stable :=
  { slab := List.replicate cfg.NSLAB
      { size := 0, num_pages := 0, num_free_objects := 0, num_used_objects := 0
        num_objects_per_page := 0, bitmap := []
        page := List.replicate cfg.MAX_PAGES_PER_SLAB 0 }
    trace := [] }

/-! ## Class selection -/

/-- The scan `for (s = stable.slab; s < &stable.slab[NSLAB]; s++) if (size <=
s->size) break;` with `n` classes left to look at, `k` the index of `s`.  The
result `NSLAB` is the one-past-the-end pointer. -/
def findSlab (slabs : List Slab) (size : Int) : Nat → Nat → Option Nat
  | 0, k => some k
  | n + 1, k =>
    match slabs[k]? with
    | none => none
    | some s => if size ≤ s.size then some k else findSlab slabs size n (k + 1)

/-! ## `kmalloc` -/

/-- First loop of `kmalloc` (lines 68-83), `n` iterations left, at index `i`:
the first clear bit whose page slot is non-empty, if any. -/
def kmalloc_reuse (s : Slab) : Nat → Nat → Option (Option Nat)
  | 0, _ => some none
  | n + 1, i =>
    match getBit s.bitmap i with
    | none => none
    | some b =>
      if b = 0 then
        match readAt s.page (Int.tdiv i s.num_objects_per_page) with
        | none => none
        | some p => if p ≠ 0 then some (some i) else kmalloc_reuse s n (i + 1)
      else kmalloc_reuse s n (i + 1)

/-- Second loop of `kmalloc` (lines 85-99), `n` iterations left, at index `i`:
the first clear bit, if any. -/
def kmalloc_grow (s : Slab) : Nat → Nat → Option (Option Nat)
  | 0, _ => some none
  | n + 1, i =>
    match getBit s.bitmap i with
    | none => none
    | some b => if b = 0 then some (some i) else kmalloc_grow s n (i + 1)

/-- The function `kmalloc(size)`; `kr` is what `kalloc()` returns if this call reaches it.
The result is the new table and the returned pointer. -/
def kmalloc (cfg : Config) (st0 : Stable) (size : Int) (kr : Nat) : Option (Stable × Nat) :=
  let st := acquire st0
  match findSlab st.slab size cfg.NSLAB 0 with
  | none => none
  | some k =>
    match st.slab[k]? with
    | none => none
    | some s =>
      let obj_per_pg := s.num_objects_per_page
      let n := (obj_per_pg * cfg.MAX_PAGES_PER_SLAB).toNat
      match kmalloc_reuse s n 0 with
      | none => none
      | some (some i) =>
        let pg_idx := Int.tdiv i obj_per_pg
        let offset := Int.tmod i obj_per_pg
        match readAt s.page pg_idx, setBit s.bitmap i 1 with
        | some pg, some bm =>
          let s1 := { s with num_free_objects := s.num_free_objects - 1
                             num_used_objects := s.num_used_objects + 1
                             bitmap := bm }
          some (release { st with slab := st.slab.set k s1 },
                ((pg : Int) + offset * s.size).toNat)
        | _, _ => none
      | some none =>
        match kmalloc_grow s n 0 with
        | none => none
        | some (some i) =>
          let pg_idx := Int.tdiv i obj_per_pg
          match writeAt s.page pg_idx kr, setBit s.bitmap i 1 with
          | some pages, some bm =>
            let s1 := { s with page := pages
                               num_pages := s.num_pages + 1
                               num_used_objects := s.num_used_objects + 1
                               num_free_objects :=
                                 s.num_free_objects + (s.num_objects_per_page - 1)
                               bitmap := bm }
            some (release { kalloc st kr with slab := st.slab.set k s1 }, kr)
          | _, _ => none
        | some none => some (release st, 0)

/-! ## `kmfree` -/

/-- The page scan of `kmfree` (lines 123-133), `n` iterations left, at slot
`i`, with the current value of `offset`.  Returns the final `i` and `offset`;
`i = MAX_PAGES_PER_SLAB` when no slot matched. -/
def kmfree_find (cfg : Config) (page : List Nat) (addr : Nat) : Nat → Nat → Int → Option (Nat × Int)
  | 0, i, offset => some (i, offset)
  | n + 1, i, offset =>
    match page[i]? with
    | none => none
    | some p =>
      if p = 0 then kmfree_find cfg page addr n (i + 1) offset
      else
        let offset1 : Int := (addr : Int) - (p : Int)
        if 0 ≤ offset1 ∧ offset1 < cfg.PGSIZE then some (i, offset1)
        else kmfree_find cfg page addr n (i + 1) offset1

/-- The loop of lines 148-153, `n` iterations left, at bit `j`: `isfree`. -/
def kmfree_isfree (bitmap : List Nat) : Nat → Int → Option Bool
  | 0, _ => some true
  | n + 1, j =>
    match getBit bitmap j with
    | none => none
    | some b => if b ≠ 0 then some false else kmfree_isfree bitmap n (j + 1)

/-- The function `kmfree(addr, size)`. -/
def kmfree (cfg : Config) (st0 : Stable) (addr : Nat) (size : Int) : Option Stable :=
  if addr = 0 ∨ 0 ≥ size then some st0
  else
    let st := acquire st0
    match findSlab st.slab size cfg.NSLAB 0 with
    | none => none
    | some k =>
      match st.slab[k]? with
      | none => none
      | some s =>
        match kmfree_find cfg s.page addr cfg.MAX_PAGES_PER_SLAB 0 0 with
        | none => none
        | some (i, offset) =>
          let idx : Int := (i : Int) * s.num_objects_per_page + Int.tdiv offset s.size
          match getBit s.bitmap idx with
          | none => none
          | some b =>
            if b = 0 then some (release st)
            else
              match setBit s.bitmap idx 0 with
              | none => none
              | some bm =>
                let s1 := { s with num_used_objects := s.num_used_objects - 1
                                   num_free_objects := s.num_free_objects + 1
                                   bitmap := bm }
                let lo : Int := (i : Int) * s.num_objects_per_page
                let hi : Int := ((i : Int) + 1) * s.num_objects_per_page
                match kmfree_isfree bm (hi - lo).toNat lo with
                | none => none
                | some false => some (release { st with slab := st.slab.set k s1 })
                | some true =>
                  match readAt s1.page i, writeAt s1.page i 0 with
                  | some pg, some pages =>
                    let s2 := { s1 with page := pages
                                        num_pages := s1.num_pages - 1
                                        num_free_objects :=
                                          s1.num_free_objects - s1.num_objects_per_page }
                    some (release { kfree st pg with slab := st.slab.set k s2 })
                  | _, _ => none

/-! ## Vocabulary for the statements -/

/-- The byte `setBit` stores in place of `b`. -/
def newByte (b o : Nat) (val : Int) : Nat :=
  (if val ≠ 0 then b ||| (1 <<< o) else b &&& (4294967295 - (1 <<< o))) % 256

/-- Bit `i` is clear and its page slot `i / num_objects_per_page` is
non-empty: the test of the first loop of `kmalloc` succeeds at `i`. -/
def Reusable (s : Slab) (i : Nat) : Prop :=
  getBit s.bitmap i = some 0 ∧
    ∃ p, readAt s.page (Int.tdiv i s.num_objects_per_page) = some p ∧ p ≠ 0

/-- The first loop of `kmalloc` passes over `i`: the bit is set, or it is clear
and its page slot is empty. -/
def Skipped (s : Slab) (i : Nat) : Prop :=
  getBit s.bitmap i = some 1 ∨
    (getBit s.bitmap i = some 0 ∧
      readAt s.page (Int.tdiv i s.num_objects_per_page) = some 0)

/-- The class after lines 74-77 of `kmalloc`: one object claimed in a page
that was already there; `bm` is the bitmap with the bit set. -/
def Slab.claimed (s : Slab) (bm : List Nat) : Slab :=
  { s with num_free_objects := s.num_free_objects - 1
           num_used_objects := s.num_used_objects + 1
           bitmap := bm }

/-- The class after lines 89-94 of `kmalloc`: a page stored (`pages` is the
new slot array), its first object claimed. -/
def Slab.grown (s : Slab) (pages bm : List Nat) : Slab :=
  { s with page := pages
           num_pages := s.num_pages + 1
           num_used_objects := s.num_used_objects + 1
           num_free_objects := s.num_free_objects + (s.num_objects_per_page - 1)
           bitmap := bm }

/-- The class after lines 144-146 of `kmfree`: one object given back. -/
def Slab.released (s : Slab) (bm : List Nat) : Slab :=
  { s with num_used_objects := s.num_used_objects - 1
           num_free_objects := s.num_free_objects + 1
           bitmap := bm }

/-- The class after lines 156-159 of `kmfree`, on top of `Slab.released`: the
slot emptied (`pages` is the new slot array) and the page given up. -/
def Slab.shrunk (s : Slab) (pages bm : List Nat) : Slab :=
  { s with page := pages
           num_pages := s.num_pages - 1
           num_used_objects := s.num_used_objects - 1
           num_free_objects := s.num_free_objects + 1 - s.num_objects_per_page
           bitmap := bm }

/-- Number of iterations of the two loops of `kmalloc` in class `s`. -/
def Slab.nbits (cfg : Config) (s : Slab) : Nat :=
  (s.num_objects_per_page * cfg.MAX_PAGES_PER_SLAB).toNat

/-- A slot passed over by the page scan of `kmfree`: empty, or a page that does
not contain `addr`. -/
def PageMiss (cfg : Config) (page : List Nat) (addr : Nat) (j : Nat) : Prop :=
  ∃ a, page[j]? = some a ∧
    (a = 0 ∨ ¬ (0 ≤ (addr : Int) - (a : Int) ∧ (addr : Int) - (a : Int) < cfg.PGSIZE))

/-- The `size` fields of the table are the ones `slabinit` writes: class `k`
serves objects of `16 * 2^k` bytes. -/
def SizesSet (cfg : Config) (st : Stable) : Prop :=
  st.slab.length = cfg.NSLAB ∧ ∀ k s, st.slab[k]? = some s → s.size = (16 * 2 ^ k : Int)

/-- Assumptions on the build-time constants: there is a class and a page slot,
every class size `16 * 2^k` divides the page size, and the one-page bitmap has
a bit for each of the `MAX_PAGES_PER_SLAB * (PGSIZE / 16)` object slots of the
smallest class. -/
def Config.ok (cfg : Config) : Prop :=
  0 < cfg.NSLAB ∧ 0 < cfg.MAX_PAGES_PER_SLAB ∧ 0 < cfg.PGSIZE ∧
    2 ^ (cfg.NSLAB + 3) ∣ cfg.PGSIZE ∧
    cfg.MAX_PAGES_PER_SLAB * (cfg.PGSIZE / 16) ≤ 8 * cfg.PGSIZE

/-- The fields of class `k` that `slabinit` writes once and nothing changes
afterwards: object size, objects per page, and the extent of the two arrays. -/
def Slab.laid (cfg : Config) (k : Nat) (s : Slab) : Prop :=
  s.size = ((2 ^ (k + 4) : Nat) : Int) ∧
    s.num_objects_per_page = ((cfg.PGSIZE / 2 ^ (k + 4) : Nat) : Int) ∧
    s.bitmap.length = cfg.PGSIZE ∧ s.page.length = cfg.MAX_PAGES_PER_SLAB

/-- The table has `NSLAB` classes, each laid out by `slabinit`. -/
def Laid (cfg : Config) (st : Stable) : Prop :=
  st.slab.length = cfg.NSLAB ∧ ∀ (k : Nat) (s : Slab), st.slab[k]? = some s → s.laid cfg k

/-- The counter equation of one class. -/
def Slab.counted (s : Slab) : Prop :=
  s.num_used_objects + s.num_free_objects = s.num_pages * s.num_objects_per_page

/-- The counter equation holds in every class. -/
def Counted (st : Stable) : Prop :=
  ∀ (k : Nat) (s : Slab), st.slab[k]? = some s → s.counted

/-- Class `k` as `slabinit` leaves it on a zeroed table, `kp` being the page
stored in slot 0. -/
def freshSlab (cfg : Config) (k kp : Nat) : Slab :=
  { size := ((1 <<< (k + 4) : Nat) : Int)
    num_pages := 1
    num_free_objects := Int.tdiv cfg.PGSIZE ((1 <<< (k + 4) : Nat) : Int)
    num_used_objects := 0
    num_objects_per_page := Int.tdiv cfg.PGSIZE ((1 <<< (k + 4) : Nat) : Int)
    bitmap := List.replicate cfg.PGSIZE 0
    page := (List.replicate cfg.MAX_PAGES_PER_SLAB 0).set 0 kp }

/-- The table right after `slabinit`, `kr` giving the results of `kalloc`. -/
def Fresh (cfg : Config) (kr : Nat → Nat) (st : Stable) : Prop :=
  st.slab.length = cfg.NSLAB ∧
    ∀ k, k < cfg.NSLAB → st.slab[k]? = some (freshSlab cfg k (kr (2 * k + 1)))

/-- Slot `j` holds a page that contains `addr`: the page scan of `kmfree`
stops there. -/
def PageHit (cfg : Config) (page : List Nat) (addr : Nat) (j : Nat) : Prop :=
  ∃ a, page[j]? = some a ∧ a ≠ 0 ∧
    0 ≤ (addr : Int) - (a : Int) ∧ (addr : Int) - (a : Int) < cfg.PGSIZE

/-- The non-empty page slots of a class hold page-aligned, pairwise distinct
page addresses. -/
def Slab.pagesOk (cfg : Config) (s : Slab) : Prop :=
  (∀ (j a : Nat), s.page[j]? = some a → a ≠ 0 → cfg.PGSIZE ∣ a) ∧
    ∀ (j1 j2 a : Nat), s.page[j1]? = some a → s.page[j2]? = some a → a ≠ 0 → j1 = j2

/-- No set bit lies in the range of an empty page slot. -/
def Slab.emptyClear (s : Slab) : Prop :=
  ∀ j : Nat, readAt s.page (Int.tdiv j s.num_objects_per_page) = some 0 →
    getBit s.bitmap j ≠ some 1

/-- The page allocator does not fail: `kalloc` returns a non-null page. -/
def NeverFails : Stable → Nat → Prop :=
  fun _ kr => kr ≠ 0

/-- The page allocator does not fail and hands out page-aligned pages that no
class holds at the time of the call. -/
def FreshPage (cfg : Config) : Stable → Nat → Prop :=
  fun st kr => kr ≠ 0 ∧ cfg.PGSIZE ∣ kr ∧
    ∀ (k : Nat) (s : Slab), st.slab[k]? = some s → kr ∉ s.page

/-- Tables reachable from `slabinit` on the zeroed table by calls of `kmalloc`
and of `kmfree` that have a defined result, `good st kr` being what is assumed
of a page `kr` that `kalloc` hands out in state `st`.  No condition is put on
the arguments of `kmfree`: frees of live pointers with their original sizes are
among the steps. -/
inductive Reach (cfg : Config) (good : Stable → Nat → Prop) : Stable → Prop
  | init (kr : Nat → Nat) (st : Stable) :
      (∀ j, good (zeroed cfg) (kr j)) → slabinit cfg kr (zeroed cfg) = some st →
      Reach cfg good st
  | alloc (st : Stable) (size : Int) (kr : Nat) (st' : Stable) (p : Nat) :
      Reach cfg good st → good st kr → kmalloc cfg st size kr = some (st', p) →
      Reach cfg good st'
  | free (st : Stable) (addr : Nat) (size : Int) (st' : Stable) :
      Reach cfg good st → kmfree cfg st addr size = some st' →
      Reach cfg good st'

/-- Class `k` after `n` allocations and no free since `slabinit`: the layout is
intact, exactly the bits below `n` are set, and exactly the page slots that
contain a bit below `max n 1` hold a page (slot 0 is pre-seeded). -/
def Slab.filled (cfg : Config) (k : Nat) (s : Slab) (n : Nat) : Prop :=
  s.laid cfg k ∧
    (∀ j : Nat, j < n → getBit s.bitmap j = some 1) ∧
    (∀ j : Nat, n ≤ j → j < 8 * cfg.PGSIZE → getBit s.bitmap j = some 0) ∧
    (∀ q : Nat, q < cfg.MAX_PAGES_PER_SLAB → q * (cfg.PGSIZE / 2 ^ (k + 4)) < max n 1 →
      ∃ a, s.page[q]? = some a ∧ a ≠ 0) ∧
    (∀ q : Nat, q < cfg.MAX_PAGES_PER_SLAB → max n 1 ≤ q * (cfg.PGSIZE / 2 ^ (k + 4)) →
      s.page[q]? = some 0)

/-- The request `size` belongs to class `k`: `k` is the least class whose
object size `16 * 2^k` covers it. -/
def InClass (k : Nat) (size : Int) : Prop :=
  size ≤ 16 * 2 ^ k ∧ ∀ j : Nat, j < k → (16 * 2 ^ j : Int) < size

/-- A run of `kmalloc` calls, each given as the requested size and the page
`kalloc` hands out if asked; the result is the final table and the returned
pointers in order. -/
def kmalloc_seq (cfg : Config) : Stable → List (Int × Nat) → Option (Stable × List Nat)
  | st, [] => some (st, [])
  | st, (size, kr) :: rest =>
    match kmalloc cfg st size kr with
    | none => none
    | some (st1, p) =>
      match kmalloc_seq cfg st1 rest with
      | none => none
      | some (st2, ps) => some (st2, p :: ps)

/-- A run of `kmfree` calls, each given as the pointer and the size. -/
def kmfree_seq (cfg : Config) : Stable → List (Nat × Int) → Option Stable
  | st, [] => some st
  | st, (addr, size) :: rest =>
    match kmfree cfg st addr size with
    | none => none
    | some st1 => kmfree_seq cfg st1 rest

/-- A configuration with 4096-byte pages, eight classes (16 to 2048 bytes) and
100 page slots per class. -/
def demoCfg : Config :=
  { NSLAB := 8, MAX_PAGES_PER_SLAB := 100, PGSIZE := 4096 }

/-- A page allocator for `slabinit` that hands out the consecutive pages
`4096 * 200, 4096 * 201, ...`; class `k` gets `4096 * (201 + 2 * k)` as its
first page. -/
def demoPages : Nat → Nat :=
  fun j => 4096 * (200 + j)

/-- The table `slabinit` leaves with `demoCfg` and `demoPages` (the zeroed
table if `slabinit` were undefined, which `demoTable_eq` excludes). -/
def demoTable : Stable :=
  (slabinit demoCfg demoPages (zeroed demoCfg)).getD (zeroed demoCfg)

/-- The page `kalloc` is taken to hand out in the demo runs. -/
def demoPage : Nat := 4096 * 115

/-- The table `demoTable` after one `kmalloc(2048)`. -/
def demoOne : Stable :=
  ((kmalloc demoCfg demoTable 2048 demoPage).getD (demoTable, 0)).1

/-- The table `demoTable` after two `kmalloc(2048)`: the pre-seeded page of the 2048-byte
class is full. -/
def demoTwo : Stable :=
  ((kmalloc demoCfg demoOne 2048 demoPage).getD (demoOne, 0)).1

/-- The 2048-byte class of `demoOne`. -/
def demoOneSlab : Slab :=
  (demoOne.slab[7]?).getD (freshSlab demoCfg 7 0)

/-- The 2048-byte class of `demoTwo`. -/
def demoTwoSlab : Slab :=
  (demoTwo.slab[7]?).getD (freshSlab demoCfg 7 0)

/-- The double-free scenario: on `demoTable`, four `kmalloc(2048)` (the third
one grows the class with the page `demoPage`, which lies 100 pages below the
pre-seeded page of the class), then `kmfree` of the two objects of the new
page, which releases it. -/
def doubleFreeTable : Option Stable :=
  (kmalloc_seq demoCfg demoTable
      [(2048, demoPage), (2048, demoPage), (2048, demoPage), (2048, demoPage)]).bind
    fun r => kmfree_seq demoCfg r.1 [(demoPage, 2048), (demoPage + 2048, 2048)]

/-- Replays a trace against the table guard, modelled as a held/free flag,
starting from `held`.  The result is the flag at the end; `none` when the
discipline is broken: `acquire` while held, `release` while free, or a call of
`kalloc` or `kfree` while the guard is free. -/
def guardRun : Bool → List Event → Option Bool
  | held, [] => some held
  | held, Event.acquire :: rest => if held then none else guardRun true rest
  | held, Event.release :: rest => if held then guardRun false rest else none
  | held, Event.kalloc _ :: rest => if held then guardRun true rest else none
  | held, Event.kfree _ :: rest => if held then guardRun true rest else none

/-- Number of set bits among the bits `0 .. n - 1` of a bitmap. -/
def popcount (bitmap : List Nat) : Nat → Nat
  | 0 => 0
  | n + 1 => popcount bitmap n + (if getBit bitmap ((n : Nat) : Int) = some 1 then 1 else 0)

/-- The used count is the number of set bits in the index range of the class,
no bit beyond that range is set, and `num_objects_per_page` is not negative. -/
def Slab.tallied (cfg : Config) (s : Slab) : Prop :=
  s.num_used_objects = (popcount s.bitmap (s.nbits cfg) : Nat) ∧
    (∀ j : Nat, s.nbits cfg ≤ j → getBit s.bitmap j ≠ some 1) ∧
    0 ≤ s.num_objects_per_page

/-- No assumption on the page allocator: `kalloc` may return any page, or
null. -/
def AnyPage : Stable → Nat → Prop :=
  fun _ _ => True

/-- The pages a trace shows `kalloc` handing out, in order. -/
def pagesTaken : List Event → List Nat
  | [] => []
  | Event.kalloc r :: rest => r :: pagesTaken rest
  | Event.acquire :: rest => pagesTaken rest
  | Event.release :: rest => pagesTaken rest
  | Event.kfree _ :: rest => pagesTaken rest

/-- The pages a trace shows given back through `kfree`, in order. -/
def pagesGiven : List Event → List Nat
  | [] => []
  | Event.kfree p :: rest => p :: pagesGiven rest
  | Event.acquire :: rest => pagesGiven rest
  | Event.release :: rest => pagesGiven rest
  | Event.kalloc _ :: rest => pagesGiven rest

/-- Class `k` holds two pages, `A` in slot 0 and `P` in slot 1; of the objects
of page `A` exactly the ones listed in `rest` are live, and the first object of
page `P` is live. -/
def Slab.draining (cfg : Config) (k : Nat) (s : Slab) (A P : Nat) (rest : List Nat) : Prop :=
  s.laid cfg k ∧ s.page[0]? = some A ∧ s.page[1]? = some P ∧ s.pagesOk cfg ∧
    (∀ m : Nat, m < cfg.PGSIZE / 2 ^ (k + 4) →
      getBit s.bitmap (m : Int) = some (if A + m * 2 ^ (k + 4) ∈ rest then 1 else 0)) ∧
    getBit s.bitmap ((cfg.PGSIZE / 2 ^ (k + 4) : Nat) : Int) = some 1 ∧
    s.num_pages = 2 ∧
    s.num_used_objects = 1 + (rest.length : Int) ∧
    s.num_free_objects = 2 * ((cfg.PGSIZE / 2 ^ (k + 4) : Nat) : Int) - 1 - (rest.length : Int)

/-- Tables reachable from `slabinit` on the zeroed table together with the
list of live objects, each recorded as the pointer `kmalloc` returned and the
size it was asked for.  `slabinit` gets non-null, page-aligned, pairwise
distinct pages; every later `kalloc` hands out a `FreshPage`.  A `kmalloc` that
returns a non-null pointer adds it to the list; `kmfree` is called on a live
pointer with its original size, and takes it off the list (unless the size is
not positive: `kmfree` then returns at once and the object stays allocated). -/
inductive ReachLive (cfg : Config) : Stable → List (Nat × Int) → Prop
  | init (kr : Nat → Nat) (st : Stable) :
      (∀ j, kr j ≠ 0 ∧ cfg.PGSIZE ∣ kr j) → (∀ i j, kr i = kr j → i = j) →
      slabinit cfg kr (zeroed cfg) = some st → ReachLive cfg st []
  | alloc (st : Stable) (live : List (Nat × Int)) (size : Int) (kr : Nat) (st' : Stable)
      (p : Nat) :
      ReachLive cfg st live → FreshPage cfg st kr → kmalloc cfg st size kr = some (st', p) →
      ReachLive cfg st' (if p = 0 then live else (p, size) :: live)
  | free (st : Stable) (live : List (Nat × Int)) (addr : Nat) (size : Int) (st' : Stable) :
      ReachLive cfg st live → (addr, size) ∈ live → kmfree cfg st addr size = some st' →
      ReachLive cfg st' (if 0 < size then live.erase (addr, size) else live)

/-- The pointer `p` is an object of class `k`: it is object `m` of a page
present in some slot `q`, and its bit is set. -/
def Slab.liveAt (cfg : Config) (k : Nat) (s : Slab) (p : Nat) : Prop :=
  ∃ q a m, s.page[q]? = some a ∧ a ≠ 0 ∧ m < cfg.PGSIZE / 2 ^ (k + 4) ∧
    p = a + m * 2 ^ (k + 4) ∧
    getBit s.bitmap ((q * (cfg.PGSIZE / 2 ^ (k + 4)) + m : Nat) : Int) = some 1

/-- The live pointers are pairwise distinct, and each is an object, with its
bit set, of the class its size selects. -/
def LiveOk (cfg : Config) (st : Stable) (live : List (Nat × Int)) : Prop :=
  (live.map Prod.fst).Nodup ∧
    ∀ (p : Nat) (size : Int), (p, size) ∈ live →
      ∃ k s, findSlab st.slab size cfg.NSLAB 0 = some k ∧ st.slab[k]? = some s ∧
        s.liveAt cfg k p

/-- No page is held by two classes. -/
def PagesApart (st : Stable) : Prop :=
  ∀ (k1 k2 : Nat) (s1 s2 : Slab) (a : Nat), st.slab[k1]? = some s1 → st.slab[k2]? = some s2 →
    a ∈ s1.page → a ∈ s2.page → a ≠ 0 → k1 = k2

/-- Every page of the class has a set bit in its range, unless the class is
still exactly as `slabinit` left it. -/
def Slab.backed (cfg : Config) (k : Nat) (s : Slab) : Prop :=
  (∃ a, s = freshSlab cfg k a) ∨
    ∀ (q a : Nat), s.page[q]? = some a → a ≠ 0 →
      ∃ m, m < cfg.PGSIZE / 2 ^ (k + 4) ∧
        getBit s.bitmap ((q * (cfg.PGSIZE / 2 ^ (k + 4)) + m : Nat) : Int) = some 1

/-! ## Bit-level lemmas -/

theorem shiftRight_and_one (b o : Nat) :
    (b >>> o) &&& 1 = if b.testBit o then 1 else 0 := by
  rw [Nat.and_one_is_mod, Nat.shiftRight_eq_div_pow, Nat.testBit_to_div_mod]
  by_cases h : b / 2 ^ o % 2 = 1
  · simp [h]
  · have : b / 2 ^ o % 2 = 0 := by omega
    simp [this]

theorem testBit_not_mask (o j : Nat) (ho : o < 8) (hj : j < 8) :
    (4294967295 - (1 <<< o)).testBit j = !decide (o = j) := by
  have h1 : 4294967295 - (1 <<< o) = 2 ^ 32 - (2 ^ o + 1) := by
    rw [Nat.one_shiftLeft]; norm_num; omega
  have h2 : 2 ^ o < 2 ^ 32 := Nat.pow_lt_pow_right (by norm_num) (by omega)
  rw [h1, Nat.testBit_two_pow_sub_succ h2, Nat.testBit_two_pow]
  have : j < 32 := by omega
  simp [this]

theorem newByte_same (b o : Nat) (val : Int) (ho : o < 8) :
    (newByte b o val >>> o) &&& 1 = if val ≠ 0 then 1 else 0 := by
  unfold newByte
  by_cases hv : val = 0
  · have h1 : (if val ≠ 0 then b ||| (1 <<< o) else b &&& (4294967295 - (1 <<< o)))
        = b &&& (4294967295 - (1 <<< o)) := if_neg (fun h => h hv)
    have h2 : (if val ≠ 0 then (1 : Nat) else 0) = 0 := if_neg (fun h => h hv)
    rw [h1, h2, shiftRight_and_one, show (256 : Nat) = 2 ^ 8 by norm_num,
      Nat.testBit_mod_two_pow, Nat.testBit_and, testBit_not_mask o o ho ho]
    simp
  · have h1 : (if val ≠ 0 then b ||| (1 <<< o) else b &&& (4294967295 - (1 <<< o)))
        = b ||| (1 <<< o) := if_pos hv
    have h2 : (if val ≠ 0 then (1 : Nat) else 0) = 1 := if_pos hv
    rw [h1, h2, shiftRight_and_one, show (256 : Nat) = 2 ^ 8 by norm_num,
      Nat.testBit_mod_two_pow, Nat.testBit_or, Nat.one_shiftLeft, Nat.testBit_two_pow]
    simp [ho]

theorem newByte_other (b o o' : Nat) (val : Int) (ho : o < 8) (ho' : o' < 8) (hne : o' ≠ o) :
    (newByte b o val >>> o') &&& 1 = (b >>> o') &&& 1 := by
  unfold newByte
  have hne' : ¬ (o = o') := fun h => hne h.symm
  by_cases hv : val = 0
  · have h1 : (if val ≠ 0 then b ||| (1 <<< o) else b &&& (4294967295 - (1 <<< o)))
        = b &&& (4294967295 - (1 <<< o)) := if_neg (fun h => h hv)
    rw [h1, shiftRight_and_one, shiftRight_and_one, show (256 : Nat) = 2 ^ 8 by norm_num,
      Nat.testBit_mod_two_pow, Nat.testBit_and, testBit_not_mask o o' ho ho']
    simp [ho', hne']
  · have h1 : (if val ≠ 0 then b ||| (1 <<< o) else b &&& (4294967295 - (1 <<< o)))
        = b ||| (1 <<< o) := if_pos hv
    rw [h1, shiftRight_and_one, shiftRight_and_one, show (256 : Nat) = 2 ^ 8 by norm_num,
      Nat.testBit_mod_two_pow, Nat.testBit_or, Nat.one_shiftLeft, Nat.testBit_two_pow]
    simp [ho', hne']

theorem tdiv_natCast (a b : Nat) : Int.tdiv (a : Int) (b : Int) = ((a / b : Nat) : Int) := by
  rw [Int.tdiv_eq_ediv (Int.ofNat_nonneg a) (Int.ofNat_nonneg b)]
  exact (Int.ofNat_ediv a b).symm

theorem tmod_natCast (a b : Nat) : Int.tmod (a : Int) (b : Int) = ((a % b : Nat) : Int) := by
  rw [Int.tmod_eq_emod (Int.ofNat_nonneg a) (Int.ofNat_nonneg b)]
  exact (Int.ofNat_emod a b).symm

theorem getBit_nat (bm : List Nat) (i : Nat) :
    getBit bm (i : Int) = (bm[i / 8]?).map fun b => (b >>> (i % 8)) &&& 1 := by
  have h8 : (8 : Int) = ((8 : Nat) : Int) := rfl
  unfold getBit
  rw [if_neg (by omega), h8, tdiv_natCast, tmod_natCast]
  simp only [Int.toNat_ofNat]
  cases bm[i / 8]? <;> rfl

theorem setBit_nat (bm : List Nat) (i : Nat) (val : Int) :
    setBit bm (i : Int) val =
      (bm[i / 8]?).map fun b => bm.set (i / 8) (newByte b (i % 8) val) := by
  have h8 : (8 : Int) = ((8 : Nat) : Int) := rfl
  unfold setBit
  rw [if_neg (by omega), h8, tdiv_natCast, tmod_natCast]
  simp only [Int.toNat_ofNat]
  cases bm[i / 8]? <;> rfl

theorem getBit_neg (bm : List Nat) (idx : Int) (h : idx < 0) : getBit bm idx = none := by
  unfold getBit; rw [if_pos h]

theorem setBit_neg (bm : List Nat) (idx val : Int) (h : idx < 0) : setBit bm idx val = none := by
  unfold setBit; rw [if_pos h]

/-- The result of `getBit` is `0` or `1`. -/
theorem getBit_zero_or_one {bm : List Nat} {idx : Int} {v : Nat}
    (h : getBit bm idx = some v) : v = 0 ∨ v = 1 := by
  by_cases hneg : idx < 0
  · rw [getBit_neg bm idx hneg] at h; cases h
  · obtain ⟨i, rfl⟩ := Int.eq_ofNat_of_zero_le (by omega : 0 ≤ idx)
    rw [getBit_nat] at h
    cases hb : bm[i / 8]? with
    | none => rw [hb] at h; cases h
    | some b =>
      rw [hb] at h
      simp only [Option.map_some', Option.some.injEq] at h
      rw [shiftRight_and_one] at h
      split at h <;> omega

/-- A bit can be read exactly when its byte lies inside the bitmap. -/
theorem getBit_isSome_iff (bm : List Nat) (i : Nat) :
    (∃ v, getBit bm (i : Int) = some v) ↔ i / 8 < bm.length := by
  rw [getBit_nat]
  constructor
  · rintro ⟨v, hv⟩
    by_contra hlt
    rw [List.getElem?_eq_none (by omega)] at hv
    cases hv
  · intro hlt
    rw [List.getElem?_eq_getElem hlt]
    exact ⟨_, rfl⟩

theorem setBit_isSome_of_getBit {bm : List Nat} {idx : Int} {v : Nat} (val : Int)
    (h : getBit bm idx = some v) : ∃ bm', setBit bm idx val = some bm' := by
  by_cases hneg : idx < 0
  · rw [getBit_neg bm idx hneg] at h; cases h
  · obtain ⟨i, rfl⟩ := Int.eq_ofNat_of_zero_le (by omega : 0 ≤ idx)
    rw [getBit_nat] at h
    rw [setBit_nat]
    cases hb : bm[i / 8]? with
    | none => rw [hb] at h; cases h
    | some b => exact ⟨_, rfl⟩

theorem setBit_length {bm bm' : List Nat} {idx val : Int}
    (h : setBit bm idx val = some bm') : bm'.length = bm.length := by
  by_cases hneg : idx < 0
  · rw [setBit_neg bm idx val hneg] at h; cases h
  · obtain ⟨i, rfl⟩ := Int.eq_ofNat_of_zero_le (by omega : 0 ≤ idx)
    rw [setBit_nat] at h
    cases hb : bm[i / 8]? with
    | none => rw [hb] at h; cases h
    | some b =>
      rw [hb] at h
      simp only [Option.map_some', Option.some.injEq] at h
      rw [← h, List.length_set]

/-- Reading back the bit that `setBit` wrote. -/
theorem getBit_setBit_same {bm bm' : List Nat} {idx val : Int}
    (h : setBit bm idx val = some bm') :
    getBit bm' idx = some (if val ≠ 0 then 1 else 0) := by
  by_cases hneg : idx < 0
  · rw [setBit_neg bm idx val hneg] at h; cases h
  · obtain ⟨i, rfl⟩ := Int.eq_ofNat_of_zero_le (by omega : 0 ≤ idx)
    rw [setBit_nat] at h
    rw [getBit_nat]
    cases hb : bm[i / 8]? with
    | none => rw [hb] at h; cases h
    | some b =>
      rw [hb] at h
      simp only [Option.map_some', Option.some.injEq] at h
      have hlt : i / 8 < bm.length := by
        by_contra hc
        rw [List.getElem?_eq_none (by omega)] at hb
        cases hb
      rw [← h, List.getElem?_set_self hlt]
      simp only [Option.map_some']
      rw [newByte_same b (i % 8) val (Nat.mod_lt _ (by norm_num))]

/-- Every bit other than the written one is left as it was by `setBit`. -/
theorem getBit_setBit_other {bm bm' : List Nat} {idx val : Int} (j : Int)
    (h : setBit bm idx val = some bm') (hne : j ≠ idx) :
    getBit bm' j = getBit bm j := by
  by_cases hneg : idx < 0
  · rw [setBit_neg bm idx val hneg] at h; cases h
  · obtain ⟨i, rfl⟩ := Int.eq_ofNat_of_zero_le (by omega : 0 ≤ idx)
    by_cases hj : j < 0
    · rw [getBit_neg _ _ hj, getBit_neg _ _ hj]
    · obtain ⟨j, rfl⟩ := Int.eq_ofNat_of_zero_le (by omega : 0 ≤ j)
      have hij : j ≠ i := fun hc => hne (by rw [hc])
      rw [setBit_nat] at h
      rw [getBit_nat, getBit_nat]
      cases hb : bm[i / 8]? with
      | none => rw [hb] at h; cases h
      | some b =>
        rw [hb] at h
        simp only [Option.map_some', Option.some.injEq] at h
        have hlt : i / 8 < bm.length := by
          by_contra hc
          rw [List.getElem?_eq_none (by omega)] at hb
          cases hb
        rw [← h, List.getElem?_set]
        by_cases hbyte : i / 8 = j / 8
        · rw [if_pos hbyte, if_pos hlt, ← hbyte, hb]
          simp only [Option.map_some']
          rw [newByte_other b (i % 8) (j % 8) val (Nat.mod_lt _ (by norm_num))
            (Nat.mod_lt _ (by norm_num)) (by omega)]
        · rw [if_neg hbyte]

/-! ## The two scans of `kmalloc` -/

theorem not_reusable_of_skipped {s : Slab} {i : Nat} (h : Skipped s i) : ¬ Reusable s i := by
  rintro ⟨h0, p, hp, hne⟩
  rcases h with h1 | ⟨_, h2⟩
  · rw [h0] at h1; cases h1
  · rw [hp] at h2; cases h2; exact hne rfl

theorem kmalloc_reuse_found (s : Slab) (n i : Nat) (h : Reusable s i) :
    kmalloc_reuse s (n + 1) i = some (some i) := by
  obtain ⟨h0, p, hp, hne⟩ := h
  simp only [kmalloc_reuse, h0, hp, if_pos, if_true, hne, ne_eq, not_false_eq_true]

theorem kmalloc_reuse_skip (s : Slab) (n i : Nat) (h : Skipped s i) :
    kmalloc_reuse s (n + 1) i = kmalloc_reuse s n (i + 1) := by
  rcases h with h1 | ⟨h0, h2⟩
  · simp only [kmalloc_reuse, h1, one_ne_zero, if_false]
  · simp only [kmalloc_reuse, h0, h2, if_true, ne_eq, not_true_eq_false, if_false]

theorem kmalloc_reuse_undef (s : Slab) (n i : Nat) (h1 : ¬ Reusable s i) (h2 : ¬ Skipped s i) :
    kmalloc_reuse s (n + 1) i = none := by
  simp only [kmalloc_reuse]
  cases hb : getBit s.bitmap i with
  | none => rfl
  | some b =>
    rcases getBit_zero_or_one hb with rfl | rfl
    · cases hp : readAt s.page (Int.tdiv i s.num_objects_per_page) with
      | none => simp
      | some p =>
        by_cases hz : p = 0
        · exact absurd (Or.inr ⟨hb, by rw [hp, hz]⟩) h2
        · exact absurd ⟨hb, p, hp, hz⟩ h1
    · exact absurd (Or.inl hb) h2

/-- The first scan returns `i` exactly when `i` is the least index in its range
that is reusable and every index before it is passed over without fault. -/
theorem kmalloc_reuse_eq_some_iff (s : Slab) (n i0 i : Nat) :
    kmalloc_reuse s n i0 = some (some i) ↔
      i0 ≤ i ∧ i < i0 + n ∧ Reusable s i ∧ ∀ j, i0 ≤ j → j < i → Skipped s j := by
  induction n generalizing i0 with
  | zero =>
    simp only [kmalloc_reuse]
    constructor
    · intro h; cases h
    · rintro ⟨h1, h2, _⟩; omega
  | succ n ih =>
    by_cases hr : Reusable s i0
    · rw [kmalloc_reuse_found s n i0 hr]
      constructor
      · intro h
        cases h
        exact ⟨le_refl _, by omega, hr, fun j h1 h2 => by omega⟩
      · rintro ⟨h1, _, _, h4⟩
        by_cases he : i = i0
        · rw [he]
        · exact absurd hr (not_reusable_of_skipped (h4 i0 (le_refl _) (by omega)))
    · by_cases hs : Skipped s i0
      · rw [kmalloc_reuse_skip s n i0 hs, ih (i0 + 1)]
        constructor
        · rintro ⟨h1, h2, h3, h4⟩
          refine ⟨by omega, by omega, h3, fun j hj1 hj2 => ?_⟩
          by_cases he : j = i0
          · rw [he]; exact hs
          · exact h4 j (by omega) hj2
        · rintro ⟨h1, h2, h3, h4⟩
          have hne : i ≠ i0 := fun he => hr (he ▸ h3)
          exact ⟨by omega, by omega, h3, fun j hj1 hj2 => h4 j (by omega) hj2⟩
      · rw [kmalloc_reuse_undef s n i0 hr hs]
        constructor
        · intro h; cases h
        · rintro ⟨h1, _, h3, h4⟩
          by_cases he : i = i0
          · exact absurd (he ▸ h3) hr
          · exact absurd (h4 i0 (le_refl _) (by omega)) hs

/-- The first scan finds nothing exactly when every index of its range is
passed over without fault. -/
theorem kmalloc_reuse_eq_none_iff (s : Slab) (n i0 : Nat) :
    kmalloc_reuse s n i0 = some none ↔ ∀ j, i0 ≤ j → j < i0 + n → Skipped s j := by
  induction n generalizing i0 with
  | zero =>
    simp only [kmalloc_reuse, true_iff]
    intro j h1 h2; omega
  | succ n ih =>
    by_cases hr : Reusable s i0
    · rw [kmalloc_reuse_found s n i0 hr]
      constructor
      · intro h; cases h
      · intro h
        exact absurd hr (not_reusable_of_skipped (h i0 (le_refl _) (by omega)))
    · by_cases hs : Skipped s i0
      · rw [kmalloc_reuse_skip s n i0 hs, ih (i0 + 1)]
        constructor
        · intro h j hj1 hj2
          by_cases he : j = i0
          · rw [he]; exact hs
          · exact h j (by omega) (by omega)
        · intro h j hj1 hj2
          exact h j (by omega) (by omega)
      · rw [kmalloc_reuse_undef s n i0 hr hs]
        constructor
        · intro h; cases h
        · intro h
          exact absurd (h i0 (le_refl _) (by omega)) hs

/-- The second scan returns `i` exactly when `i` is the least clear bit of its
range and every bit before it is set. -/
theorem kmalloc_grow_eq_some_iff (s : Slab) (n i0 i : Nat) :
    kmalloc_grow s n i0 = some (some i) ↔
      i0 ≤ i ∧ i < i0 + n ∧ getBit s.bitmap i = some 0 ∧
        ∀ j, i0 ≤ j → j < i → getBit s.bitmap j = some 1 := by
  induction n generalizing i0 with
  | zero =>
    simp only [kmalloc_grow]
    constructor
    · intro h; cases h
    · rintro ⟨h1, h2, _⟩; omega
  | succ n ih =>
    simp only [kmalloc_grow]
    cases hb : getBit s.bitmap i0 with
    | none =>
      constructor
      · intro h; cases h
      · rintro ⟨h1, _, h3, h4⟩
        by_cases he : i = i0
        · rw [he, hb] at h3; cases h3
        · have := h4 i0 (le_refl _) (by omega)
          rw [hb] at this; cases this
    | some b =>
      rcases getBit_zero_or_one hb with rfl | rfl
      · simp only [if_true]
        constructor
        · intro h
          cases h
          exact ⟨le_refl _, by omega, hb, fun j h1 h2 => by omega⟩
        · rintro ⟨h1, _, _, h4⟩
          by_cases he : i = i0
          · rw [he]
          · have := h4 i0 (le_refl _) (by omega)
            rw [hb] at this; cases this
      · simp only [one_ne_zero, if_false]
        rw [ih (i0 + 1)]
        constructor
        · rintro ⟨h1, h2, h3, h4⟩
          refine ⟨by omega, by omega, h3, fun j hj1 hj2 => ?_⟩
          by_cases he : j = i0
          · rw [he]; exact hb
          · exact h4 j (by omega) hj2
        · rintro ⟨h1, h2, h3, h4⟩
          have hne : i ≠ i0 := by
            intro he; rw [he, hb] at h3; cases h3
          exact ⟨by omega, by omega, h3, fun j hj1 hj2 => h4 j (by omega) hj2⟩

/-- The second scan finds nothing exactly when every bit of its range is set. -/
theorem kmalloc_grow_eq_none_iff (s : Slab) (n i0 : Nat) :
    kmalloc_grow s n i0 = some none ↔
      ∀ j, i0 ≤ j → j < i0 + n → getBit s.bitmap j = some 1 := by
  induction n generalizing i0 with
  | zero =>
    simp only [kmalloc_grow, true_iff]
    intro j h1 h2; omega
  | succ n ih =>
    simp only [kmalloc_grow]
    cases hb : getBit s.bitmap i0 with
    | none =>
      constructor
      · intro h; cases h
      · intro h
        have := h i0 (le_refl _) (by omega)
        rw [hb] at this; cases this
    | some b =>
      rcases getBit_zero_or_one hb with rfl | rfl
      · simp only [if_true]
        constructor
        · intro h; cases h
        · intro h
          have := h i0 (le_refl _) (by omega)
          rw [hb] at this; cases this
      · simp only [one_ne_zero, if_false]
        rw [ih (i0 + 1)]
        constructor
        · intro h j hj1 hj2
          by_cases he : j = i0
          · rw [he]; exact hb
          · exact h j (by omega) (by omega)
        · intro h j hj1 hj2
          exact h j (by omega) (by omega)

/-! ## The three outcomes of `kmalloc` -/

/-- Outcome of `kmalloc` when the first scan finds bit `i`. -/
theorem kmalloc_of_reuse {cfg : Config} {st : Stable} {size : Int} {kr k i pg : Nat}
    {s : Slab} {bm : List Nat}
    (hk : findSlab st.slab size cfg.NSLAB 0 = some k) (hs : st.slab[k]? = some s)
    (h1 : kmalloc_reuse s (s.nbits cfg) 0 = some (some i))
    (hpg : readAt s.page (Int.tdiv i s.num_objects_per_page) = some pg)
    (hbm : setBit s.bitmap i 1 = some bm) :
    kmalloc cfg st size kr =
      some ({ slab := st.slab.set k (s.claimed bm)
              trace := st.trace ++ [Event.acquire, Event.release] },
            ((pg : Int) + Int.tmod i s.num_objects_per_page * s.size).toNat) := by
  unfold Slab.nbits at h1
  simp only [kmalloc, acquire, release, hk, hs, h1, hpg, hbm, Slab.claimed,
    List.append_assoc, List.singleton_append]

/-- Outcome of `kmalloc` when the first scan finds nothing and the second finds
bit `i`. -/
theorem kmalloc_of_grow {cfg : Config} {st : Stable} {size : Int} {kr k i : Nat}
    {s : Slab} {pages bm : List Nat}
    (hk : findSlab st.slab size cfg.NSLAB 0 = some k) (hs : st.slab[k]? = some s)
    (h1 : kmalloc_reuse s (s.nbits cfg) 0 = some none)
    (h2 : kmalloc_grow s (s.nbits cfg) 0 = some (some i))
    (hpg : writeAt s.page (Int.tdiv i s.num_objects_per_page) kr = some pages)
    (hbm : setBit s.bitmap i 1 = some bm) :
    kmalloc cfg st size kr =
      some ({ slab := st.slab.set k (s.grown pages bm)
              trace := st.trace ++ [Event.acquire, Event.kalloc kr, Event.release] }, kr) := by
  unfold Slab.nbits at h1 h2
  simp only [kmalloc, acquire, release, kalloc, hk, hs, h1, h2, hpg, hbm, Slab.grown,
    List.append_assoc, List.singleton_append, List.cons_append, List.nil_append]

/-- Outcome of `kmalloc` when both scans find nothing. -/
theorem kmalloc_of_full {cfg : Config} {st : Stable} {size : Int} {kr k : Nat} {s : Slab}
    (hk : findSlab st.slab size cfg.NSLAB 0 = some k) (hs : st.slab[k]? = some s)
    (h1 : kmalloc_reuse s (s.nbits cfg) 0 = some none)
    (h2 : kmalloc_grow s (s.nbits cfg) 0 = some none) :
    kmalloc cfg st size kr =
      some ({ slab := st.slab, trace := st.trace ++ [Event.acquire, Event.release] }, 0) := by
  unfold Slab.nbits at h1 h2
  simp only [kmalloc, acquire, release, hk, hs, h1, h2,
    List.append_assoc, List.singleton_append]

/-- Every defined run of `kmalloc` is one of the three outcomes. -/
theorem kmalloc_cases {cfg : Config} {st st' : Stable} {size : Int} {kr p : Nat}
    (h : kmalloc cfg st size kr = some (st', p)) :
    ∃ k s, findSlab st.slab size cfg.NSLAB 0 = some k ∧ st.slab[k]? = some s ∧
      ((∃ i pg bm, kmalloc_reuse s (s.nbits cfg) 0 = some (some i) ∧
          readAt s.page (Int.tdiv i s.num_objects_per_page) = some pg ∧
          setBit s.bitmap i 1 = some bm ∧
          st' = { slab := st.slab.set k (s.claimed bm)
                  trace := st.trace ++ [Event.acquire, Event.release] } ∧
          p = ((pg : Int) + Int.tmod i s.num_objects_per_page * s.size).toNat) ∨
       (∃ i pages bm, kmalloc_reuse s (s.nbits cfg) 0 = some none ∧
          kmalloc_grow s (s.nbits cfg) 0 = some (some i) ∧
          writeAt s.page (Int.tdiv i s.num_objects_per_page) kr = some pages ∧
          setBit s.bitmap i 1 = some bm ∧
          st' = { slab := st.slab.set k (s.grown pages bm)
                  trace := st.trace ++ [Event.acquire, Event.kalloc kr, Event.release] } ∧
          p = kr) ∨
       (kmalloc_reuse s (s.nbits cfg) 0 = some none ∧
          kmalloc_grow s (s.nbits cfg) 0 = some none ∧
          st' = { slab := st.slab, trace := st.trace ++ [Event.acquire, Event.release] } ∧
          p = 0)) := by
  cases hk : findSlab st.slab size cfg.NSLAB 0 with
  | none => simp [kmalloc, acquire, hk] at h
  | some k =>
    cases hs : st.slab[k]? with
    | none => simp [kmalloc, acquire, hk, hs] at h
    | some s =>
      refine ⟨k, s, rfl, hs, ?_⟩
      cases h1 : kmalloc_reuse s (s.nbits cfg) 0 with
      | none =>
        unfold Slab.nbits at h1
        simp [kmalloc, acquire, hk, hs, h1] at h
      | some r1 =>
        cases r1 with
        | some i =>
          left
          cases hpg : readAt s.page (Int.tdiv i s.num_objects_per_page) with
          | none =>
            unfold Slab.nbits at h1
            simp [kmalloc, acquire, hk, hs, h1, hpg] at h
          | some pg =>
            cases hbm : setBit s.bitmap i 1 with
            | none =>
              unfold Slab.nbits at h1
              simp [kmalloc, acquire, hk, hs, h1, hpg, hbm] at h
            | some bm =>
              rw [kmalloc_of_reuse hk hs h1 hpg hbm] at h
              simp only [Option.some.injEq, Prod.mk.injEq] at h
              exact ⟨i, pg, bm, rfl, hpg, hbm, h.1.symm, h.2.symm⟩
        | none =>
          right
          cases h2 : kmalloc_grow s (s.nbits cfg) 0 with
          | none =>
            unfold Slab.nbits at h1 h2
            simp [kmalloc, acquire, hk, hs, h1, h2] at h
          | some r2 =>
            cases r2 with
            | some i =>
              left
              cases hpg : writeAt s.page (Int.tdiv i s.num_objects_per_page) kr with
              | none =>
                unfold Slab.nbits at h1 h2
                simp [kmalloc, acquire, hk, hs, h1, h2, hpg] at h
              | some pages =>
                cases hbm : setBit s.bitmap i 1 with
                | none =>
                  unfold Slab.nbits at h1 h2
                  simp [kmalloc, acquire, hk, hs, h1, h2, hpg, hbm] at h
                | some bm =>
                  rw [kmalloc_of_grow hk hs h1 h2 hpg hbm] at h
                  simp only [Option.some.injEq, Prod.mk.injEq] at h
                  exact ⟨i, pages, bm, rfl, rfl, hpg, hbm, h.1.symm, h.2.symm⟩
            | none =>
              right
              rw [kmalloc_of_full hk hs h1 h2] at h
              simp only [Option.some.injEq, Prod.mk.injEq] at h
              exact ⟨rfl, rfl, h.1.symm, h.2.symm⟩

/-! ## The outcomes of `kmfree` -/

/-- The page-emptiness scan answers `true` exactly when all `n` bits from `lo`
on are clear. -/
theorem kmfree_isfree_eq_true_iff (bm : List Nat) (n : Nat) (lo : Int) :
    kmfree_isfree bm n lo = some true ↔ ∀ t : Nat, t < n → getBit bm (lo + t) = some 0 := by
  induction n generalizing lo with
  | zero =>
    simp only [kmfree_isfree, true_iff]
    intro t ht; omega
  | succ n ih =>
    simp only [kmfree_isfree]
    cases hb : getBit bm lo with
    | none =>
      constructor
      · intro h; cases h
      · intro h
        have := h 0 (by omega)
        simp only [Nat.cast_zero, add_zero] at this
        rw [hb] at this; cases this
    | some b =>
      rcases getBit_zero_or_one hb with rfl | rfl
      · simp only [ne_eq, not_true_eq_false, if_false]
        rw [ih (lo + 1)]
        constructor
        · intro h t ht
          cases t with
          | zero => simpa using hb
          | succ t =>
            have := h t (by omega)
            rw [show lo + ((t + 1 : Nat) : Int) = lo + 1 + (t : Int) by push_cast; ring]
            exact this
        · intro h t ht
          have := h (t + 1) (by omega)
          rw [show lo + ((t + 1 : Nat) : Int) = lo + 1 + (t : Int) by push_cast; ring] at this
          exact this
      · simp only [ne_eq, one_ne_zero, not_false_eq_true, if_true]
        constructor
        · intro h; cases h
        · intro h
          have := h 0 (by omega)
          simp only [Nat.cast_zero, add_zero] at this
          rw [hb] at this; cases this

/-- The page-emptiness scan answers `false` exactly when it meets a set bit
after reading clear bits only. -/
theorem kmfree_isfree_eq_false_iff (bm : List Nat) (n : Nat) (lo : Int) :
    kmfree_isfree bm n lo = some false ↔
      ∃ t : Nat, t < n ∧ getBit bm (lo + t) = some 1 ∧
        ∀ u : Nat, u < t → getBit bm (lo + u) = some 0 := by
  induction n generalizing lo with
  | zero =>
    simp only [kmfree_isfree]
    constructor
    · intro h; cases h
    · rintro ⟨t, ht, _⟩; omega
  | succ n ih =>
    simp only [kmfree_isfree]
    cases hb : getBit bm lo with
    | none =>
      constructor
      · intro h; cases h
      · rintro ⟨t, _, h1, h2⟩
        cases t with
        | zero =>
          simp only [Nat.cast_zero, add_zero] at h1
          rw [hb] at h1; cases h1
        | succ t =>
          have := h2 0 (by omega)
          simp only [Nat.cast_zero, add_zero] at this
          rw [hb] at this; cases this
    | some b =>
      rcases getBit_zero_or_one hb with rfl | rfl
      · simp only [ne_eq, not_true_eq_false, if_false]
        rw [ih (lo + 1)]
        constructor
        · rintro ⟨t, ht, h1, h2⟩
          refine ⟨t + 1, by omega, ?_, ?_⟩
          · rw [show lo + ((t + 1 : Nat) : Int) = lo + 1 + (t : Int) by push_cast; ring]
            exact h1
          · intro u hu
            cases u with
            | zero => simpa using hb
            | succ u =>
              rw [show lo + ((u + 1 : Nat) : Int) = lo + 1 + (u : Int) by push_cast; ring]
              exact h2 u (by omega)
        · rintro ⟨t, ht, h1, h2⟩
          cases t with
          | zero =>
            simp only [Nat.cast_zero, add_zero] at h1
            rw [hb] at h1; cases h1
          | succ t =>
            refine ⟨t, by omega, ?_, ?_⟩
            · rw [show lo + ((t + 1 : Nat) : Int) = lo + 1 + (t : Int) by push_cast; ring] at h1
              exact h1
            · intro u hu
              have := h2 (u + 1) (by omega)
              rw [show lo + ((u + 1 : Nat) : Int) = lo + 1 + (u : Int) by push_cast; ring] at this
              exact this
      · simp only [ne_eq, one_ne_zero, not_false_eq_true, if_true]
        constructor
        · intro _
          exact ⟨0, by omega, by simpa using hb, fun u hu => by omega⟩
        · intro _; trivial

/-- The page scan stops at the first non-empty slot whose page contains
`addr`. -/
theorem kmfree_find_found (cfg : Config) (page : List Nat) (addr n i0 p a : Nat) (off : Int)
    (h1 : i0 ≤ p) (h2 : p < i0 + n) (hp : page[p]? = some a) (ha : a ≠ 0)
    (hin : 0 ≤ (addr : Int) - (a : Int) ∧ (addr : Int) - (a : Int) < cfg.PGSIZE)
    (hmiss : ∀ j, i0 ≤ j → j < p → PageMiss cfg page addr j) :
    kmfree_find cfg page addr n i0 off = some (p, (addr : Int) - (a : Int)) := by
  induction n generalizing i0 off with
  | zero => omega
  | succ n ih =>
    by_cases he : i0 = p
    · subst he
      simp only [kmfree_find, hp, ha, if_false, hin, and_self, if_true]
    · obtain ⟨b, hb, hb2⟩ := hmiss i0 (le_refl _) (by omega)
      simp only [kmfree_find, hb]
      by_cases hz : b = 0
      · rw [if_pos hz]
        exact ih (i0 + 1) off (by omega) (by omega) (fun j hj1 hj2 => hmiss j (by omega) hj2)
      · rw [if_neg hz]
        have hb3 : ¬ (0 ≤ (addr : Int) - (b : Int) ∧ (addr : Int) - (b : Int) < cfg.PGSIZE) := by
          rcases hb2 with hb2 | hb2
          · exact absurd hb2 hz
          · exact hb2
        rw [if_neg hb3]
        exact ih (i0 + 1) _ (by omega) (by omega) (fun j hj1 hj2 => hmiss j (by omega) hj2)

/-- The slot index the page scan ends with lies in `[i0, i0 + n]`. -/
theorem kmfree_find_bounds (cfg : Config) (page : List Nat) (addr n i0 : Nat) (off : Int)
    {i : Nat} {offset : Int} (h : kmfree_find cfg page addr n i0 off = some (i, offset)) :
    i0 ≤ i ∧ i ≤ i0 + n := by
  induction n generalizing i0 off with
  | zero =>
    simp only [kmfree_find, Option.some.injEq, Prod.mk.injEq] at h
    omega
  | succ n ih =>
    simp only [kmfree_find] at h
    cases hb : page[i0]? with
    | none => rw [hb] at h; cases h
    | some b =>
      rw [hb] at h
      simp only at h
      split at h
      · have := ih (i0 + 1) off h; omega
      · split at h
        · simp only [Option.some.injEq, Prod.mk.injEq] at h
          omega
        · have := ih (i0 + 1) _ h; omega

/-- On a null pointer or a non-positive size `kmfree` returns at once. -/
theorem kmfree_of_invalid {cfg : Config} {st : Stable} {addr : Nat} {size : Int}
    (h : addr = 0 ∨ size ≤ 0) : kmfree cfg st addr size = some st := by
  unfold kmfree
  rw [if_pos (by rcases h with h | h; exact Or.inl h; exact Or.inr h)]

/-- Outcome of `kmfree` when the bit it computes is already clear. -/
theorem kmfree_of_clear {cfg : Config} {st : Stable} {addr : Nat} {size : Int} {k i : Nat}
    {offset : Int} {s : Slab} (ha : addr ≠ 0) (hsz : 0 < size)
    (hk : findSlab st.slab size cfg.NSLAB 0 = some k) (hs : st.slab[k]? = some s)
    (hf : kmfree_find cfg s.page addr cfg.MAX_PAGES_PER_SLAB 0 0 = some (i, offset))
    (hb : getBit s.bitmap ((i : Int) * s.num_objects_per_page + Int.tdiv offset s.size) = some 0) :
    kmfree cfg st addr size =
      some { slab := st.slab, trace := st.trace ++ [Event.acquire, Event.release] } := by
  unfold kmfree
  rw [if_neg (by omega)]
  simp only [acquire, release, hk, hs, hf, hb, if_true, List.append_assoc, List.singleton_append]

/-- Outcome of `kmfree` when it clears a bit and the page keeps a set bit. -/
theorem kmfree_of_rest {cfg : Config} {st : Stable} {addr : Nat} {size : Int} {k i : Nat}
    {offset : Int} {s : Slab} {bm : List Nat} (ha : addr ≠ 0) (hsz : 0 < size)
    (hk : findSlab st.slab size cfg.NSLAB 0 = some k) (hs : st.slab[k]? = some s)
    (hf : kmfree_find cfg s.page addr cfg.MAX_PAGES_PER_SLAB 0 0 = some (i, offset))
    (hb : getBit s.bitmap ((i : Int) * s.num_objects_per_page + Int.tdiv offset s.size) = some 1)
    (hbm : setBit s.bitmap ((i : Int) * s.num_objects_per_page + Int.tdiv offset s.size) 0
      = some bm)
    (hfree : kmfree_isfree bm
      ((((i : Int) + 1) * s.num_objects_per_page - (i : Int) * s.num_objects_per_page).toNat)
      ((i : Int) * s.num_objects_per_page) = some false) :
    kmfree cfg st addr size =
      some { slab := st.slab.set k (s.released bm)
             trace := st.trace ++ [Event.acquire, Event.release] } := by
  unfold kmfree
  rw [if_neg (by omega)]
  simp only [acquire, release, hk, hs, hf, hb, hbm, hfree, one_ne_zero, if_false,
    Slab.released, List.append_assoc, List.singleton_append]

/-- Outcome of `kmfree` when it clears the last set bit of a page. -/
theorem kmfree_of_last {cfg : Config} {st : Stable} {addr : Nat} {size : Int} {k i pg : Nat}
    {offset : Int} {s : Slab} {bm pages : List Nat} (ha : addr ≠ 0) (hsz : 0 < size)
    (hk : findSlab st.slab size cfg.NSLAB 0 = some k) (hs : st.slab[k]? = some s)
    (hf : kmfree_find cfg s.page addr cfg.MAX_PAGES_PER_SLAB 0 0 = some (i, offset))
    (hb : getBit s.bitmap ((i : Int) * s.num_objects_per_page + Int.tdiv offset s.size) = some 1)
    (hbm : setBit s.bitmap ((i : Int) * s.num_objects_per_page + Int.tdiv offset s.size) 0
      = some bm)
    (hfree : kmfree_isfree bm
      ((((i : Int) + 1) * s.num_objects_per_page - (i : Int) * s.num_objects_per_page).toNat)
      ((i : Int) * s.num_objects_per_page) = some true)
    (hpg : readAt s.page i = some pg) (hpages : writeAt s.page i 0 = some pages) :
    kmfree cfg st addr size =
      some { slab := st.slab.set k (s.shrunk pages bm)
             trace := st.trace ++ [Event.acquire, Event.kfree pg, Event.release] } := by
  unfold kmfree
  rw [if_neg (by omega)]
  simp only [acquire, release, kfree, hk, hs, hf, hb, hbm, hfree, hpg, hpages, one_ne_zero,
    if_false, Slab.shrunk, List.append_assoc, List.singleton_append, List.cons_append,
    List.nil_append]

/-- Every defined run of `kmfree` is one of its four outcomes. -/
theorem kmfree_cases {cfg : Config} {st st' : Stable} {addr : Nat} {size : Int}
    (h : kmfree cfg st addr size = some st') :
    ((addr = 0 ∨ size ≤ 0) ∧ st' = st) ∨
    (addr ≠ 0 ∧ 0 < size ∧
      ∃ k s i offset, findSlab st.slab size cfg.NSLAB 0 = some k ∧ st.slab[k]? = some s ∧
        kmfree_find cfg s.page addr cfg.MAX_PAGES_PER_SLAB 0 0 = some (i, offset) ∧
        ((getBit s.bitmap ((i : Int) * s.num_objects_per_page + Int.tdiv offset s.size) = some 0 ∧
            st' = { slab := st.slab, trace := st.trace ++ [Event.acquire, Event.release] }) ∨
         (getBit s.bitmap ((i : Int) * s.num_objects_per_page + Int.tdiv offset s.size) = some 1 ∧
            ∃ bm, setBit s.bitmap
                ((i : Int) * s.num_objects_per_page + Int.tdiv offset s.size) 0 = some bm ∧
              ((kmfree_isfree bm
                  ((((i : Int) + 1) * s.num_objects_per_page
                    - (i : Int) * s.num_objects_per_page).toNat)
                  ((i : Int) * s.num_objects_per_page) = some false ∧
                st' = { slab := st.slab.set k (s.released bm)
                        trace := st.trace ++ [Event.acquire, Event.release] }) ∨
               (kmfree_isfree bm
                  ((((i : Int) + 1) * s.num_objects_per_page
                    - (i : Int) * s.num_objects_per_page).toNat)
                  ((i : Int) * s.num_objects_per_page) = some true ∧
                ∃ pg pages, readAt s.page i = some pg ∧ writeAt s.page i 0 = some pages ∧
                  st' = { slab := st.slab.set k (s.shrunk pages bm)
                          trace := st.trace ++
                            [Event.acquire, Event.kfree pg, Event.release] }))))) := by
  by_cases hinv : addr = 0 ∨ size ≤ 0
  · left
    rw [kmfree_of_invalid hinv] at h
    exact ⟨hinv, (Option.some.inj h).symm⟩
  · right
    have ha : addr ≠ 0 := fun hc => hinv (Or.inl hc)
    have hsz : 0 < size := by
      by_contra hc; exact hinv (Or.inr (by omega))
    refine ⟨ha, hsz, ?_⟩
    have hguard : ¬ (addr = 0 ∨ 0 ≥ size) := by
      rintro (hc | hc)
      · exact ha hc
      · omega
    cases hk : findSlab st.slab size cfg.NSLAB 0 with
    | none => simp [kmfree, hguard, acquire, hk] at h
    | some k =>
      cases hs : st.slab[k]? with
      | none => simp [kmfree, hguard, acquire, hk, hs] at h
      | some s =>
        cases hf : kmfree_find cfg s.page addr cfg.MAX_PAGES_PER_SLAB 0 0 with
        | none => simp [kmfree, hguard, acquire, hk, hs, hf] at h
        | some r =>
          obtain ⟨i, offset⟩ := r
          refine ⟨k, s, i, offset, rfl, hs, hf, ?_⟩
          cases hb : getBit s.bitmap
              ((i : Int) * s.num_objects_per_page + Int.tdiv offset s.size) with
          | none => simp [kmfree, hguard, acquire, hk, hs, hf, hb] at h
          | some b =>
            rcases getBit_zero_or_one hb with rfl | rfl
            · left
              rw [kmfree_of_clear ha hsz hk hs hf hb] at h
              exact ⟨rfl, (Option.some.inj h).symm⟩
            · right
              refine ⟨rfl, ?_⟩
              obtain ⟨bm, hbm⟩ := setBit_isSome_of_getBit 0 hb
              refine ⟨bm, hbm, ?_⟩
              cases hfree : kmfree_isfree bm
                  ((((i : Int) + 1) * s.num_objects_per_page
                    - (i : Int) * s.num_objects_per_page).toNat)
                  ((i : Int) * s.num_objects_per_page) with
              | none => simp [kmfree, hguard, acquire, hk, hs, hf, hb, hbm, hfree] at h
              | some fr =>
                cases fr with
                | false =>
                  left
                  rw [kmfree_of_rest ha hsz hk hs hf hb hbm hfree] at h
                  exact ⟨rfl, (Option.some.inj h).symm⟩
                | true =>
                  right
                  refine ⟨rfl, ?_⟩
                  cases hpg : readAt s.page i with
                  | none => simp [kmfree, hguard, acquire, hk, hs, hf, hb, hbm, hfree, hpg] at h
                  | some pg =>
                    cases hpages : writeAt s.page i 0 with
                    | none =>
                      simp [kmfree, hguard, acquire, hk, hs, hf, hb, hbm, hfree, hpg, hpages] at h
                    | some pages =>
                      rw [kmfree_of_last ha hsz hk hs hf hb hbm hfree hpg hpages] at h
                      exact ⟨pg, pages, rfl, rfl, (Option.some.inj h).symm⟩

/-! ## Class selection -/

/-- The class scan stops at the first class whose size covers the request. -/
theorem findSlab_eq_some (slabs : List Slab) (size : Int) (n k0 k : Nat) (s : Slab)
    (h1 : k0 ≤ k) (h2 : k < k0 + n) (hs : slabs[k]? = some s) (hle : size ≤ s.size)
    (hlt : ∀ j, k0 ≤ j → j < k → ∃ t, slabs[j]? = some t ∧ t.size < size) :
    findSlab slabs size n k0 = some k := by
  induction n generalizing k0 with
  | zero => omega
  | succ n ih =>
    by_cases he : k0 = k
    · subst he
      simp only [findSlab, hs, hle, if_true]
    · obtain ⟨t, ht, ht2⟩ := hlt k0 (le_refl _) (by omega)
      simp only [findSlab, ht]
      rw [if_neg (by omega)]
      exact ih (k0 + 1) (by omega) (by omega) (fun j hj1 hj2 => hlt j (by omega) hj2)

/-- On a table with the sizes of `slabinit`, the scan returns the given index
as soon as it is the least one whose class size covers the request. -/
theorem findSlab_of_least {cfg : Config} {st : Stable} (hst : SizesSet cfg st) {size : Int}
    {k : Nat} (hk : k < cfg.NSLAB) (hle : size ≤ 16 * 2 ^ k)
    (hmin : ∀ j, j < k → (16 * 2 ^ j : Int) < size) :
    findSlab st.slab size cfg.NSLAB 0 = some k := by
  obtain ⟨hlen, hsz⟩ := hst
  have hex : ∀ j, j < cfg.NSLAB → ∃ t, st.slab[j]? = some t ∧ t.size = 16 * 2 ^ j := by
    intro j hj
    have hj2 : j < st.slab.length := by omega
    exact ⟨st.slab[j], List.getElem?_eq_getElem hj2, hsz j _ (List.getElem?_eq_getElem hj2)⟩
  obtain ⟨s, hs, hs2⟩ := hex k hk
  refine findSlab_eq_some st.slab size cfg.NSLAB 0 k s (Nat.zero_le _) (by omega) hs
    (by rw [hs2]; exact hle) ?_
  intro j _ hj
  obtain ⟨t, ht, ht2⟩ := hex j (by omega)
  exact ⟨t, ht, by rw [ht2]; exact hmin j hj⟩

/-- A request no larger than the largest class has a least covering class. -/
theorem exists_least_class (n : Nat) (hn : 0 < n) (size : Int)
    (hle : size ≤ 16 * 2 ^ (n - 1)) :
    ∃ k, k < n ∧ size ≤ 16 * 2 ^ k ∧ ∀ j, j < k → (16 * 2 ^ j : Int) < size := by
  classical
  have hex : ∃ k, size ≤ 16 * 2 ^ k := ⟨n - 1, hle⟩
  refine ⟨Nat.find hex, ?_, Nat.find_spec hex, ?_⟩
  · have := Nat.find_min' hex hle
    omega
  · intro j hj
    have := Nat.find_min hex hj
    omega

/-! ## `slabinit` -/

theorem memset_page_replicate (nbytes j n : Nat) :
    memset_page nbytes j (List.replicate n 0) = List.replicate n 0 := by
  induction n generalizing j with
  | zero => rfl
  | succ n ih =>
    simp only [List.replicate_succ, memset_page, ih, Nat.zero_div, Nat.zero_mul, ite_self]

theorem slabinit_body_zeroed (cfg : Config) (hmax : 0 < cfg.MAX_PAGES_PER_SLAB)
    (k kb kp : Nat) (hkb : kb ≠ 0) :
    slabinit_body cfg k
      { size := 0, num_pages := 0, num_free_objects := 0, num_used_objects := 0
        num_objects_per_page := 0, bitmap := []
        page := List.replicate cfg.MAX_PAGES_PER_SLAB 0 } kb kp
      = some (freshSlab cfg k kp) := by
  simp only [slabinit_body, hkb, if_false, memset_page_replicate, writeAt, le_refl,
    Int.toNat_zero, List.length_replicate, hmax, and_self, if_true, freshSlab, zero_add]

/-- The loop of `slabinit` on a table whose classes from `i` on are still
zeroed: it completes, and writes class `k` as `freshSlab`. -/
theorem slabinit_loop_spec (cfg : Config) (hmax : 0 < cfg.MAX_PAGES_PER_SLAB)
    (kr : Nat → Nat) (n i : Nat) (st : Stable)
    (hkr : ∀ k, k < i + n → kr (2 * k) ≠ 0)
    (hlen : st.slab.length = i + n)
    (hdone : ∀ k, k < i → st.slab[k]? = some (freshSlab cfg k (kr (2 * k + 1))))
    (htodo : ∀ k, i ≤ k → k < i + n → st.slab[k]? = some
      { size := 0, num_pages := 0, num_free_objects := 0, num_used_objects := 0
        num_objects_per_page := 0, bitmap := []
        page := List.replicate cfg.MAX_PAGES_PER_SLAB 0 }) :
    ∃ st', slabinit_loop cfg kr n i st = some st' ∧ st'.slab.length = i + n ∧
      ∀ k, k < i + n → st'.slab[k]? = some (freshSlab cfg k (kr (2 * k + 1))) := by
  induction n generalizing i st with
  | zero => exact ⟨st, rfl, hlen, fun k hk => hdone k (by omega)⟩
  | succ n ih =>
    have hi := htodo i (le_refl _) (by omega)
    simp only [slabinit_loop, hi, slabinit_body_zeroed cfg hmax i _ _ (hkr i (by omega))]
    have := ih (i + 1)
      (kalloc (kalloc { st with slab := st.slab.set i (freshSlab cfg i (kr (2 * i + 1))) }
        (kr (2 * i))) (kr (2 * i + 1)))
      (fun k hk => hkr k (by omega))
      (by simp only [kalloc, List.length_set]; omega)
      (fun k hk => by
        simp only [kalloc]
        by_cases he : k = i
        · subst he
          rw [List.getElem?_set_self (by omega)]
        · rw [List.getElem?_set_ne (fun hc => he hc.symm)]
          exact hdone k (by omega))
      (fun k hk1 hk2 => by
        simp only [kalloc]
        rw [List.getElem?_set_ne (by omega)]
        exact htodo k (by omega) (by omega))
    obtain ⟨st', h1, h2, h3⟩ := this
    exact ⟨st', h1, by omega, fun k hk => h3 k (by omega)⟩

/-- On a zeroed table, `slabinit` completes as soon as `kalloc` supplies the
bitmap pages, and leaves every class as `freshSlab`. -/
theorem slabinit_fresh (cfg : Config) (hmax : 0 < cfg.MAX_PAGES_PER_SLAB) (kr : Nat → Nat)
    (hkr : ∀ k, k < cfg.NSLAB → kr (2 * k) ≠ 0) :
    ∃ st, slabinit cfg kr (zeroed cfg) = some st ∧ Fresh cfg kr st := by
  obtain ⟨st', h1, h2, h3⟩ := slabinit_loop_spec cfg hmax kr cfg.NSLAB 0 (acquire (zeroed cfg))
    (fun k hk => hkr k (by omega))
    (by simp [acquire, zeroed])
    (fun k hk => by omega)
    (fun k _ hk => by
      simp only [acquire, zeroed]
      rw [List.getElem?_replicate, if_pos (by omega)])
  refine ⟨release st', by simp only [slabinit, h1, Option.map_some'], ?_, ?_⟩
  · simp only [release]; omega
  · intro k hk
    simp only [release]
    exact h3 k (by omega)

/-! ## Layout and definedness -/

theorem writeAt_eq_some {α : Type} {l l' : List α} {i : Int} {v : α}
    (h : writeAt l i v = some l') :
    0 ≤ i ∧ i.toNat < l.length ∧ l' = l.set i.toNat v := by
  unfold writeAt at h
  split at h
  · rename_i hc
    exact ⟨hc.1, hc.2, (Option.some.inj h).symm⟩
  · cases h

theorem writeAt_length {α : Type} {l l' : List α} {i : Int} {v : α}
    (h : writeAt l i v = some l') : l'.length = l.length := by
  obtain ⟨_, _, rfl⟩ := writeAt_eq_some h
  exact List.length_set _ _ _

theorem readAt_natCast {α : Type} (l : List α) (i : Nat) : readAt l (i : Int) = l[i]? := by
  unfold readAt
  rw [if_pos (Int.ofNat_nonneg i), Int.toNat_ofNat]

theorem writeAt_natCast {α : Type} (l : List α) (i : Nat) (v : α) (h : i < l.length) :
    writeAt l (i : Int) v = some (l.set i v) := by
  unfold writeAt
  rw [if_pos ⟨Int.ofNat_nonneg i, by rw [Int.toNat_ofNat]; exact h⟩, Int.toNat_ofNat]

/-- Updating class `k` keeps a per-class property of the table that the new
class value has. -/
theorem forall_getElem?_set {P : Nat → Slab → Prop} {l : List Slab} {k : Nat} {s' : Slab}
    (h : ∀ (j : Nat) (s : Slab), l[j]? = some s → P j s) (hs' : P k s') :
    ∀ (j : Nat) (s : Slab), (l.set k s')[j]? = some s → P j s := by
  intro j s hj
  rw [List.getElem?_set] at hj
  by_cases he : k = j
  · rw [if_pos he] at hj
    split at hj
    · cases hj; exact he ▸ hs'
    · cases hj
  · rw [if_neg he] at hj
    exact h j s hj

theorem two_pow_class_dvd {cfg : Config} (hcfg : cfg.ok) {k : Nat} (hk : k < cfg.NSLAB) :
    2 ^ (k + 4) ∣ cfg.PGSIZE := by
  obtain ⟨_, _, _, hdvd, _⟩ := hcfg
  exact Dvd.dvd.trans (pow_dvd_pow 2 (by omega)) hdvd

theorem objs_per_page_le {cfg : Config} (k : Nat) :
    cfg.PGSIZE / 2 ^ (k + 4) ≤ cfg.PGSIZE / 16 := by
  apply Nat.div_le_div_left
  · calc 16 = 2 ^ 4 := by norm_num
      _ ≤ 2 ^ (k + 4) := Nat.pow_le_pow_right (by norm_num) (by omega)
  · norm_num

theorem Slab.laid.nbits_eq {cfg : Config} {k : Nat} {s : Slab} (h : s.laid cfg k) :
    s.nbits cfg = cfg.PGSIZE / 2 ^ (k + 4) * cfg.MAX_PAGES_PER_SLAB := by
  unfold Slab.nbits
  rw [h.2.1, ← Int.ofNat_mul, Int.toNat_ofNat]

theorem Slab.laid.nbits_le {cfg : Config} (hcfg : cfg.ok) {k : Nat} {s : Slab}
    (h : s.laid cfg k) : s.nbits cfg ≤ 8 * cfg.PGSIZE := by
  rw [h.nbits_eq]
  calc cfg.PGSIZE / 2 ^ (k + 4) * cfg.MAX_PAGES_PER_SLAB
      ≤ cfg.PGSIZE / 16 * cfg.MAX_PAGES_PER_SLAB := Nat.mul_le_mul_right _ (objs_per_page_le k)
    _ = cfg.MAX_PAGES_PER_SLAB * (cfg.PGSIZE / 16) := Nat.mul_comm _ _
    _ ≤ 8 * cfg.PGSIZE := hcfg.2.2.2.2

/-- In a laid-out class every bit below `8 * PGSIZE` can be read. -/
theorem Slab.laid.getBit_defined {cfg : Config} {k : Nat} {s : Slab} (h : s.laid cfg k)
    (j : Nat) (hj : j < 8 * cfg.PGSIZE) : ∃ v, getBit s.bitmap j = some v := by
  rw [getBit_isSome_iff, h.2.2.1]
  omega

/-- In a laid-out class the page slot of every bit index the loops of
`kmalloc` visit can be read. -/
theorem Slab.laid.readAt_defined {cfg : Config} {k : Nat} {s : Slab} (h : s.laid cfg k)
    (j : Nat) (hj : j < s.nbits cfg) :
    ∃ p, readAt s.page (Int.tdiv j s.num_objects_per_page) = some p ∧
      j / (cfg.PGSIZE / 2 ^ (k + 4)) < cfg.MAX_PAGES_PER_SLAB := by
  rw [h.nbits_eq] at hj
  have hlt : j / (cfg.PGSIZE / 2 ^ (k + 4)) < cfg.MAX_PAGES_PER_SLAB :=
    Nat.div_lt_of_lt_mul hj
  rw [h.2.1, tdiv_natCast, readAt_natCast]
  rw [List.getElem?_eq_getElem (by rw [h.2.2.2]; exact hlt)]
  exact ⟨_, rfl, hlt⟩

/-- In a laid-out class every index of the first loop of `kmalloc` either
passes its test or is passed over; no access is out of bounds. -/
theorem Slab.laid.reusable_or_skipped {cfg : Config} (hcfg : cfg.ok) {k : Nat} {s : Slab}
    (h : s.laid cfg k) (j : Nat) (hj : j < s.nbits cfg) : Reusable s j ∨ Skipped s j := by
  obtain ⟨v, hv⟩ := h.getBit_defined j (by have := h.nbits_le hcfg; omega)
  obtain ⟨p, hp, _⟩ := h.readAt_defined j hj
  rcases getBit_zero_or_one hv with rfl | rfl
  · by_cases hz : p = 0
    · exact Or.inr (Or.inr ⟨hv, by rw [hp, hz]⟩)
    · exact Or.inl ⟨hv, p, hp, hz⟩
  · exact Or.inr (Or.inl hv)

/-- The first loop of `kmalloc` has a defined result when every index of its
range passes the test or is passed over. -/
theorem kmalloc_reuse_defined (s : Slab) (n : Nat)
    (h : ∀ j, j < n → Reusable s j ∨ Skipped s j) :
    (∃ i, kmalloc_reuse s n 0 = some (some i)) ∨ kmalloc_reuse s n 0 = some none := by
  classical
  by_cases hex : ∃ i, i < n ∧ Reusable s i
  · left
    refine ⟨Nat.find hex, ?_⟩
    rw [kmalloc_reuse_eq_some_iff]
    refine ⟨Nat.zero_le _, by have := (Nat.find_spec hex).1; omega, (Nat.find_spec hex).2, ?_⟩
    intro j _ hj
    have hjn : j < n := lt_trans hj (Nat.find_spec hex).1
    rcases h j hjn with hr | hs
    · exact absurd ⟨hjn, hr⟩ (Nat.find_min hex hj)
    · exact hs
  · right
    rw [kmalloc_reuse_eq_none_iff]
    intro j _ hj
    rcases h j (by omega) with hr | hs
    · exact absurd ⟨j, by omega, hr⟩ hex
    · exact hs

/-- The second loop of `kmalloc` has a defined result when every bit of its
range can be read. -/
theorem kmalloc_grow_defined (s : Slab) (n : Nat)
    (h : ∀ j, j < n → ∃ v, getBit s.bitmap j = some v) :
    (∃ i, kmalloc_grow s n 0 = some (some i)) ∨ kmalloc_grow s n 0 = some none := by
  classical
  by_cases hex : ∃ i, i < n ∧ getBit s.bitmap i = some 0
  · left
    refine ⟨Nat.find hex, ?_⟩
    rw [kmalloc_grow_eq_some_iff]
    refine ⟨Nat.zero_le _, by have := (Nat.find_spec hex).1; omega, (Nat.find_spec hex).2, ?_⟩
    intro j _ hj
    have hjn : j < n := lt_trans hj (Nat.find_spec hex).1
    obtain ⟨v, hv⟩ := h j hjn
    rcases getBit_zero_or_one hv with rfl | rfl
    · exact absurd ⟨hjn, hv⟩ (Nat.find_min hex hj)
    · exact hv
  · right
    rw [kmalloc_grow_eq_none_iff]
    intro j _ hj
    obtain ⟨v, hv⟩ := h j (by omega)
    rcases getBit_zero_or_one hv with rfl | rfl
    · exact absurd ⟨j, by omega, hv⟩ hex
    · exact hv

theorem sizesSet_of_laid {cfg : Config} {st : Stable} (h : Laid cfg st) : SizesSet cfg st := by
  refine ⟨h.1, fun k s hs => ?_⟩
  rw [(h.2 k s hs).1]
  push_cast
  rw [pow_add]
  ring

/-- On a laid-out table a request no larger than the largest class selects a
class. -/
theorem findSlab_defined {cfg : Config} (hcfg : cfg.ok) {st : Stable} (hl : Laid cfg st)
    {size : Int} (hle : size ≤ 16 * 2 ^ (cfg.NSLAB - 1)) :
    ∃ k s, findSlab st.slab size cfg.NSLAB 0 = some k ∧ k < cfg.NSLAB ∧
      st.slab[k]? = some s ∧ s.laid cfg k ∧ size ≤ s.size := by
  obtain ⟨k, hk, hk1, hk2⟩ := exists_least_class cfg.NSLAB hcfg.1 size hle
  have hk3 : k < st.slab.length := by rw [hl.1]; exact hk
  have hs := List.getElem?_eq_getElem hk3
  have hsz := (sizesSet_of_laid hl).2 k _ hs
  exact ⟨k, st.slab[k], findSlab_of_least (sizesSet_of_laid hl) hk hk1 hk2, hk, hs,
    hl.2 k _ hs, by rw [hsz]; exact hk1⟩

/-- On a laid-out table `kmalloc` has a defined result for every request no
larger than the largest class. -/
theorem kmalloc_defined {cfg : Config} (hcfg : cfg.ok) {st : Stable} (hl : Laid cfg st)
    {size : Int} (hle : size ≤ 16 * 2 ^ (cfg.NSLAB - 1)) (kr : Nat) :
    ∃ st' p, kmalloc cfg st size kr = some (st', p) := by
  obtain ⟨k, s, hk, hkn, hs, hlaid, _⟩ := findSlab_defined hcfg hl hle
  have hbits : ∀ j, j < s.nbits cfg → ∃ v, getBit s.bitmap j = some v := fun j hj =>
    hlaid.getBit_defined j (by have := hlaid.nbits_le hcfg; omega)
  rcases kmalloc_reuse_defined s (s.nbits cfg)
      (fun j hj => hlaid.reusable_or_skipped hcfg j hj) with ⟨i, h1⟩ | h1
  · have hi := (kmalloc_reuse_eq_some_iff s _ 0 i).1 h1
    obtain ⟨h0, pg, hpg, _⟩ := hi.2.2.1
    obtain ⟨bm, hbm⟩ := setBit_isSome_of_getBit 1 h0
    exact ⟨_, _, kmalloc_of_reuse hk hs h1 hpg hbm⟩
  · rcases kmalloc_grow_defined s (s.nbits cfg) hbits with ⟨i, h2⟩ | h2
    · have hi := (kmalloc_grow_eq_some_iff s _ 0 i).1 h2
      obtain ⟨bm, hbm⟩ := setBit_isSome_of_getBit 1 hi.2.2.1
      obtain ⟨p, hp, hlt⟩ := hlaid.readAt_defined i (by omega)
      have hw : writeAt s.page (Int.tdiv i s.num_objects_per_page) kr
          = some (s.page.set (i / (cfg.PGSIZE / 2 ^ (k + 4))) kr) := by
        rw [hlaid.2.1, tdiv_natCast]
        exact writeAt_natCast _ _ _ (by rw [hlaid.2.2.2]; exact hlt)
      exact ⟨_, _, kmalloc_of_grow hk hs h1 h2 hw hbm⟩
    · exact ⟨_, _, kmalloc_of_full hk hs h1 h2⟩

/-! ## Definedness of `kmfree` -/

/-- When some slot holds a page containing `addr`, the page scan of `kmfree`
stops at the first such slot, with `offset` the distance of `addr` from the
base of its page. -/
theorem kmfree_find_hit (cfg : Config) (page : List Nat) (addr : Nat)
    (hlen : page.length = cfg.MAX_PAGES_PER_SLAB) (hex : ∃ p, PageHit cfg page addr p) :
    ∃ i a, i < cfg.MAX_PAGES_PER_SLAB ∧ page[i]? = some a ∧ a ≠ 0 ∧
      0 ≤ (addr : Int) - (a : Int) ∧ (addr : Int) - (a : Int) < cfg.PGSIZE ∧
      (∀ j, j < i → ¬ PageHit cfg page addr j) ∧
      kmfree_find cfg page addr cfg.MAX_PAGES_PER_SLAB 0 0 = some (i, (addr : Int) - (a : Int)) := by
  classical
  obtain ⟨a, ha, hne, h0, h1⟩ := Nat.find_spec hex
  have hlt : Nat.find hex < cfg.MAX_PAGES_PER_SLAB := by
    by_contra hc
    rw [List.getElem?_eq_none (by omega)] at ha
    cases ha
  refine ⟨Nat.find hex, a, hlt, ha, hne, h0, h1, fun j hj => Nat.find_min hex hj, ?_⟩
  refine kmfree_find_found cfg page addr _ 0 _ a 0 (Nat.zero_le _) (by omega) ha hne ⟨h0, h1⟩ ?_
  intro j _ hj
  have hj2 : j < page.length := by omega
  refine ⟨page[j], List.getElem?_eq_getElem hj2, ?_⟩
  by_cases hz : page[j] = 0
  · exact Or.inl hz
  · right
    intro hc
    exact Nat.find_min hex hj ⟨page[j], List.getElem?_eq_getElem hj2, hz, hc.1, hc.2⟩

/-- The page-emptiness scan has a defined answer when every bit of its range
can be read. -/
theorem kmfree_isfree_defined (bm : List Nat) (n : Nat) (lo : Int)
    (h : ∀ t : Nat, t < n → ∃ v, getBit bm (lo + t) = some v) :
    ∃ b, kmfree_isfree bm n lo = some b := by
  induction n generalizing lo with
  | zero => exact ⟨true, rfl⟩
  | succ n ih =>
    obtain ⟨v, hv⟩ := h 0 (by omega)
    simp only [Nat.cast_zero, add_zero] at hv
    simp only [kmfree_isfree, hv]
    by_cases hz : v ≠ 0
    · rw [if_pos hz]; exact ⟨false, rfl⟩
    · rw [if_neg hz]
      apply ih
      intro t ht
      have := h (t + 1) (by omega)
      rw [show lo + ((t + 1 : Nat) : Int) = lo + 1 + (t : Int) by push_cast; ring] at this
      exact this

/-- In a laid-out class the bit index `kmfree` computes from slot `i` and a
non-negative `offset` is `i * objects_per_page + offset / size`. -/
theorem Slab.laid.idx_eq {cfg : Config} {k : Nat} {s : Slab} (h : s.laid cfg k) (i off : Nat) :
    (i : Int) * s.num_objects_per_page + Int.tdiv (off : Int) s.size
      = ((i * (cfg.PGSIZE / 2 ^ (k + 4)) + off / 2 ^ (k + 4) : Nat) : Int) := by
  rw [h.1, h.2.1, tdiv_natCast]
  push_cast
  rfl

theorem Slab.laid.span_eq {cfg : Config} {k : Nat} {s : Slab} (h : s.laid cfg k) (i : Nat) :
    (((i : Int) + 1) * s.num_objects_per_page - (i : Int) * s.num_objects_per_page).toNat
      = cfg.PGSIZE / 2 ^ (k + 4) := by
  rw [h.2.1]
  have : ((i : Int) + 1) * ((cfg.PGSIZE / 2 ^ (k + 4) : Nat) : Int)
      - (i : Int) * ((cfg.PGSIZE / 2 ^ (k + 4) : Nat) : Int)
      = ((cfg.PGSIZE / 2 ^ (k + 4) : Nat) : Int) := by ring
  rw [this, Int.toNat_ofNat]

/-- An offset inside a page selects an object slot of that page. -/
theorem offset_div_lt {cfg : Config} (hcfg : cfg.ok) {k : Nat} (hk : k < cfg.NSLAB) {off : Nat}
    (hoff : off < cfg.PGSIZE) : off / 2 ^ (k + 4) < cfg.PGSIZE / 2 ^ (k + 4) :=
  Nat.div_lt_div_of_lt_of_dvd (two_pow_class_dvd hcfg hk) hoff

/-- On a laid-out table `kmfree` has a defined result when `addr` lies in a
present page of the class derived from `size`. -/
theorem kmfree_defined {cfg : Config} (hcfg : cfg.ok) {st : Stable} (hl : Laid cfg st)
    {addr : Nat} {size : Int} {k : Nat} {s : Slab}
    (hk : findSlab st.slab size cfg.NSLAB 0 = some k) (hs : st.slab[k]? = some s)
    (hhit : ∃ p, PageHit cfg s.page addr p) :
    ∃ st', kmfree cfg st addr size = some st' := by
  by_cases hinv : addr = 0 ∨ size ≤ 0
  · exact ⟨st, kmfree_of_invalid hinv⟩
  · have ha : addr ≠ 0 := fun hc => hinv (Or.inl hc)
    have hsz : 0 < size := by
      by_contra hc; exact hinv (Or.inr (by omega))
    have hlaid := hl.2 k s hs
    have hkn : k < cfg.NSLAB := by
      by_contra hc
      rw [List.getElem?_eq_none (by rw [hl.1]; omega)] at hs
      cases hs
    obtain ⟨i, a, hi, hia, hane, h0, h1, _, hf⟩ := kmfree_find_hit cfg s.page addr hlaid.2.2.2 hhit
    obtain ⟨off, hoff⟩ := Int.eq_ofNat_of_zero_le h0
    rw [hoff] at hf h1
    have hofflt : off < cfg.PGSIZE := by omega
    have hq := offset_div_lt hcfg hkn hofflt
    have hidx := hlaid.idx_eq i off
    have hnb := hlaid.nbits_le hcfg
    rw [hlaid.nbits_eq] at hnb
    have hrow : (i + 1) * (cfg.PGSIZE / 2 ^ (k + 4))
        ≤ cfg.PGSIZE / 2 ^ (k + 4) * cfg.MAX_PAGES_PER_SLAB := by
      rw [Nat.mul_comm (cfg.PGSIZE / 2 ^ (k + 4))]
      exact Nat.mul_le_mul_right _ hi
    have hrow2 : (i + 1) * (cfg.PGSIZE / 2 ^ (k + 4))
        = i * (cfg.PGSIZE / 2 ^ (k + 4)) + cfg.PGSIZE / 2 ^ (k + 4) := by ring
    obtain ⟨v, hv⟩ := hlaid.getBit_defined
      (i * (cfg.PGSIZE / 2 ^ (k + 4)) + off / 2 ^ (k + 4)) (by omega)
    rw [← hidx] at hv
    rcases getBit_zero_or_one hv with rfl | rfl
    · exact ⟨_, kmfree_of_clear ha hsz hk hs hf hv⟩
    · obtain ⟨bm, hbm⟩ := setBit_isSome_of_getBit 0 hv
      have hbmlen := setBit_length hbm
      have hscan : ∃ b, kmfree_isfree bm
          ((((i : Int) + 1) * s.num_objects_per_page
            - (i : Int) * s.num_objects_per_page).toNat)
          ((i : Int) * s.num_objects_per_page) = some b := by
        apply kmfree_isfree_defined
        intro t ht
        rw [hlaid.span_eq] at ht
        rw [hlaid.2.1, ← Int.ofNat_mul, ← Int.ofNat_add, getBit_isSome_iff, hbmlen, hlaid.2.2.1]
        omega
      obtain ⟨b, hb⟩ := hscan
      cases b with
      | false => exact ⟨_, kmfree_of_rest ha hsz hk hs hf hv hbm hb⟩
      | true =>
        have hpg : readAt s.page (i : Int) = some a := by rw [readAt_natCast]; exact hia
        have hw := writeAt_natCast s.page i 0 (by rw [hlaid.2.2.2]; exact hi)
        exact ⟨_, kmfree_of_last ha hsz hk hs hf hv hbm hb hpg hw⟩

/-! ## Preservation of the layout and of the counter equation -/

theorem Slab.laid.claimed_laid {cfg : Config} {k : Nat} {s : Slab} (h : s.laid cfg k)
    {idx val : Int} {bm : List Nat} (hbm : setBit s.bitmap idx val = some bm) :
    (s.claimed bm).laid cfg k :=
  ⟨h.1, h.2.1, by rw [← h.2.2.1]; exact setBit_length hbm, h.2.2.2⟩

theorem Slab.laid.grown_laid {cfg : Config} {k : Nat} {s : Slab} (h : s.laid cfg k)
    {idx val pidx : Int} {v : Nat} {bm pages : List Nat}
    (hbm : setBit s.bitmap idx val = some bm) (hpg : writeAt s.page pidx v = some pages) :
    (s.grown pages bm).laid cfg k :=
  ⟨h.1, h.2.1, by rw [← h.2.2.1]; exact setBit_length hbm,
    by rw [← h.2.2.2]; exact writeAt_length hpg⟩

theorem Slab.laid.released_laid {cfg : Config} {k : Nat} {s : Slab} (h : s.laid cfg k)
    {idx val : Int} {bm : List Nat} (hbm : setBit s.bitmap idx val = some bm) :
    (s.released bm).laid cfg k :=
  ⟨h.1, h.2.1, by rw [← h.2.2.1]; exact setBit_length hbm, h.2.2.2⟩

theorem Slab.laid.shrunk_laid {cfg : Config} {k : Nat} {s : Slab} (h : s.laid cfg k)
    {idx val pidx : Int} {v : Nat} {bm pages : List Nat}
    (hbm : setBit s.bitmap idx val = some bm) (hpg : writeAt s.page pidx v = some pages) :
    (s.shrunk pages bm).laid cfg k :=
  ⟨h.1, h.2.1, by rw [← h.2.2.1]; exact setBit_length hbm,
    by rw [← h.2.2.2]; exact writeAt_length hpg⟩

theorem Slab.counted.claimed_counted {s : Slab} (h : s.counted) (bm : List Nat) :
    (s.claimed bm).counted := by
  unfold Slab.counted Slab.claimed at *
  simp only
  omega

theorem Slab.counted.grown_counted {s : Slab} (h : s.counted) (pages bm : List Nat) :
    (s.grown pages bm).counted := by
  unfold Slab.counted Slab.grown at *
  simp only
  have : (s.num_pages + 1) * s.num_objects_per_page
      = s.num_pages * s.num_objects_per_page + s.num_objects_per_page := by ring
  omega

theorem Slab.counted.released_counted {s : Slab} (h : s.counted) (bm : List Nat) :
    (s.released bm).counted := by
  unfold Slab.counted Slab.released at *
  simp only
  omega

theorem Slab.counted.shrunk_counted {s : Slab} (h : s.counted) (pages bm : List Nat) :
    (s.shrunk pages bm).counted := by
  unfold Slab.counted Slab.shrunk at *
  simp only
  have : (s.num_pages - 1) * s.num_objects_per_page
      = s.num_pages * s.num_objects_per_page - s.num_objects_per_page := by ring
  omega

/-- Every defined run of `kmalloc` keeps the layout. -/
theorem kmalloc_laid {cfg : Config} {st st' : Stable} {size : Int} {kr p : Nat}
    (hl : Laid cfg st) (h : kmalloc cfg st size kr = some (st', p)) : Laid cfg st' := by
  obtain ⟨k, s, _, hs, hcase⟩ := kmalloc_cases h
  have hlaid := hl.2 k s hs
  rcases hcase with ⟨i, pg, bm, _, _, hbm, rfl, _⟩ | ⟨i, pages, bm, _, _, hpg, hbm, rfl, _⟩ |
    ⟨_, _, rfl, _⟩
  · exact ⟨by simp only [List.length_set]; exact hl.1,
      forall_getElem?_set hl.2 (hlaid.claimed_laid hbm)⟩
  · exact ⟨by simp only [List.length_set]; exact hl.1,
      forall_getElem?_set hl.2 (hlaid.grown_laid hbm hpg)⟩
  · exact hl

/-- Every defined run of `kmalloc` keeps the counter equation. -/
theorem kmalloc_counted {cfg : Config} {st st' : Stable} {size : Int} {kr p : Nat}
    (hc : Counted st) (h : kmalloc cfg st size kr = some (st', p)) : Counted st' := by
  obtain ⟨k, s, _, hs, hcase⟩ := kmalloc_cases h
  have hcs := hc k s hs
  rcases hcase with ⟨i, pg, bm, _, _, hbm, rfl, _⟩ | ⟨i, pages, bm, _, _, hpg, hbm, rfl, _⟩ |
    ⟨_, _, rfl, _⟩
  · exact forall_getElem?_set (P := fun _ s => s.counted) hc (hcs.claimed_counted bm)
  · exact forall_getElem?_set (P := fun _ s => s.counted) hc (hcs.grown_counted pages bm)
  · exact hc

/-- Every defined run of `kmfree` keeps the layout. -/
theorem kmfree_laid {cfg : Config} {st st' : Stable} {addr : Nat} {size : Int}
    (hl : Laid cfg st) (h : kmfree cfg st addr size = some st') : Laid cfg st' := by
  rcases kmfree_cases h with ⟨_, rfl⟩ | ⟨_, _, k, s, i, offset, _, hs, _, hcase⟩
  · exact hl
  · have hlaid := hl.2 k s hs
    rcases hcase with ⟨_, rfl⟩ | ⟨_, bm, hbm, ⟨_, rfl⟩ | ⟨_, pg, pages, _, hpages, rfl⟩⟩
    · exact hl
    · exact ⟨by simp only [List.length_set]; exact hl.1,
        forall_getElem?_set hl.2 (hlaid.released_laid hbm)⟩
    · exact ⟨by simp only [List.length_set]; exact hl.1,
        forall_getElem?_set hl.2 (hlaid.shrunk_laid hbm hpages)⟩

/-- Every defined run of `kmfree` keeps the counter equation. -/
theorem kmfree_counted {cfg : Config} {st st' : Stable} {addr : Nat} {size : Int}
    (hc : Counted st) (h : kmfree cfg st addr size = some st') : Counted st' := by
  rcases kmfree_cases h with ⟨_, rfl⟩ | ⟨_, _, k, s, i, offset, _, hs, _, hcase⟩
  · exact hc
  · have hcs := hc k s hs
    rcases hcase with ⟨_, rfl⟩ | ⟨_, bm, hbm, ⟨_, rfl⟩ | ⟨_, pg, pages, _, hpages, rfl⟩⟩
    · exact hc
    · exact forall_getElem?_set (P := fun _ s => s.counted) hc (hcs.released_counted bm)
    · exact forall_getElem?_set (P := fun _ s => s.counted) hc (hcs.shrunk_counted pages bm)

theorem freshSlab_laid (cfg : Config) (k kp : Nat) : (freshSlab cfg k kp).laid cfg k := by
  refine ⟨?_, ?_, ?_, ?_⟩
  · simp only [freshSlab, Nat.one_shiftLeft]
  · simp only [freshSlab, Nat.one_shiftLeft]
    exact tdiv_natCast _ _
  · simp only [freshSlab, List.length_replicate]
  · simp only [freshSlab, List.length_set, List.length_replicate]

theorem freshSlab_counted (cfg : Config) (k kp : Nat) : (freshSlab cfg k kp).counted := by
  simp only [Slab.counted, freshSlab]
  omega

theorem Fresh.fresh_getElem? {cfg : Config} {kr : Nat → Nat} {st : Stable} (h : Fresh cfg kr st)
    {k : Nat} {s : Slab} (hs : st.slab[k]? = some s) :
    k < cfg.NSLAB ∧ s = freshSlab cfg k (kr (2 * k + 1)) := by
  have hk : k < cfg.NSLAB := by
    by_contra hc
    rw [List.getElem?_eq_none (by rw [h.1]; omega)] at hs
    cases hs
  rw [h.2 k hk] at hs
  exact ⟨hk, (Option.some.inj hs).symm⟩

theorem Fresh.fresh_laid {cfg : Config} {kr : Nat → Nat} {st : Stable} (h : Fresh cfg kr st) :
    Laid cfg st :=
  ⟨h.1, fun k s hs => by rw [(h.fresh_getElem? hs).2]; exact freshSlab_laid cfg k _⟩

theorem Fresh.fresh_counted {cfg : Config} {kr : Nat → Nat} {st : Stable} (h : Fresh cfg kr st) :
    Counted st :=
  fun k s hs => by rw [(h.fresh_getElem? hs).2]; exact freshSlab_counted cfg k _

/-! ## Auxiliary facts for single calls -/

/-- The loops of `kmalloc` run at least once only when the class has a
positive number of objects per page. -/
theorem Slab.nbits_pos {cfg : Config} {s : Slab} {i : Nat} (hi : i < s.nbits cfg) :
    0 < s.num_objects_per_page := by
  by_contra hc
  have h1 : s.num_objects_per_page * (cfg.MAX_PAGES_PER_SLAB : Int) ≤ 0 :=
    mul_nonpos_of_nonpos_of_nonneg (by omega) (Int.ofNat_nonneg _)
  unfold Slab.nbits at hi
  omega

theorem getBit_defined_of_le {bm : List Nat} {i j : Nat} {v : Nat}
    (h : getBit bm (i : Int) = some v) (hj : j ≤ i) : ∃ w, getBit bm (j : Int) = some w := by
  have h1 := (getBit_isSome_iff bm i).1 ⟨v, h⟩
  rw [getBit_isSome_iff]
  have : j / 8 ≤ i / 8 := Nat.div_le_div_right hj
  omega

/-! ## Locating an object in `kmfree` -/

/-- Two page-aligned pages that both contain `addr` are the same page. -/
theorem aligned_page_unique {P a b addr : Nat} (ha : P ∣ a) (hb : P ∣ b)
    (h1 : a ≤ addr) (h2 : addr < a + P) (h3 : b ≤ addr) (h4 : addr < b + P) : a = b := by
  obtain ⟨x, rfl⟩ := ha
  obtain ⟨y, rfl⟩ := hb
  have hP : 0 < P := by
    by_contra hc
    have : P = 0 := by omega
    subst this
    omega
  have hx : addr / P = x :=
    Nat.div_eq_of_lt_le (by rw [Nat.mul_comm]; exact h1) (by rw [Nat.add_mul, Nat.mul_comm x P]; omega)
  have hy : addr / P = y :=
    Nat.div_eq_of_lt_le (by rw [Nat.mul_comm]; exact h3) (by rw [Nat.add_mul, Nat.mul_comm y P]; omega)
  rw [← hx, ← hy]

/-- With page-aligned, pairwise distinct pages, the page scan of `kmfree`
stops at the slot whose page contains `addr`. -/
theorem kmfree_find_of_pagesOk {cfg : Config} {s : Slab} (hok : s.pagesOk cfg)
    {addr p a : Nat} (hp : p < cfg.MAX_PAGES_PER_SLAB) (hpa : s.page[p]? = some a) (ha : a ≠ 0)
    (h1 : a ≤ addr) (h2 : addr < a + cfg.PGSIZE) :
    kmfree_find cfg s.page addr cfg.MAX_PAGES_PER_SLAB 0 0 = some (p, (addr : Int) - (a : Int)) := by
  refine kmfree_find_found cfg s.page addr _ 0 p a 0 (Nat.zero_le _) (by omega) hpa ha
    ⟨by omega, by omega⟩ ?_
  intro j _ hj
  have hlen : p < s.page.length := by
    by_contra hc
    rw [List.getElem?_eq_none (by omega)] at hpa
    cases hpa
  have hj2 : j < s.page.length := by omega
  refine ⟨s.page[j], List.getElem?_eq_getElem hj2, ?_⟩
  by_cases hz : s.page[j] = 0
  · exact Or.inl hz
  · right
    intro hc
    have hjb := List.getElem?_eq_getElem hj2
    have hab := aligned_page_unique (hok.1 p a hpa ha) (hok.1 j _ hjb hz) h1 h2
      (by omega) (by omega)
    rw [← hab] at hjb
    have := hok.2 j p a hjb hpa ha
    omega

/-! ## Reachable tables -/

theorem readAt_set_same {l : List Nat} {y : Int} (v : Nat) (h0 : 0 ≤ y)
    (h1 : y.toNat < l.length) : readAt (l.set y.toNat v) y = some v := by
  unfold readAt
  rw [if_pos h0, List.getElem?_set_self h1]

theorem readAt_set_other {l : List Nat} {x y : Int} (v : Nat) (h0 : 0 ≤ y) (hne : x ≠ y) :
    readAt (l.set y.toNat v) x = readAt l x := by
  unfold readAt
  by_cases hx : 0 ≤ x
  · rw [if_pos hx, if_pos hx, List.getElem?_set_ne (by omega)]
  · rw [if_neg hx, if_neg hx]

/-- Clearing a bit sets no bit. -/
theorem getBit_clear_mono {bm bm' : List Nat} {idx : Int} (h : setBit bm idx 0 = some bm')
    {j : Int} (hj : getBit bm' j = some 1) : getBit bm j = some 1 := by
  by_cases he : j = idx
  · have := getBit_setBit_same h
    rw [he] at hj
    rw [hj] at this
    simp at this
  · rw [← getBit_setBit_other j h he]; exact hj

theorem getBit_replicate_zero (n : Nat) (j : Int) : getBit (List.replicate n 0) j ≠ some 1 := by
  by_cases hneg : j < 0
  · rw [getBit_neg _ _ hneg]; simp
  · obtain ⟨i, rfl⟩ := Int.eq_ofNat_of_zero_le (by omega : 0 ≤ j)
    rw [getBit_nat, List.getElem?_replicate]
    split <;> simp

theorem Reach.reach_mono {cfg : Config} {good good' : Stable → Nat → Prop}
    (himp : ∀ st kr, good st kr → good' st kr) {st : Stable} (h : Reach cfg good st) :
    Reach cfg good' st := by
  induction h with
  | init kr st hkr hst => exact Reach.init kr st (fun j => himp _ _ (hkr j)) hst
  | alloc st size kr st' p _ hgood hst ih => exact Reach.alloc st size kr st' p ih (himp _ _ hgood) hst
  | free st addr size st' _ hst ih => exact Reach.free st addr size st' ih hst

theorem freshPage_neverFails (cfg : Config) (st : Stable) (kr : Nat)
    (h : FreshPage cfg st kr) : NeverFails st kr := h.1

/-- A reachable table is `Fresh` right after `slabinit`. -/
theorem fresh_of_init {cfg : Config} (hcfg : cfg.ok) {kr : Nat → Nat} {st : Stable}
    (hkr : ∀ j, kr j ≠ 0) (hst : slabinit cfg kr (zeroed cfg) = some st) : Fresh cfg kr st := by
  obtain ⟨st0, h0, hf⟩ := slabinit_fresh cfg hcfg.2.1 kr (fun k _ => hkr (2 * k))
  rw [h0] at hst
  cases hst
  exact hf

/-- Reachable tables are laid out. -/
theorem Reach.reach_laid {cfg : Config} (hcfg : cfg.ok) {st : Stable}
    (h : Reach cfg NeverFails st) : Laid cfg st := by
  induction h with
  | init kr st hkr hst => exact (fresh_of_init hcfg hkr hst).fresh_laid
  | alloc st size kr st' p _ _ hst ih => exact kmalloc_laid ih hst
  | free st addr size st' _ hst ih => exact kmfree_laid ih hst

theorem Slab.laid.opp_pos {cfg : Config} (hcfg : cfg.ok) {k : Nat} (hk : k < cfg.NSLAB) :
    0 < cfg.PGSIZE / 2 ^ (k + 4) :=
  Nat.div_pos (Nat.le_of_dvd hcfg.2.2.1 (two_pow_class_dvd hcfg hk))
    (Nat.pos_pow_of_pos _ (by norm_num))

theorem lt_of_getElem?_eq_some {cfg : Config} {st : Stable} (hl : Laid cfg st) {k : Nat}
    {s : Slab} (hs : st.slab[k]? = some s) : k < cfg.NSLAB := by
  by_contra hc
  rw [List.getElem?_eq_none (by rw [hl.1]; omega)] at hs
  cases hs

theorem freshSlab_emptyClear (cfg : Config) (k kp : Nat) : (freshSlab cfg k kp).emptyClear :=
  fun _ _ => getBit_replicate_zero _ _

theorem Slab.emptyClear.claimed_clear {s : Slab} (h : s.emptyClear) {i pg : Nat} {bm : List Nat}
    (hpg : readAt s.page (Int.tdiv i s.num_objects_per_page) = some pg) (hne : pg ≠ 0)
    (hbm : setBit s.bitmap i 1 = some bm) : (s.claimed bm).emptyClear := by
  intro j hslot
  simp only [Slab.claimed] at hslot ⊢
  by_cases he : j = i
  · rw [he, hpg] at hslot
    cases hslot
    exact absurd rfl hne
  · rw [getBit_setBit_other (j : Int) hbm (by omega)]
    exact h j hslot

theorem Slab.emptyClear.grown_clear {s : Slab} (h : s.emptyClear) {i kr : Nat} {pages bm : List Nat}
    (hpg : writeAt s.page (Int.tdiv i s.num_objects_per_page) kr = some pages) (hne : kr ≠ 0)
    (hbm : setBit s.bitmap i 1 = some bm) : (s.grown pages bm).emptyClear := by
  intro j hslot
  simp only [Slab.grown] at hslot ⊢
  obtain ⟨h0, h1, rfl⟩ := writeAt_eq_some hpg
  by_cases hsl : Int.tdiv j s.num_objects_per_page = Int.tdiv i s.num_objects_per_page
  · rw [hsl, readAt_set_same kr h0 h1] at hslot
    cases hslot
    exact absurd rfl hne
  · rw [readAt_set_other kr h0 hsl] at hslot
    have hij : (j : Int) ≠ (i : Int) := by
      intro hc
      apply hsl
      rw [hc]
    rw [getBit_setBit_other (j : Int) hbm hij]
    exact h j hslot

theorem Slab.emptyClear.released_clear {s : Slab} (h : s.emptyClear) {idx : Int} {bm : List Nat}
    (hbm : setBit s.bitmap idx 0 = some bm) : (s.released bm).emptyClear := by
  intro j hslot hj
  simp only [Slab.released] at hslot hj
  exact h j hslot (getBit_clear_mono hbm hj)

theorem Slab.emptyClear.shrunk_clear {cfg : Config} {k : Nat} {s : Slab} (h : s.emptyClear)
    (hlaid : s.laid cfg k) (hpos : 0 < cfg.PGSIZE / 2 ^ (k + 4))
    {idx : Int} {i : Nat} {bm pages : List Nat}
    (hbm : setBit s.bitmap idx 0 = some bm)
    (hfree : kmfree_isfree bm
      ((((i : Int) + 1) * s.num_objects_per_page - (i : Int) * s.num_objects_per_page).toNat)
      ((i : Int) * s.num_objects_per_page) = some true)
    (hpages : writeAt s.page i 0 = some pages) : (s.shrunk pages bm).emptyClear := by
  intro j hslot hj
  simp only [Slab.shrunk] at hslot hj
  obtain ⟨h0, h1, rfl⟩ := writeAt_eq_some hpages
  by_cases hsl : Int.tdiv j s.num_objects_per_page = (i : Int)
  · rw [kmfree_isfree_eq_true_iff, hlaid.span_eq] at hfree
    rw [hlaid.2.1, tdiv_natCast] at hsl
    have hsl' : j / (cfg.PGSIZE / 2 ^ (k + 4)) = i := by exact_mod_cast hsl
    have hmod := Nat.mod_lt j hpos
    have hdm := Nat.div_add_mod j (cfg.PGSIZE / 2 ^ (k + 4))
    rw [hsl'] at hdm
    have := hfree (j % (cfg.PGSIZE / 2 ^ (k + 4))) hmod
    rw [hlaid.2.1, ← Int.ofNat_mul, ← Int.ofNat_add, Nat.mul_comm, hdm] at this
    rw [this] at hj
    cases hj
  · rw [readAt_set_other 0 h0 hsl] at hslot
    exact h j hslot (getBit_clear_mono hbm hj)

/-- In a reachable table (page allocator never failing) no set bit lies in the
range of an empty page slot. -/
theorem Reach.reach_emptyClear {cfg : Config} (hcfg : cfg.ok) {st : Stable}
    (h : Reach cfg NeverFails st) :
    ∀ (k : Nat) (s : Slab), st.slab[k]? = some s → s.emptyClear := by
  induction h with
  | init kr st hkr hst =>
    intro k s hs
    rw [((fresh_of_init hcfg hkr hst).fresh_getElem? hs).2]
    exact freshSlab_emptyClear cfg k _
  | alloc st size kr st' p hreach hgood hst ih =>
    obtain ⟨k, s, _, hs, hcase⟩ := kmalloc_cases hst
    have hec := ih k s hs
    rcases hcase with ⟨i, pg, bm, h1, hpg, hbm, rfl, _⟩ |
      ⟨i, pages, bm, _, _, hpg, hbm, rfl, _⟩ | ⟨_, _, rfl, _⟩
    · have hre := ((kmalloc_reuse_eq_some_iff s _ 0 i).1 h1).2.2.1
      obtain ⟨_, pg', hpg', hne⟩ := hre
      rw [hpg] at hpg'
      cases hpg'
      exact forall_getElem?_set (P := fun _ s => s.emptyClear) ih (hec.claimed_clear hpg hne hbm)
    · exact forall_getElem?_set (P := fun _ s => s.emptyClear) ih (hec.grown_clear hpg hgood hbm)
    · exact ih
  | free st addr size st' hreach hst ih =>
    have hl := hreach.reach_laid hcfg
    rcases kmfree_cases hst with ⟨_, rfl⟩ | ⟨_, _, k, s, i, offset, _, hs, _, hcase⟩
    · exact ih
    · have hec := ih k s hs
      rcases hcase with ⟨_, rfl⟩ | ⟨_, bm, hbm, ⟨_, rfl⟩ | ⟨hfree, pg, pages, _, hpages, rfl⟩⟩
      · exact ih
      · exact forall_getElem?_set (P := fun _ s => s.emptyClear) ih (hec.released_clear hbm)
      · exact forall_getElem?_set (P := fun _ s => s.emptyClear) ih
          (hec.shrunk_clear (hl.2 k s hs) (Slab.laid.opp_pos hcfg (lt_of_getElem?_eq_some hl hs))
            hbm hfree hpages)

/-! ## Freeing a live object -/

/-- What `kmfree` does with the address of an object slot whose bit is set, on
a laid-out table whose class has page-aligned, pairwise distinct pages. -/
theorem kmfree_live (cfg : Config) (hcfg : cfg.ok) (st : Stable) (hl : Laid cfg st)
    (addr : Nat) (size : Int) (k p a m : Nat) (s : Slab)
    (hsz : 0 < size)
    (hk : findSlab st.slab size cfg.NSLAB 0 = some k) (hs : st.slab[k]? = some s)
    (hok : s.pagesOk cfg)
    (hpa : s.page[p]? = some a) (ha : a ≠ 0)
    (hm : m < cfg.PGSIZE / 2 ^ (k + 4)) (haddr : addr = a + m * 2 ^ (k + 4))
    (hset : getBit s.bitmap ((p * (cfg.PGSIZE / 2 ^ (k + 4)) + m : Nat) : Int) = some 1) :
    ∃ bm, setBit s.bitmap ((p * (cfg.PGSIZE / 2 ^ (k + 4)) + m : Nat) : Int) 0 = some bm ∧
      ((∀ t, t < cfg.PGSIZE / 2 ^ (k + 4) →
          getBit bm ((p * (cfg.PGSIZE / 2 ^ (k + 4)) + t : Nat) : Int) = some 0) →
        kmfree cfg st addr size =
          some { slab := st.slab.set k (s.shrunk (s.page.set p 0) bm)
                 trace := st.trace ++ [Event.acquire, Event.kfree a, Event.release] }) ∧
      (¬ (∀ t, t < cfg.PGSIZE / 2 ^ (k + 4) →
          getBit bm ((p * (cfg.PGSIZE / 2 ^ (k + 4)) + t : Nat) : Int) = some 0) →
        kmfree cfg st addr size =
          some { slab := st.slab.set k (s.released bm)
                 trace := st.trace ++ [Event.acquire, Event.release] }) := by
  have hlaid := hl.2 k s hs
  have hkn : k < cfg.NSLAB := by
    by_contra hc
    rw [List.getElem?_eq_none (by rw [hl.1]; omega)] at hs
    cases hs
  have hp : p < cfg.MAX_PAGES_PER_SLAB := by
    by_contra hc
    rw [List.getElem?_eq_none (by rw [hlaid.2.2.2]; omega)] at hpa
    cases hpa
  have hzpos : 0 < 2 ^ (k + 4) := Nat.pos_pow_of_pos _ (by norm_num)
  have hdvd := two_pow_class_dvd hcfg hkn
  have hmz : m * 2 ^ (k + 4) < cfg.PGSIZE := by
    calc m * 2 ^ (k + 4) < cfg.PGSIZE / 2 ^ (k + 4) * 2 ^ (k + 4) :=
          Nat.mul_lt_mul_of_pos_right hm hzpos
      _ = cfg.PGSIZE := Nat.div_mul_cancel hdvd
  have hane : addr ≠ 0 := by omega
  have hf := kmfree_find_of_pagesOk hok hp hpa ha (by omega : a ≤ addr) (by omega)
  have hoff : (addr : Int) - (a : Int) = ((m * 2 ^ (k + 4) : Nat) : Int) := by
    rw [haddr]; push_cast; ring
  rw [hoff] at hf
  have hidx := hlaid.idx_eq p (m * 2 ^ (k + 4))
  rw [Nat.mul_div_cancel _ hzpos] at hidx
  rw [← hidx] at hset ⊢
  obtain ⟨bm, hbm⟩ := setBit_isSome_of_getBit 0 hset
  refine ⟨bm, hbm, ?_, ?_⟩
  · intro hall
    have hfree : kmfree_isfree bm
        ((((p : Int) + 1) * s.num_objects_per_page - (p : Int) * s.num_objects_per_page).toNat)
        ((p : Int) * s.num_objects_per_page) = some true := by
      rw [kmfree_isfree_eq_true_iff, hlaid.span_eq]
      intro t ht
      have := hall t ht
      rw [hlaid.2.1, ← Int.ofNat_mul, ← Int.ofNat_add]
      exact this
    have hpg : readAt s.page (p : Int) = some a := by rw [readAt_natCast]; exact hpa
    have hw := writeAt_natCast s.page p 0 (by rw [hlaid.2.2.2]; exact hp)
    exact kmfree_of_last hane hsz hk hs hf hset hbm hfree hpg hw
  · intro hnot
    have hscan : ∃ b, kmfree_isfree bm
        ((((p : Int) + 1) * s.num_objects_per_page - (p : Int) * s.num_objects_per_page).toNat)
        ((p : Int) * s.num_objects_per_page) = some b := by
      apply kmfree_isfree_defined
      intro t ht
      rw [hlaid.span_eq] at ht
      rw [hlaid.2.1, ← Int.ofNat_mul, ← Int.ofNat_add, getBit_isSome_iff, setBit_length hbm,
        hlaid.2.2.1]
      have hnb := hlaid.nbits_le hcfg
      rw [hlaid.nbits_eq] at hnb
      have hrow : (p + 1) * (cfg.PGSIZE / 2 ^ (k + 4))
          ≤ cfg.PGSIZE / 2 ^ (k + 4) * cfg.MAX_PAGES_PER_SLAB := by
        rw [Nat.mul_comm (cfg.PGSIZE / 2 ^ (k + 4))]
        exact Nat.mul_le_mul_right _ hp
      have hrow2 : (p + 1) * (cfg.PGSIZE / 2 ^ (k + 4))
          = p * (cfg.PGSIZE / 2 ^ (k + 4)) + cfg.PGSIZE / 2 ^ (k + 4) := by ring
      omega
    obtain ⟨b, hb⟩ := hscan
    cases b with
    | true =>
      exfalso
      apply hnot
      intro t ht
      have := (kmfree_isfree_eq_true_iff _ _ _).1 hb t (by rw [hlaid.span_eq]; exact ht)
      rw [hlaid.2.1, ← Int.ofNat_mul, ← Int.ofNat_add] at this
      exact this
    | false =>
      exact kmfree_of_rest hane hsz hk hs hf hset hbm hb

/-! ## Page slots of reachable tables -/

theorem freshSlab_pagesOk (cfg : Config) (k kp : Nat) (hkp : cfg.PGSIZE ∣ kp) :
    (freshSlab cfg k kp).pagesOk cfg := by
  have hentry : ∀ (j a : Nat), (freshSlab cfg k kp).page[j]? = some a → a ≠ 0 →
      j = 0 ∧ a = kp := by
    intro j a hj ha
    simp only [freshSlab, List.getElem?_set, List.length_replicate] at hj
    by_cases h0 : 0 = j
    · rw [if_pos h0] at hj
      split at hj
      · cases hj; exact ⟨h0.symm, rfl⟩
      · cases hj
    · rw [if_neg h0, List.getElem?_replicate] at hj
      split at hj
      · cases hj; exact absurd rfl ha
      · cases hj
  refine ⟨fun j a hj ha => ?_, fun j1 j2 a h1 h2 ha => ?_⟩
  · rw [(hentry j a hj ha).2]; exact hkp
  · rw [(hentry j1 a h1 ha).1, (hentry j2 a h2 ha).1]

theorem Slab.pagesOk.grown_pages {cfg : Config} {s : Slab} (h : s.pagesOk cfg) {y : Int} {kr : Nat}
    {pages bm : List Nat} (hpg : writeAt s.page y kr = some pages)
    (hal : cfg.PGSIZE ∣ kr) (hfresh : kr ∉ s.page) : (s.grown pages bm).pagesOk cfg := by
  obtain ⟨h0, h1, rfl⟩ := writeAt_eq_some hpg
  have hentry : ∀ (j a : Nat), (s.page.set y.toNat kr)[j]? = some a →
      (j = y.toNat ∧ a = kr) ∨ (j ≠ y.toNat ∧ s.page[j]? = some a) := by
    intro j a hj
    rw [List.getElem?_set] at hj
    by_cases he : y.toNat = j
    · rw [if_pos he, if_pos h1] at hj
      cases hj; exact Or.inl ⟨he.symm, rfl⟩
    · rw [if_neg he] at hj
      exact Or.inr ⟨fun hc => he hc.symm, hj⟩
  refine ⟨fun j a hj ha => ?_, fun j1 j2 a hj1 hj2 ha => ?_⟩
  · simp only [Slab.grown] at hj
    rcases hentry j a hj with ⟨_, rfl⟩ | ⟨_, hold⟩
    · exact hal
    · exact h.1 j a hold ha
  · simp only [Slab.grown] at hj1 hj2
    rcases hentry j1 a hj1 with ⟨e1, rfl⟩ | ⟨n1, hold1⟩
    · rcases hentry j2 a hj2 with ⟨e2, _⟩ | ⟨_, hold2⟩
      · rw [e1, e2]
      · exact absurd (List.getElem?_mem hold2) hfresh
    · rcases hentry j2 a hj2 with ⟨_, rfl⟩ | ⟨_, hold2⟩
      · exact absurd (List.getElem?_mem hold1) hfresh
      · exact h.2 j1 j2 a hold1 hold2 ha

theorem Slab.pagesOk.shrunk_pages {cfg : Config} {s : Slab} (h : s.pagesOk cfg) {y : Int}
    {pages bm : List Nat} (hpg : writeAt s.page y 0 = some pages) :
    (s.shrunk pages bm).pagesOk cfg := by
  obtain ⟨h0, h1, rfl⟩ := writeAt_eq_some hpg
  have hentry : ∀ (j a : Nat), (s.page.set y.toNat 0)[j]? = some a → a ≠ 0 →
      s.page[j]? = some a := by
    intro j a hj ha
    rw [List.getElem?_set] at hj
    by_cases he : y.toNat = j
    · rw [if_pos he, if_pos h1] at hj
      cases hj; exact absurd rfl ha
    · rw [if_neg he] at hj
      exact hj
  refine ⟨fun j a hj ha => ?_, fun j1 j2 a hj1 hj2 ha => ?_⟩
  · simp only [Slab.shrunk] at hj
    exact h.1 j a (hentry j a hj ha) ha
  · simp only [Slab.shrunk] at hj1 hj2
    exact h.2 j1 j2 a (hentry j1 a hj1 ha) (hentry j2 a hj2 ha) ha

/-- In a reachable table (page allocator handing out fresh page-aligned pages)
the pages of a class are page-aligned and pairwise distinct. -/
theorem Reach.reach_pagesOk {cfg : Config} (hcfg : cfg.ok) {st : Stable}
    (h : Reach cfg (FreshPage cfg) st) :
    ∀ (k : Nat) (s : Slab), st.slab[k]? = some s → s.pagesOk cfg := by
  induction h with
  | init kr st hkr hst =>
    intro k s hs
    rw [((fresh_of_init hcfg (fun j => (hkr j).1) hst).fresh_getElem? hs).2]
    exact freshSlab_pagesOk cfg k _ (hkr _).2.1
  | alloc st size kr st' p hreach hgood hst ih =>
    obtain ⟨k, s, _, hs, hcase⟩ := kmalloc_cases hst
    have hok := ih k s hs
    rcases hcase with ⟨i, pg, bm, h1, hpg, hbm, rfl, _⟩ |
      ⟨i, pages, bm, _, _, hpg, hbm, rfl, _⟩ | ⟨_, _, rfl, _⟩
    · exact forall_getElem?_set (P := fun _ s => s.pagesOk cfg) ih hok
    · exact forall_getElem?_set (P := fun _ s => s.pagesOk cfg) ih
        (hok.grown_pages hpg hgood.2.1 (hgood.2.2 k s hs))
    · exact ih
  | free st addr size st' hreach hst ih =>
    rcases kmfree_cases hst with ⟨_, rfl⟩ | ⟨_, _, k, s, i, offset, _, hs, _, hcase⟩
    · exact ih
    · have hok := ih k s hs
      rcases hcase with ⟨_, rfl⟩ | ⟨_, bm, hbm, ⟨_, rfl⟩ | ⟨hfree, pg, pages, _, hpages, rfl⟩⟩
      · exact ih
      · exact forall_getElem?_set (P := fun _ s => s.pagesOk cfg) ih hok
      · exact forall_getElem?_set (P := fun _ s => s.pagesOk cfg) ih (hok.shrunk_pages hpages)

/-- The class scan reads the `size` fields only. -/
theorem findSlab_set (slabs : List Slab) (size : Int) (k : Nat) (s s' : Slab)
    (hs : slabs[k]? = some s) (hsize : s'.size = s.size) (n k0 : Nat) :
    findSlab (slabs.set k s') size n k0 = findSlab slabs size n k0 := by
  induction n generalizing k0 with
  | zero => rfl
  | succ n ih =>
    simp only [findSlab]
    by_cases he : k = k0
    · subst he
      have hlt : k < slabs.length := by
        by_contra hc
        rw [List.getElem?_eq_none (by omega)] at hs
        cases hs
      rw [List.getElem?_set_self hlt, hs]
      simp only [hsize, ih]
    · rw [List.getElem?_set_ne he, ih]

/-- The bit the growth pass claims in a class where no set bit lies in an empty
slot is the first bit of its page. -/
theorem growth_index_aligned {cfg : Config} {k : Nat} {s : Slab} (hlaid : s.laid cfg k)
    (hpos : 0 < cfg.PGSIZE / 2 ^ (k + 4)) (hec : s.emptyClear) {i : Nat}
    (h1 : kmalloc_reuse s (s.nbits cfg) 0 = some none)
    (h2 : kmalloc_grow s (s.nbits cfg) 0 = some (some i)) :
    i % (cfg.PGSIZE / 2 ^ (k + 4)) = 0 ∧ s.page[i / (cfg.PGSIZE / 2 ^ (k + 4))]? = some 0 := by
  obtain ⟨_, hi, hclear, hmin⟩ := (kmalloc_grow_eq_some_iff s _ 0 i).1 h2
  have hskip := (kmalloc_reuse_eq_none_iff s _ 0).1 h1 i (Nat.zero_le _) hi
  have hslot : s.page[i / (cfg.PGSIZE / 2 ^ (k + 4))]? = some 0 := by
    rcases hskip with hc | ⟨_, hc⟩
    · rw [hclear] at hc; cases hc
    · rw [hlaid.2.1, tdiv_natCast, readAt_natCast] at hc; exact hc
  refine ⟨?_, hslot⟩
  by_contra hc
  have hdm := Nat.div_add_mod i (cfg.PGSIZE / 2 ^ (k + 4))
  have hlt : cfg.PGSIZE / 2 ^ (k + 4) * (i / (cfg.PGSIZE / 2 ^ (k + 4))) < i := by omega
  have hset := hmin _ (Nat.zero_le _) hlt
  refine hec _ ?_ hset
  rw [hlaid.2.1, tdiv_natCast, Nat.mul_div_cancel_left _ hpos, readAt_natCast]
  exact hslot

/-! ## `kmalloc` followed by `kmfree` -/

/-- In a laid-out class the pointer the reuse pass returns is the page base
plus the object offset. -/
theorem Slab.laid.ptr_eq {cfg : Config} {k : Nat} {s : Slab} (h : s.laid cfg k) (pg i : Nat) :
    ((pg : Int) + Int.tmod i s.num_objects_per_page * s.size).toNat
      = pg + i % (cfg.PGSIZE / 2 ^ (k + 4)) * 2 ^ (k + 4) := by
  rw [h.1, h.2.1, tmod_natCast, ← Int.ofNat_mul, ← Int.ofNat_add, Int.toNat_ofNat]

/-! ## Filling a class -/

theorem freshSlab_filled (cfg : Config) (hcfg : cfg.ok) (k kp : Nat) (hk : k < cfg.NSLAB)
    (hkp : kp ≠ 0) : (freshSlab cfg k kp).filled cfg k 0 := by
  have hopos := Slab.laid.opp_pos hcfg hk
  refine ⟨freshSlab_laid cfg k kp, fun j hj => by omega, ?_, ?_, ?_⟩
  · intro j _ hj
    simp only [freshSlab]
    rw [getBit_nat, List.getElem?_replicate, if_pos (by omega)]
    simp
  · intro q _ hq
    have hq0 : q = 0 := by
      by_contra hc
      have : 1 * (cfg.PGSIZE / 2 ^ (k + 4)) ≤ q * (cfg.PGSIZE / 2 ^ (k + 4)) :=
        Nat.mul_le_mul_right _ (by omega)
      omega
    subst hq0
    refine ⟨kp, ?_, hkp⟩
    simp only [freshSlab]
    exact List.getElem?_set_self (by rw [List.length_replicate]; exact hcfg.2.1)
  · intro q hq hq1
    have hq0 : q ≠ 0 := by
      intro hc; subst hc; omega
    simp only [freshSlab]
    rw [List.getElem?_set_ne (fun hc => hq0 hc.symm), List.getElem?_replicate, if_pos hq]

/-- One `kmalloc` call in a class holding `n` objects allocated in a row, with
room left and `kalloc` not failing: the call succeeds and the class then holds
`n + 1`.  It reuses the page of bit `n` when that page is present, and
otherwise stores the new page in slot `n / objects_per_page` and returns it. -/
theorem kmalloc_filled_step {cfg : Config} (hcfg : cfg.ok) {st : Stable} {size : Int}
    {kr k n : Nat} {s : Slab}
    (hk : findSlab st.slab size cfg.NSLAB 0 = some k) (hs : st.slab[k]? = some s)
    (hkn : k < cfg.NSLAB) (hf : s.filled cfg k n)
    (hn : n < cfg.MAX_PAGES_PER_SLAB * (cfg.PGSIZE / 2 ^ (k + 4))) (hkr : kr ≠ 0) :
    ∃ s' tr p, kmalloc cfg st size kr = some ({ slab := st.slab.set k s', trace := tr }, p) ∧
      p ≠ 0 ∧ s'.filled cfg k (n + 1) ∧
      ((∃ a bm, s.page[n / (cfg.PGSIZE / 2 ^ (k + 4))]? = some a ∧ a ≠ 0 ∧
          s' = s.claimed bm ∧ p = a + n % (cfg.PGSIZE / 2 ^ (k + 4)) * 2 ^ (k + 4)) ∨
       (∃ bm, s.page[n / (cfg.PGSIZE / 2 ^ (k + 4))]? = some 0 ∧
          n % (cfg.PGSIZE / 2 ^ (k + 4)) = 0 ∧
          s' = s.grown (s.page.set (n / (cfg.PGSIZE / 2 ^ (k + 4))) kr) bm ∧ p = kr)) := by
  obtain ⟨hlaid, hset, hclr, hP1, hP2⟩ := hf
  have hopos := Slab.laid.opp_pos hcfg hkn
  have hnb := hlaid.nbits_le hcfg
  have hnbeq := hlaid.nbits_eq
  rw [hnbeq] at hnb
  have hnlt : n < cfg.PGSIZE / 2 ^ (k + 4) * cfg.MAX_PAGES_PER_SLAB := by
    rw [Nat.mul_comm]; exact hn
  have hq0 : n / (cfg.PGSIZE / 2 ^ (k + 4)) < cfg.MAX_PAGES_PER_SLAB :=
    Nat.div_lt_of_lt_mul hnlt
  have hq0le : n / (cfg.PGSIZE / 2 ^ (k + 4)) * (cfg.PGSIZE / 2 ^ (k + 4)) ≤ n :=
    Nat.div_mul_le_self _ _
  have hdm := Nat.div_add_mod n (cfg.PGSIZE / 2 ^ (k + 4))
  have hclear : getBit s.bitmap (n : Int) = some 0 := hclr n (le_refl _) (by omega)
  obtain ⟨bm, hbm⟩ := setBit_isSome_of_getBit 1 hclear
  have hsame : getBit bm (n : Int) = some 1 := by
    have := getBit_setBit_same hbm
    simpa using this
  have hbits1 : ∀ j : Nat, j < n + 1 → getBit bm (j : Int) = some 1 := by
    intro j hj
    by_cases he : j = n
    · rw [he]; exact hsame
    · rw [getBit_setBit_other (j : Int) hbm (by omega)]
      exact hset j (by omega)
  have hbits0 : ∀ j : Nat, n + 1 ≤ j → j < 8 * cfg.PGSIZE → getBit bm (j : Int) = some 0 := by
    intro j hj hj2
    rw [getBit_setBit_other (j : Int) hbm (by omega)]
    exact hclr j (by omega) hj2
  by_cases hcase : n / (cfg.PGSIZE / 2 ^ (k + 4)) * (cfg.PGSIZE / 2 ^ (k + 4)) < max n 1
  · -- the page of bit `n` is present
    obtain ⟨a, ha, hane⟩ := hP1 _ hq0 hcase
    have hpg : readAt s.page (Int.tdiv n s.num_objects_per_page) = some a := by
      rw [hlaid.2.1, tdiv_natCast, readAt_natCast]; exact ha
    have h1 : kmalloc_reuse s (s.nbits cfg) 0 = some (some n) := by
      rw [kmalloc_reuse_eq_some_iff]
      exact ⟨Nat.zero_le _, by rw [hnbeq]; omega, ⟨hclear, a, hpg, hane⟩,
        fun j _ hj => Or.inl (hset j hj)⟩
    refine ⟨s.claimed bm, _, _, kmalloc_of_reuse hk hs h1 hpg hbm, ?_, ?_, ?_⟩
    · rw [hlaid.ptr_eq]; omega
    · refine ⟨hlaid.claimed_laid hbm, hbits1, hbits0, ?_, ?_⟩
      · intro q hq hq1
        by_cases hold : q * (cfg.PGSIZE / 2 ^ (k + 4)) < max n 1
        · exact hP1 q hq hold
        · exfalso
          have hqn : q * (cfg.PGSIZE / 2 ^ (k + 4)) = n := by omega
          have : n / (cfg.PGSIZE / 2 ^ (k + 4)) = q := by
            rw [← hqn]; exact Nat.mul_div_cancel _ hopos
          rw [this] at hcase
          omega
      · intro q hq hq1
        exact hP2 q hq (by omega)
    · left
      exact ⟨a, bm, ha, hane, rfl, hlaid.ptr_eq a n⟩
  · -- the page of bit `n` is not there yet
    have hslot := hP2 _ hq0 (by omega)
    have hqn : n / (cfg.PGSIZE / 2 ^ (k + 4)) * (cfg.PGSIZE / 2 ^ (k + 4)) = n := by omega
    have hmod : n % (cfg.PGSIZE / 2 ^ (k + 4)) = 0 := by
      rw [Nat.mul_comm] at hqn; omega
    have h1 : kmalloc_reuse s (s.nbits cfg) 0 = some none := by
      rw [kmalloc_reuse_eq_none_iff]
      intro j _ hj
      rw [hnbeq] at hj
      by_cases hjn : j < n
      · exact Or.inl (hset j hjn)
      · right
        refine ⟨hclr j (by omega) (by omega), ?_⟩
        rw [hlaid.2.1, tdiv_natCast, readAt_natCast]
        apply hP2 _ (Nat.div_lt_of_lt_mul (by omega))
        have h2 : n / (cfg.PGSIZE / 2 ^ (k + 4)) ≤ j / (cfg.PGSIZE / 2 ^ (k + 4)) :=
          Nat.div_le_div_right (by omega)
        have h3 := Nat.mul_le_mul_right (cfg.PGSIZE / 2 ^ (k + 4)) h2
        omega
    have h2 : kmalloc_grow s (s.nbits cfg) 0 = some (some n) := by
      rw [kmalloc_grow_eq_some_iff]
      exact ⟨Nat.zero_le _, by rw [hnbeq]; omega, hclear, fun j _ hj => hset j hj⟩
    have hw : writeAt s.page (Int.tdiv n s.num_objects_per_page) kr
        = some (s.page.set (n / (cfg.PGSIZE / 2 ^ (k + 4))) kr) := by
      rw [hlaid.2.1, tdiv_natCast]
      exact writeAt_natCast _ _ _ (by rw [hlaid.2.2.2]; exact hq0)
    refine ⟨s.grown (s.page.set (n / (cfg.PGSIZE / 2 ^ (k + 4))) kr) bm, _, _,
      kmalloc_of_grow hk hs h1 h2 hw hbm, hkr, ?_, ?_⟩
    · refine ⟨hlaid.grown_laid hbm hw, hbits1, hbits0, ?_, ?_⟩
      · intro q hq hq1
        show ∃ a, (s.page.set (n / (cfg.PGSIZE / 2 ^ (k + 4))) kr)[q]? = some a ∧ a ≠ 0
        by_cases he : n / (cfg.PGSIZE / 2 ^ (k + 4)) = q
        · rw [he]
          exact ⟨kr, List.getElem?_set_self (by rw [hlaid.2.2.2]; exact hq), hkr⟩
        · rw [List.getElem?_set_ne he]
          apply hP1 q hq
          have hne : q * (cfg.PGSIZE / 2 ^ (k + 4)) ≠ n := by
            intro hc
            apply he
            rw [← hc]; exact Nat.mul_div_cancel _ hopos
          omega
      · intro q hq hq1
        show (s.page.set (n / (cfg.PGSIZE / 2 ^ (k + 4))) kr)[q]? = some 0
        have he : n / (cfg.PGSIZE / 2 ^ (k + 4)) ≠ q := by
          intro hc
          rw [hc] at hqn
          omega
        rw [List.getElem?_set_ne he]
        exact hP2 q hq (by omega)
    · right
      exact ⟨bm, hslot, hmod, rfl, rfl⟩

/-- A `kmalloc` in a class all of whose `MAX_PAGES_PER_SLAB * objects_per_page`
bits are set returns null and leaves every class as it was. -/
theorem kmalloc_filled_full {cfg : Config} {st : Stable} {size : Int} {kr k : Nat} {s : Slab}
    (hk : findSlab st.slab size cfg.NSLAB 0 = some k) (hs : st.slab[k]? = some s)
    (hf : s.filled cfg k (cfg.MAX_PAGES_PER_SLAB * (cfg.PGSIZE / 2 ^ (k + 4)))) :
    kmalloc cfg st size kr =
      some ({ slab := st.slab, trace := st.trace ++ [Event.acquire, Event.release] }, 0) := by
  obtain ⟨hlaid, hset, _, _, _⟩ := hf
  have hnbeq := hlaid.nbits_eq
  have h1 : kmalloc_reuse s (s.nbits cfg) 0 = some none := by
    rw [kmalloc_reuse_eq_none_iff]
    intro j _ hj
    exact Or.inl (hset j (by rw [hnbeq, Nat.mul_comm] at hj; omega))
  have h2 : kmalloc_grow s (s.nbits cfg) 0 = some none := by
    rw [kmalloc_grow_eq_none_iff]
    intro j _ hj
    exact hset j (by rw [hnbeq, Nat.mul_comm] at hj; omega)
  exact kmalloc_of_full hk hs h1 h2

/-- A run of `kmalloc` calls of class `k`, `kalloc` never failing, on a
laid-out table whose class `k` holds `n` objects allocated in a row: as long as
the class has room for all of them, every call succeeds, and the class ends
with `n + calls.length` objects. -/
theorem kmalloc_seq_filled {cfg : Config} (hcfg : cfg.ok) {k : Nat} (hkn : k < cfg.NSLAB)
    (calls : List (Int × Nat)) (hcalls : ∀ c, c ∈ calls → InClass k c.1 ∧ c.2 ≠ 0)
    (st : Stable) (hl : Laid cfg st) (s : Slab) (hs : st.slab[k]? = some s) (n : Nat)
    (hf : s.filled cfg k n)
    (hroom : n + calls.length ≤ cfg.MAX_PAGES_PER_SLAB * (cfg.PGSIZE / 2 ^ (k + 4))) :
    ∃ st' ps s', kmalloc_seq cfg st calls = some (st', ps) ∧ ps.length = calls.length ∧
      (∀ p, p ∈ ps → p ≠ 0) ∧ Laid cfg st' ∧ st'.slab[k]? = some s' ∧
      s'.filled cfg k (n + calls.length) := by
  induction calls generalizing st s n with
  | nil =>
    exact ⟨st, [], s, rfl, rfl, fun p hp => absurd hp (List.not_mem_nil p), hl, hs, hf⟩
  | cons c rest ih =>
    obtain ⟨size, kr⟩ := c
    obtain ⟨hin, hkr⟩ := hcalls (size, kr) (List.mem_cons_self _ _)
    simp only [List.length_cons] at hroom ⊢
    have hk : findSlab st.slab size cfg.NSLAB 0 = some k :=
      findSlab_of_least (sizesSet_of_laid hl) hkn hin.1 hin.2
    obtain ⟨s1, tr, p, hm, hp, hf1, _⟩ :=
      kmalloc_filled_step hcfg hk hs hkn hf (by omega) hkr
    have hl1 := kmalloc_laid hl hm
    have hklen : k < st.slab.length := by rw [hl.1]; exact hkn
    have hs1 : ({ slab := st.slab.set k s1, trace := tr } : Stable).slab[k]? = some s1 :=
      List.getElem?_set_self hklen
    obtain ⟨st', ps, s', hseq, hlen, hps, hl', hs', hf'⟩ :=
      ih (fun c hc => hcalls c (List.mem_cons_of_mem _ hc)) _ hl1 s1 hs1 (n + 1) hf1 (by omega)
    refine ⟨st', p :: ps, s', ?_, by simp only [List.length_cons, hlen], ?_, hl', hs', ?_⟩
    · simp only [kmalloc_seq, hm, hseq]
    · intro x hx
      rcases List.mem_cons.1 hx with rfl | hx
      · exact hp
      · exact hps x hx
    · rw [show n + (rest.length + 1) = n + 1 + rest.length by omega]
      exact hf'

/-! ## The demo tables -/

theorem demoCfg_ok : demoCfg.ok := by
  unfold Config.ok; decide

theorem demoTable_eq : slabinit demoCfg demoPages (zeroed demoCfg) = some demoTable := by
  decide!

theorem demoOne_eq :
    kmalloc demoCfg demoTable 2048 demoPage = some (demoOne, 4096 * 215) := by
  decide!

theorem demoTwo_eq :
    kmalloc demoCfg demoOne 2048 demoPage = some (demoTwo, 4096 * 215 + 2048) := by
  decide!

theorem demoOneSlab_eq : demoOne.slab[7]? = some demoOneSlab := by
  decide!

theorem demoTwoSlab_eq : demoTwo.slab[7]? = some demoTwoSlab := by
  decide!

theorem demoPages_ne_zero (j : Nat) : demoPages j ≠ 0 := by
  unfold demoPages; omega

theorem freshPage_zeroed (cfg : Config) (kr : Nat) (h0 : kr ≠ 0) (hal : cfg.PGSIZE ∣ kr) :
    FreshPage cfg (zeroed cfg) kr := by
  refine ⟨h0, hal, ?_⟩
  intro k s hs hmem
  simp only [zeroed] at hs
  rw [List.getElem?_replicate] at hs
  split at hs
  · cases hs
    simp only [List.mem_replicate] at hmem
    exact h0 hmem.2
  · cases hs

theorem freshPage_of_forall_mem (cfg : Config) (st : Stable) (kr : Nat) (h0 : kr ≠ 0)
    (hal : cfg.PGSIZE ∣ kr) (h : ∀ s, s ∈ st.slab → kr ∉ s.page) : FreshPage cfg st kr :=
  ⟨h0, hal, fun _ s hs => h s (List.getElem?_mem hs)⟩

theorem demoPages_fresh (j : Nat) : FreshPage demoCfg (zeroed demoCfg) (demoPages j) :=
  freshPage_zeroed demoCfg _ (demoPages_ne_zero j) ⟨200 + j, rfl⟩

theorem demoTable_reach : Reach demoCfg (FreshPage demoCfg) demoTable :=
  Reach.init demoPages demoTable demoPages_fresh demoTable_eq

theorem demoPage_fresh_table : FreshPage demoCfg demoTable demoPage :=
  freshPage_of_forall_mem demoCfg demoTable demoPage (by decide) (by decide) (by decide!)

theorem demoPage_fresh_one : FreshPage demoCfg demoOne demoPage :=
  freshPage_of_forall_mem demoCfg demoOne demoPage (by decide) (by decide) (by decide!)

theorem demoOne_reach : Reach demoCfg (FreshPage demoCfg) demoOne :=
  Reach.alloc demoTable 2048 demoPage demoOne _ demoTable_reach demoPage_fresh_table demoOne_eq

theorem demoTwo_reach : Reach demoCfg (FreshPage demoCfg) demoTwo :=
  Reach.alloc demoOne 2048 demoPage demoTwo _ demoOne_reach demoPage_fresh_one demoTwo_eq

/-! ## Facts about the demo tables used to instantiate the theorems -/

theorem demoTable_fresh : Fresh demoCfg demoPages demoTable :=
  fresh_of_init demoCfg_ok demoPages_ne_zero demoTable_eq

theorem demoOne_laid : Laid demoCfg demoOne :=
  kmalloc_laid demoTable_fresh.fresh_laid demoOne_eq

theorem demoOne_counted : Counted demoOne :=
  kmalloc_counted demoTable_fresh.fresh_counted demoOne_eq

theorem demoOne_findSlab : findSlab demoOne.slab 2048 demoCfg.NSLAB 0 = some 7 := by
  decide!

theorem demoTwo_findSlab : findSlab demoTwo.slab 2048 demoCfg.NSLAB 0 = some 7 := by
  decide!

theorem demoOneSlab_page : demoOneSlab.page[0]? = some (4096 * 215) := by
  decide!

theorem demoOneSlab_bit : getBit demoOneSlab.bitmap ((0 : Nat) : Int) = some 1 := by
  decide!

theorem inClass_demo : InClass 7 2048 := by
  unfold InClass; decide

/-! ## Requests and pointers the class table does not cover -/

/-- The class scan runs off the end of the table when no class covers the
request: it returns the index one past the last class. -/
theorem findSlab_past_end (slabs : List Slab) (size : Int) (n k0 : Nat)
    (h : ∀ j, k0 ≤ j → j < k0 + n → ∃ t, slabs[j]? = some t ∧ t.size < size) :
    findSlab slabs size n k0 = some (k0 + n) := by
  induction n generalizing k0 with
  | zero => rfl
  | succ n ih =>
    obtain ⟨t, ht, ht2⟩ := h k0 (le_refl _) (by omega)
    simp only [findSlab, ht]
    rw [if_neg (by omega), ih (k0 + 1) (fun j hj1 hj2 => h j (by omega) (by omega))]
    congr 1
    omega

/-- For a request larger than the largest class, on a table with the sizes of
`slabinit`, the scan of `kmalloc` ends one past the last class, and `kmalloc`
reads `s->bitmap` there: it has no defined result. -/
theorem kmalloc_oversized {cfg : Config} {st : Stable} (hst : SizesSet cfg st) {size : Int}
    (hbig : (16 * 2 ^ (cfg.NSLAB - 1) : Int) < size) (kr : Nat) :
    findSlab st.slab size cfg.NSLAB 0 = some cfg.NSLAB ∧ st.slab[cfg.NSLAB]? = none ∧
      kmalloc cfg st size kr = none := by
  obtain ⟨hlen, hsz⟩ := hst
  have hk : findSlab st.slab size cfg.NSLAB 0 = some cfg.NSLAB := by
    have := findSlab_past_end st.slab size cfg.NSLAB 0 (fun j _ hj => by
      have hj2 : j < st.slab.length := by omega
      refine ⟨st.slab[j], List.getElem?_eq_getElem hj2, ?_⟩
      rw [hsz j _ (List.getElem?_eq_getElem hj2)]
      have hpow : (2 : Int) ^ j ≤ 2 ^ (cfg.NSLAB - 1) :=
        pow_le_pow_right₀ (by norm_num) (by omega)
      omega)
    rw [Nat.zero_add] at this
    exact this
  have hs : st.slab[cfg.NSLAB]? = none := List.getElem?_eq_none (by omega)
  refine ⟨hk, hs, ?_⟩
  simp only [kmalloc, acquire, hk, hs]

/-! ## The guard -/

theorem guardRun_append (held : Bool) (a b : List Event) :
    guardRun held (a ++ b) = (guardRun held a).bind fun h => guardRun h b := by
  induction a generalizing held with
  | nil => rfl
  | cons e rest ih =>
    cases e <;> cases held <;> simp [guardRun, ih]

/-- The loop of `slabinit` only adds `kalloc` calls to the trace, which keep a
held guard held. -/
theorem slabinit_loop_trace (cfg : Config) (kr : Nat → Nat) (n i : Nat) (st st' : Stable)
    (h : slabinit_loop cfg kr n i st = some st') :
    ∃ tr, st'.trace = st.trace ++ tr ∧ guardRun true tr = some true := by
  induction n generalizing i st with
  | zero =>
    simp only [slabinit_loop, Option.some.injEq] at h
    exact ⟨[], by rw [← h, List.append_nil], rfl⟩
  | succ n ih =>
    simp only [slabinit_loop] at h
    cases hs : st.slab[i]? with
    | none => rw [hs] at h; cases h
    | some s =>
      rw [hs] at h
      simp only at h
      cases hb : slabinit_body cfg i s (kr (2 * i)) (kr (2 * i + 1)) with
      | none => rw [hb] at h; cases h
      | some s1 =>
        rw [hb] at h
        simp only at h
        obtain ⟨tr, htr, hg⟩ := ih _ _ h
        refine ⟨[Event.kalloc (kr (2 * i)), Event.kalloc (kr (2 * i + 1))] ++ tr, ?_, ?_⟩
        · rw [htr]
          simp only [kalloc, List.append_assoc, List.singleton_append, List.cons_append,
            List.nil_append]
        · rw [guardRun_append]
          simp only [guardRun, if_true, Option.some_bind]
          exact hg

/-! ## Every defined `slabinit` -/

theorem slabinit_body_zeroed_inv (cfg : Config) (k kb kp : Nat) (s1 : Slab)
    (h : slabinit_body cfg k
      { size := 0, num_pages := 0, num_free_objects := 0, num_used_objects := 0
        num_objects_per_page := 0, bitmap := []
        page := List.replicate cfg.MAX_PAGES_PER_SLAB 0 } kb kp = some s1) :
    kb ≠ 0 ∧ 0 < cfg.MAX_PAGES_PER_SLAB := by
  unfold slabinit_body at h
  simp only at h
  by_cases hkb : kb = 0
  · rw [if_pos hkb] at h; cases h
  · refine ⟨hkb, ?_⟩
    by_contra hc
    rw [if_neg hkb, memset_page_replicate] at h
    unfold writeAt at h
    rw [if_neg (by simp only [List.length_replicate, Int.toNat_zero]; omega)] at h
    cases h

/-- A defined run of the loop of `slabinit` over zeroed classes had every
bitmap page supplied, and a page slot to write to. -/
theorem slabinit_loop_defined (cfg : Config) (kr : Nat → Nat) (n i : Nat) (st st' : Stable)
    (htodo : ∀ k, i ≤ k → k < i + n → st.slab[k]? = some
      { size := 0, num_pages := 0, num_free_objects := 0, num_used_objects := 0
        num_objects_per_page := 0, bitmap := []
        page := List.replicate cfg.MAX_PAGES_PER_SLAB 0 })
    (h : slabinit_loop cfg kr n i st = some st') :
    (0 < n → 0 < cfg.MAX_PAGES_PER_SLAB) ∧ ∀ k, i ≤ k → k < i + n → kr (2 * k) ≠ 0 := by
  induction n generalizing i st with
  | zero => exact ⟨fun hc => by omega, fun k h1 h2 => by omega⟩
  | succ n ih =>
    have hi := htodo i (le_refl _) (by omega)
    simp only [slabinit_loop, hi] at h
    cases hb : slabinit_body cfg i
        { size := 0, num_pages := 0, num_free_objects := 0, num_used_objects := 0
          num_objects_per_page := 0, bitmap := []
          page := List.replicate cfg.MAX_PAGES_PER_SLAB 0 } (kr (2 * i)) (kr (2 * i + 1)) with
    | none => rw [hb] at h; cases h
    | some s1 =>
      rw [hb] at h
      simp only at h
      obtain ⟨hkb, hmax⟩ := slabinit_body_zeroed_inv cfg i _ _ s1 hb
      have := ih (i + 1) _ (fun k hk1 hk2 => by
        simp only [kalloc]
        rw [List.getElem?_set_ne (by omega)]
        exact htodo k (by omega) (by omega)) h
      refine ⟨fun _ => hmax, fun k hk1 hk2 => ?_⟩
      by_cases he : k = i
      · rw [he]; exact hkb
      · exact this.2 k (by omega) (by omega)

/-- Every defined run of `slabinit` on the zeroed table leaves it `Fresh`. -/
theorem fresh_of_slabinit (cfg : Config) (kr : Nat → Nat) (st : Stable)
    (h : slabinit cfg kr (zeroed cfg) = some st) : Fresh cfg kr st := by
  by_cases hn : cfg.NSLAB = 0
  · unfold slabinit at h
    rw [hn] at h
    simp only [slabinit_loop, Option.map_some', Option.some.injEq] at h
    rw [← h]
    refine ⟨?_, fun k hk => by omega⟩
    simp only [release, acquire, zeroed, List.length_replicate]
  · have hdef : ∃ st1, slabinit_loop cfg kr cfg.NSLAB 0 (acquire (zeroed cfg)) = some st1 := by
      unfold slabinit at h
      cases hl : slabinit_loop cfg kr cfg.NSLAB 0 (acquire (zeroed cfg)) with
      | none => rw [hl] at h; cases h
      | some st1 => exact ⟨st1, rfl⟩
    obtain ⟨st1, hst1⟩ := hdef
    obtain ⟨hmax, hkr⟩ := slabinit_loop_defined cfg kr cfg.NSLAB 0 _ st1 (fun k _ hk => by
      simp only [acquire, zeroed]
      rw [List.getElem?_replicate, if_pos (by omega)]) hst1
    obtain ⟨st0, h0, hf⟩ := slabinit_fresh cfg (hmax (by omega)) kr
      (fun k hk => hkr k (Nat.zero_le _) (by omega))
    rw [h0] at h
    cases h
    exact hf

/-! ## The used count and the population of the bitmap -/

theorem popcount_le (bm : List Nat) (n : Nat) : popcount bm n ≤ n := by
  induction n with
  | zero => exact Nat.le_refl _
  | succ n ih =>
    simp only [popcount]
    split <;> omega

theorem popcount_congr (bm bm' : List Nat) (n : Nat)
    (h : ∀ j : Nat, j < n → getBit bm' j = getBit bm j) : popcount bm' n = popcount bm n := by
  induction n with
  | zero => rfl
  | succ n ih =>
    simp only [popcount]
    rw [ih (fun j hj => h j (by omega)), h n (by omega)]

/-- Setting a clear bit of the range adds one to the population. -/
theorem popcount_set {bm bm' : List Nat} {i : Nat} (n : Nat) (hi : i < n)
    (hclear : getBit bm i = some 0) (hbm : setBit bm i 1 = some bm') :
    popcount bm' n = popcount bm n + 1 := by
  induction n with
  | zero => omega
  | succ n ih =>
    simp only [popcount]
    by_cases he : i = n
    · subst he
      have hsame := getBit_setBit_same hbm
      simp only [ne_eq, one_ne_zero, not_false_eq_true, if_true] at hsame
      rw [popcount_congr bm bm' i (fun j hj => getBit_setBit_other (j : Int) hbm (by omega)),
        hsame, hclear]
      simp
    · rw [ih (by omega), getBit_setBit_other (n : Int) hbm (by omega)]
      omega

/-- Clearing a set bit of the range takes one from the population. -/
theorem popcount_clear {bm bm' : List Nat} {i : Nat} (n : Nat) (hi : i < n)
    (hset : getBit bm i = some 1) (hbm : setBit bm i 0 = some bm') :
    popcount bm' n + 1 = popcount bm n := by
  induction n with
  | zero => omega
  | succ n ih =>
    simp only [popcount]
    by_cases he : i = n
    · subst he
      have hsame := getBit_setBit_same hbm
      simp only [ne_eq, not_true_eq_false, if_false] at hsame
      rw [popcount_congr bm bm' i (fun j hj => getBit_setBit_other (j : Int) hbm (by omega)),
        hsame, hset]
      simp
    · rw [getBit_setBit_other (n : Int) hbm (by omega)]
      have := ih (by omega)
      omega

theorem freshSlab_tallied (cfg : Config) (k kp : Nat) : (freshSlab cfg k kp).tallied cfg := by
  have hz : ∀ n, popcount (List.replicate cfg.PGSIZE 0) n = 0 := by
    intro n
    induction n with
    | zero => rfl
    | succ n ih =>
      simp only [popcount, ih]
      rw [if_neg (getBit_replicate_zero _ _)]
  refine ⟨?_, fun j _ => getBit_replicate_zero _ _, ?_⟩
  · simp only [freshSlab, hz]
    rfl
  · simp only [freshSlab]
    rw [tdiv_natCast]
    exact Int.ofNat_nonneg _

theorem Slab.tallied.set_tallied {cfg : Config} {s s' : Slab} (h : s.tallied cfg) {i : Nat}
    {bm : List Nat} (hi : i < s.nbits cfg) (hclear : getBit s.bitmap i = some 0)
    (hbm : setBit s.bitmap i 1 = some bm)
    (hopp : s'.num_objects_per_page = s.num_objects_per_page) (hbits : s'.bitmap = bm)
    (hused : s'.num_used_objects = s.num_used_objects + 1) : s'.tallied cfg := by
  have hn : s'.nbits cfg = s.nbits cfg := by unfold Slab.nbits; rw [hopp]
  refine ⟨?_, ?_, by rw [hopp]; exact h.2.2⟩
  · rw [hused, hn, hbits, popcount_set _ hi hclear hbm, h.1]
    push_cast
    rfl
  · intro j hj
    rw [hn] at hj
    rw [hbits, getBit_setBit_other (j : Int) hbm (by omega)]
    exact h.2.1 j hj

theorem Slab.tallied.clear_tallied {cfg : Config} {s s' : Slab} (h : s.tallied cfg) {idx : Int}
    {bm : List Nat} (hset : getBit s.bitmap idx = some 1)
    (hbm : setBit s.bitmap idx 0 = some bm)
    (hopp : s'.num_objects_per_page = s.num_objects_per_page) (hbits : s'.bitmap = bm)
    (hused : s'.num_used_objects = s.num_used_objects - 1) : s'.tallied cfg := by
  have hn : s'.nbits cfg = s.nbits cfg := by unfold Slab.nbits; rw [hopp]
  have hnn : 0 ≤ idx := by
    by_contra hc
    rw [getBit_neg _ _ (by omega)] at hset
    cases hset
  obtain ⟨i, rfl⟩ := Int.eq_ofNat_of_zero_le hnn
  have hi : i < s.nbits cfg := by
    by_contra hc
    exact h.2.1 i (by omega) hset
  refine ⟨?_, ?_, by rw [hopp]; exact h.2.2⟩
  · have := popcount_clear _ hi hset hbm
    rw [hused, hn, hbits, h.1, ← this]
    push_cast
    omega
  · intro j hj hj1
    rw [hn] at hj
    rw [hbits] at hj1
    exact h.2.1 j hj (getBit_clear_mono hbm hj1)

/-- In every table reachable from `slabinit`, whatever the page allocator
returns, the used count of a class is the population of its bitmap. -/
theorem Reach.reach_tallied {cfg : Config} {st : Stable} (h : Reach cfg AnyPage st) :
    ∀ (k : Nat) (s : Slab), st.slab[k]? = some s → s.tallied cfg := by
  induction h with
  | init kr st _ hst =>
    intro k s hs
    rw [((fresh_of_slabinit cfg kr st hst).fresh_getElem? hs).2]
    exact freshSlab_tallied cfg k _
  | alloc st size kr st' p _ _ hst ih =>
    obtain ⟨k, s, _, hs, hcase⟩ := kmalloc_cases hst
    have ht := ih k s hs
    rcases hcase with ⟨i, pg, bm, h1, _, hbm, rfl, _⟩ |
      ⟨i, pages, bm, _, h2, _, hbm, rfl, _⟩ | ⟨_, _, rfl, _⟩
    · obtain ⟨_, hi, hre, _⟩ := (kmalloc_reuse_eq_some_iff s _ 0 i).1 h1
      exact forall_getElem?_set (P := fun _ s => s.tallied cfg) ih
        (ht.set_tallied (by omega) hre.1 hbm rfl rfl rfl)
    · obtain ⟨_, hi, hclear, _⟩ := (kmalloc_grow_eq_some_iff s _ 0 i).1 h2
      exact forall_getElem?_set (P := fun _ s => s.tallied cfg) ih
        (ht.set_tallied (by omega) hclear hbm rfl rfl rfl)
    · exact ih
  | free st addr size st' _ hst ih =>
    rcases kmfree_cases hst with ⟨_, rfl⟩ | ⟨_, _, k, s, i, offset, _, hs, _, hcase⟩
    · exact ih
    · have ht := ih k s hs
      rcases hcase with ⟨_, rfl⟩ | ⟨hset, bm, hbm, ⟨_, rfl⟩ | ⟨_, pg, pages, _, _, rfl⟩⟩
      · exact ih
      · exact forall_getElem?_set (P := fun _ s => s.tallied cfg) ih
          (ht.clear_tallied hset hbm rfl rfl rfl)
      · exact forall_getElem?_set (P := fun _ s => s.tallied cfg) ih
          (ht.clear_tallied hset hbm rfl rfl rfl)

/-! ## Filling the first page -/

theorem pagesTaken_append (t1 t2 : List Event) :
    pagesTaken (t1 ++ t2) = pagesTaken t1 ++ pagesTaken t2 := by
  induction t1 with
  | nil => rfl
  | cons e rest ih => cases e <;> simp [pagesTaken, ih]

theorem pagesGiven_append (t1 t2 : List Event) :
    pagesGiven (t1 ++ t2) = pagesGiven t1 ++ pagesGiven t2 := by
  induction t1 with
  | nil => rfl
  | cons e rest ih => cases e <;> simp [pagesGiven, ih]

/-- One `kmalloc` call in a class holding `n` objects allocated in a row whose
next bit lies in a page that is present: the call takes that bit, whatever
`kalloc` would return, and asks for no page. -/
theorem kmalloc_filled_reuse {cfg : Config} (hcfg : cfg.ok) {st : Stable} {size : Int}
    (kr : Nat) {k n : Nat} {s : Slab}
    (hk : findSlab st.slab size cfg.NSLAB 0 = some k) (hs : st.slab[k]? = some s)
    (hkn : k < cfg.NSLAB) (hf : s.filled cfg k n)
    (hn : n < cfg.MAX_PAGES_PER_SLAB * (cfg.PGSIZE / 2 ^ (k + 4)))
    (hcase : n / (cfg.PGSIZE / 2 ^ (k + 4)) * (cfg.PGSIZE / 2 ^ (k + 4)) < max n 1) :
    ∃ a bm, s.page[n / (cfg.PGSIZE / 2 ^ (k + 4))]? = some a ∧ a ≠ 0 ∧
      kmalloc cfg st size kr =
        some ({ slab := st.slab.set k (s.claimed bm)
                trace := st.trace ++ [Event.acquire, Event.release] },
              a + n % (cfg.PGSIZE / 2 ^ (k + 4)) * 2 ^ (k + 4)) ∧
      (s.claimed bm).filled cfg k (n + 1) := by
  obtain ⟨hlaid, hset, hclr, hP1, hP2⟩ := hf
  have hopos := Slab.laid.opp_pos hcfg hkn
  have hnb := hlaid.nbits_le hcfg
  have hnbeq := hlaid.nbits_eq
  rw [hnbeq] at hnb
  have hnlt : n < cfg.PGSIZE / 2 ^ (k + 4) * cfg.MAX_PAGES_PER_SLAB := by
    rw [Nat.mul_comm]; exact hn
  have hq0 : n / (cfg.PGSIZE / 2 ^ (k + 4)) < cfg.MAX_PAGES_PER_SLAB :=
    Nat.div_lt_of_lt_mul hnlt
  have hclear : getBit s.bitmap (n : Int) = some 0 := hclr n (le_refl _) (by omega)
  obtain ⟨bm, hbm⟩ := setBit_isSome_of_getBit 1 hclear
  have hsame : getBit bm (n : Int) = some 1 := by
    have := getBit_setBit_same hbm
    simpa using this
  obtain ⟨a, ha, hane⟩ := hP1 _ hq0 hcase
  have hpg : readAt s.page (Int.tdiv n s.num_objects_per_page) = some a := by
    rw [hlaid.2.1, tdiv_natCast, readAt_natCast]; exact ha
  have h1 : kmalloc_reuse s (s.nbits cfg) 0 = some (some n) := by
    rw [kmalloc_reuse_eq_some_iff]
    exact ⟨Nat.zero_le _, by rw [hnbeq]; omega, ⟨hclear, a, hpg, hane⟩,
      fun j _ hj => Or.inl (hset j hj)⟩
  have hm : kmalloc cfg st size kr = _ := kmalloc_of_reuse hk hs h1 hpg hbm
  rw [hlaid.ptr_eq] at hm
  refine ⟨a, bm, ha, hane, hm, hlaid.claimed_laid hbm, ?_, ?_, ?_, ?_⟩
  · intro j hj
    by_cases he : j = n
    · rw [he]; exact hsame
    · show getBit bm (j : Int) = some 1
      rw [getBit_setBit_other (j : Int) hbm (by omega)]
      exact hset j (by omega)
  · intro j hj hj2
    show getBit bm (j : Int) = some 0
    rw [getBit_setBit_other (j : Int) hbm (by omega)]
    exact hclr j (by omega) hj2
  · intro q hq hq1
    by_cases hold : q * (cfg.PGSIZE / 2 ^ (k + 4)) < max n 1
    · exact hP1 q hq hold
    · exfalso
      have hqn : q * (cfg.PGSIZE / 2 ^ (k + 4)) = n := by omega
      have : n / (cfg.PGSIZE / 2 ^ (k + 4)) = q := by
        rw [← hqn]; exact Nat.mul_div_cancel _ hopos
      rw [this] at hcase
      omega
  · intro q hq hq1
    exact hP2 q hq (by omega)

/-- A run of `kmalloc` calls of class `k` that fits in the first page, on a
laid-out table whose class `k` holds `n` objects allocated in a row: the calls
return the consecutive object slots of the page in slot 0, and the class keeps
its pages. -/
theorem kmalloc_seq_first_page {cfg : Config} (hcfg : cfg.ok) {k : Nat} (hkn : k < cfg.NSLAB)
    (calls : List (Int × Nat)) (hcalls : ∀ c, c ∈ calls → InClass k c.1)
    (st : Stable) (hl : Laid cfg st) (s : Slab) (hs : st.slab[k]? = some s) (n : Nat)
    (hf : s.filled cfg k n) (A : Nat) (hA : s.page[0]? = some A)
    (hroom : n + calls.length ≤ cfg.PGSIZE / 2 ^ (k + 4)) :
    ∃ st' s', kmalloc_seq cfg st calls =
        some (st', (List.range calls.length).map (fun j => A + (n + j) * 2 ^ (k + 4))) ∧
      Laid cfg st' ∧ st'.slab[k]? = some s' ∧ s'.filled cfg k (n + calls.length) ∧
      s'.page = s.page ∧ s'.num_pages = s.num_pages ∧
      s'.num_used_objects = s.num_used_objects + calls.length ∧
      s'.num_free_objects = s.num_free_objects - calls.length ∧
      pagesTaken st'.trace = pagesTaken st.trace ∧
      pagesGiven st'.trace = pagesGiven st.trace := by
  induction calls generalizing st s n with
  | nil =>
    refine ⟨st, s, rfl, hl, hs, hf, rfl, rfl, ?_, ?_, rfl, rfl⟩
    · simp only [List.length_nil, Nat.cast_zero, add_zero]
    · simp only [List.length_nil, Nat.cast_zero, sub_zero]
  | cons c rest ih =>
    obtain ⟨size, kr⟩ := c
    have hin := hcalls (size, kr) (List.mem_cons_self _ _)
    simp only [List.length_cons] at hroom ⊢
    have hk : findSlab st.slab size cfg.NSLAB 0 = some k :=
      findSlab_of_least (sizesSet_of_laid hl) hkn hin.1 hin.2
    have hlt : n < cfg.PGSIZE / 2 ^ (k + 4) := by omega
    have hdiv : n / (cfg.PGSIZE / 2 ^ (k + 4)) = 0 := Nat.div_eq_of_lt hlt
    have hmod : n % (cfg.PGSIZE / 2 ^ (k + 4)) = n := Nat.mod_eq_of_lt hlt
    have hmul : cfg.PGSIZE / 2 ^ (k + 4)
        ≤ cfg.MAX_PAGES_PER_SLAB * (cfg.PGSIZE / 2 ^ (k + 4)) :=
      Nat.le_mul_of_pos_left _ hcfg.2.1
    obtain ⟨a, bm, ha, _, hm, hf1⟩ :=
      kmalloc_filled_reuse hcfg kr hk hs hkn hf (by omega)
        (by rw [hdiv, Nat.zero_mul]; omega)
    rw [hdiv, hA] at ha
    cases ha
    rw [hmod] at hm
    have hl1 := kmalloc_laid hl hm
    have hklen : k < st.slab.length := by rw [hl.1]; exact hkn
    have hs1 : ({ slab := st.slab.set k (s.claimed bm)
                  trace := st.trace ++ [Event.acquire, Event.release] } : Stable).slab[k]?
        = some (s.claimed bm) := List.getElem?_set_self hklen
    obtain ⟨st', s', hseq, hl', hs', hf', hpage, hnp, hused, hfree, htk, hgv⟩ :=
      ih (fun c hc => hcalls c (List.mem_cons_of_mem _ hc)) _ hl1 (s.claimed bm) hs1 (n + 1) hf1
        hA (by omega)
    refine ⟨st', s', ?_, hl', hs', ?_, hpage, hnp, ?_, ?_, ?_, ?_⟩
    · simp only [kmalloc_seq, hm, hseq, List.range_succ_eq_map, List.map_cons, List.map_map,
        Nat.add_zero]
      congr 3
      apply List.map_congr_left
      intro j _
      show A + (n + 1 + j) * 2 ^ (k + 4) = A + (n + (j + 1)) * 2 ^ (k + 4)
      rw [Nat.add_assoc n 1 j, Nat.add_comm 1 j]
    · rw [show n + (rest.length + 1) = n + 1 + rest.length by omega]
      exact hf'
    · rw [hused]
      show s.num_used_objects + 1 + (rest.length : Int) = _
      push_cast
      ring
    · rw [hfree]
      show s.num_free_objects - 1 - (rest.length : Int) = _
      push_cast
      ring
    · rw [htk, pagesTaken_append]
      simp only [pagesTaken, List.append_nil]
    · rw [hgv, pagesGiven_append]
      simp only [pagesGiven, List.append_nil]

/-- One `kmalloc` call in a class holding `n` objects allocated in a row whose
next bit lies in a page that is not there yet: the call stores the page
`kalloc` hands out in slot `n / objects_per_page` and returns its base. -/
theorem kmalloc_filled_grow {cfg : Config} (hcfg : cfg.ok) {st : Stable} {size : Int}
    (kr : Nat) {k n : Nat} {s : Slab}
    (hk : findSlab st.slab size cfg.NSLAB 0 = some k) (hs : st.slab[k]? = some s)
    (hkn : k < cfg.NSLAB) (hf : s.filled cfg k n)
    (hn : n < cfg.MAX_PAGES_PER_SLAB * (cfg.PGSIZE / 2 ^ (k + 4))) (hkr : kr ≠ 0)
    (hcase : ¬ n / (cfg.PGSIZE / 2 ^ (k + 4)) * (cfg.PGSIZE / 2 ^ (k + 4)) < max n 1) :
    ∃ bm, s.page[n / (cfg.PGSIZE / 2 ^ (k + 4))]? = some 0 ∧
      setBit s.bitmap (n : Int) 1 = some bm ∧
      kmalloc cfg st size kr =
        some ({ slab := st.slab.set k
                  (s.grown (s.page.set (n / (cfg.PGSIZE / 2 ^ (k + 4))) kr) bm)
                trace := st.trace ++ [Event.acquire, Event.kalloc kr, Event.release] }, kr) ∧
      (s.grown (s.page.set (n / (cfg.PGSIZE / 2 ^ (k + 4))) kr) bm).filled cfg k (n + 1) := by
  obtain ⟨hlaid, hset, hclr, hP1, hP2⟩ := hf
  have hopos := Slab.laid.opp_pos hcfg hkn
  have hnb := hlaid.nbits_le hcfg
  have hnbeq := hlaid.nbits_eq
  rw [hnbeq] at hnb
  have hnlt : n < cfg.PGSIZE / 2 ^ (k + 4) * cfg.MAX_PAGES_PER_SLAB := by
    rw [Nat.mul_comm]; exact hn
  have hq0 : n / (cfg.PGSIZE / 2 ^ (k + 4)) < cfg.MAX_PAGES_PER_SLAB :=
    Nat.div_lt_of_lt_mul hnlt
  have hq0le : n / (cfg.PGSIZE / 2 ^ (k + 4)) * (cfg.PGSIZE / 2 ^ (k + 4)) ≤ n :=
    Nat.div_mul_le_self _ _
  have hclear : getBit s.bitmap (n : Int) = some 0 := hclr n (le_refl _) (by omega)
  obtain ⟨bm, hbm⟩ := setBit_isSome_of_getBit 1 hclear
  have hsame : getBit bm (n : Int) = some 1 := by
    have := getBit_setBit_same hbm
    simpa using this
  have hslot := hP2 _ hq0 (by omega)
  have hqn : n / (cfg.PGSIZE / 2 ^ (k + 4)) * (cfg.PGSIZE / 2 ^ (k + 4)) = n := by omega
  have h1 : kmalloc_reuse s (s.nbits cfg) 0 = some none := by
    rw [kmalloc_reuse_eq_none_iff]
    intro j _ hj
    rw [hnbeq] at hj
    by_cases hjn : j < n
    · exact Or.inl (hset j hjn)
    · right
      refine ⟨hclr j (by omega) (by omega), ?_⟩
      rw [hlaid.2.1, tdiv_natCast, readAt_natCast]
      apply hP2 _ (Nat.div_lt_of_lt_mul (by omega))
      have h2 : n / (cfg.PGSIZE / 2 ^ (k + 4)) ≤ j / (cfg.PGSIZE / 2 ^ (k + 4)) :=
        Nat.div_le_div_right (by omega)
      have h3 := Nat.mul_le_mul_right (cfg.PGSIZE / 2 ^ (k + 4)) h2
      omega
  have h2 : kmalloc_grow s (s.nbits cfg) 0 = some (some n) := by
    rw [kmalloc_grow_eq_some_iff]
    exact ⟨Nat.zero_le _, by rw [hnbeq]; omega, hclear, fun j _ hj => hset j hj⟩
  have hw : writeAt s.page (Int.tdiv n s.num_objects_per_page) kr
      = some (s.page.set (n / (cfg.PGSIZE / 2 ^ (k + 4))) kr) := by
    rw [hlaid.2.1, tdiv_natCast]
    exact writeAt_natCast _ _ _ (by rw [hlaid.2.2.2]; exact hq0)
  refine ⟨bm, hslot, hbm, kmalloc_of_grow hk hs h1 h2 hw hbm, hlaid.grown_laid hbm hw,
    ?_, ?_, ?_, ?_⟩
  · intro j hj
    show getBit bm (j : Int) = some 1
    by_cases he : j = n
    · rw [he]; exact hsame
    · rw [getBit_setBit_other (j : Int) hbm (by omega)]
      exact hset j (by omega)
  · intro j hj hj2
    show getBit bm (j : Int) = some 0
    rw [getBit_setBit_other (j : Int) hbm (by omega)]
    exact hclr j (by omega) hj2
  · intro q hq hq1
    show ∃ a, (s.page.set (n / (cfg.PGSIZE / 2 ^ (k + 4))) kr)[q]? = some a ∧ a ≠ 0
    by_cases he : n / (cfg.PGSIZE / 2 ^ (k + 4)) = q
    · rw [he]
      exact ⟨kr, List.getElem?_set_self (by rw [hlaid.2.2.2]; exact hq), hkr⟩
    · rw [List.getElem?_set_ne he]
      apply hP1 q hq
      have hne : q * (cfg.PGSIZE / 2 ^ (k + 4)) ≠ n := by
        intro hc
        apply he
        rw [← hc]; exact Nat.mul_div_cancel _ hopos
      omega
  · intro q hq hq1
    show (s.page.set (n / (cfg.PGSIZE / 2 ^ (k + 4))) kr)[q]? = some 0
    have he : n / (cfg.PGSIZE / 2 ^ (k + 4)) ≠ q := by
      intro hc
      rw [hc] at hqn
      omega
    rw [List.getElem?_set_ne he]
    exact hP2 q hq (by omega)

/-- The growth run in class `k`: on the table `slabinit` leaves, one page worth
of `kmalloc` calls fills the pre-seeded page, and the next call stores the page
`P` that `kalloc` hands out in slot 1 and returns it. -/
theorem growth_run {cfg : Config} (hcfg : cfg.ok) {k : Nat} (hkn : k < cfg.NSLAB)
    (hmax : 2 ≤ cfg.MAX_PAGES_PER_SLAB) (kr0 : Nat → Nat) (st0 : Stable)
    (hinit : slabinit cfg kr0 (zeroed cfg) = some st0) (hA : kr0 (2 * k + 1) ≠ 0)
    (calls : List (Int × Nat)) (hcalls : ∀ c, c ∈ calls → InClass k c.1)
    (hlen : calls.length = cfg.PGSIZE / 2 ^ (k + 4))
    (size : Int) (hsize : InClass k size) (P : Nat) (hP : P ≠ 0) :
    ∃ st1 s1 st2 bm,
      kmalloc_seq cfg st0 calls =
        some (st1, (List.range (cfg.PGSIZE / 2 ^ (k + 4))).map
          (fun j => kr0 (2 * k + 1) + j * 2 ^ (k + 4))) ∧
      st0.slab[k]? = some (freshSlab cfg k (kr0 (2 * k + 1))) ∧
      Laid cfg st1 ∧ st1.slab[k]? = some s1 ∧ s1.filled cfg k (cfg.PGSIZE / 2 ^ (k + 4)) ∧
      s1.page = (List.replicate cfg.MAX_PAGES_PER_SLAB 0).set 0 (kr0 (2 * k + 1)) ∧
      s1.num_pages = 1 ∧ s1.num_used_objects = ((cfg.PGSIZE / 2 ^ (k + 4) : Nat) : Int) ∧
      s1.num_free_objects = 0 ∧
      pagesTaken st1.trace = pagesTaken st0.trace ∧
      pagesGiven st1.trace = pagesGiven st0.trace ∧
      setBit s1.bitmap ((cfg.PGSIZE / 2 ^ (k + 4) : Nat) : Int) 1 = some bm ∧
      kmalloc cfg st1 size P = some (st2, P) ∧
      st2.slab = st1.slab.set k (s1.grown (s1.page.set 1 P) bm) ∧
      st2.trace = st1.trace ++ [Event.acquire, Event.kalloc P, Event.release] ∧
      (s1.grown (s1.page.set 1 P) bm).filled cfg k (cfg.PGSIZE / 2 ^ (k + 4) + 1) := by
  have hfresh := fresh_of_slabinit cfg kr0 st0 hinit
  have hs0 := hfresh.2 k hkn
  have hopos := Slab.laid.opp_pos hcfg hkn
  have hA0 : (freshSlab cfg k (kr0 (2 * k + 1))).page[0]? = some (kr0 (2 * k + 1)) := by
    simp only [freshSlab]
    exact List.getElem?_set_self (by rw [List.length_replicate]; exact hcfg.2.1)
  obtain ⟨st1, s1, hseq, hl1, hs1, hf1, hpage, hnp, hused, hfree, htk, hgv⟩ :=
    kmalloc_seq_first_page hcfg hkn calls hcalls st0 hfresh.fresh_laid _ hs0 0
      (freshSlab_filled cfg hcfg k _ hkn hA) _ hA0 (by omega)
  rw [hlen] at hseq
  rw [Nat.zero_add, hlen] at hf1
  have hk1 : findSlab st1.slab size cfg.NSLAB 0 = some k :=
    findSlab_of_least (sizesSet_of_laid hl1) hkn hsize.1 hsize.2
  have hlt : cfg.PGSIZE / 2 ^ (k + 4)
      < cfg.MAX_PAGES_PER_SLAB * (cfg.PGSIZE / 2 ^ (k + 4)) := by
    calc cfg.PGSIZE / 2 ^ (k + 4) < 2 * (cfg.PGSIZE / 2 ^ (k + 4)) := by omega
      _ ≤ cfg.MAX_PAGES_PER_SLAB * (cfg.PGSIZE / 2 ^ (k + 4)) := Nat.mul_le_mul_right _ hmax
  have hself : cfg.PGSIZE / 2 ^ (k + 4) / (cfg.PGSIZE / 2 ^ (k + 4)) = 1 := Nat.div_self hopos
  obtain ⟨bm, _, hbm, hm, hf2⟩ :=
    kmalloc_filled_grow hcfg P hk1 hs1 hkn hf1 hlt hP
      (by rw [hself, Nat.one_mul]; omega)
  rw [hself] at hm hf2
  have hfr : (freshSlab cfg k (kr0 (2 * k + 1))).num_free_objects
      = ((cfg.PGSIZE / 2 ^ (k + 4) : Nat) : Int) :=
    (freshSlab_laid cfg k (kr0 (2 * k + 1))).2.1
  refine ⟨st1, s1, _, bm, ?_, hs0, hl1, hs1, hf1, hpage, hnp, ?_, ?_, htk, hgv, hbm, hm, rfl,
    rfl, hf2⟩
  · rw [hseq]
    congr 2
    apply List.map_congr_left
    intro j _
    rw [Nat.zero_add]
  · rw [hused, hlen]
    show (0 : Int) + _ = _
    rw [zero_add]
  · rw [hfree, hlen, hfr, sub_self]

/-! ## Emptying the first page -/

/-- Freeing, in the order of the list, the live objects of the page in slot 0
of a class with a second page: every call returns, the last one gives the page
back, and the second page stays with its live object. -/
theorem kmfree_seq_drain {cfg : Config} (hcfg : cfg.ok) {k : Nat} (hkn : k < cfg.NSLAB)
    (A P : Nat) (hA0 : A ≠ 0) (size : Int) (hsize : InClass k size) (hpos : 0 < size)
    (rest : List Nat) (hne : rest ≠ []) (hnd : rest.Nodup)
    (hform : ∀ p, p ∈ rest → ∃ m, m < cfg.PGSIZE / 2 ^ (k + 4) ∧ p = A + m * 2 ^ (k + 4))
    (st : Stable) (hl : Laid cfg st) (s : Slab) (hs : st.slab[k]? = some s)
    (hinv : s.draining cfg k A P rest) :
    ∃ st' s', kmfree_seq cfg st (rest.map (fun p => (p, size))) = some st' ∧
      Laid cfg st' ∧ st'.slab[k]? = some s' ∧
      s'.page[0]? = some 0 ∧ s'.page[1]? = some P ∧ s'.num_pages = 1 ∧
      s'.num_used_objects = 1 ∧
      s'.num_free_objects = ((cfg.PGSIZE / 2 ^ (k + 4) : Nat) : Int) - 1 ∧
      getBit s'.bitmap ((cfg.PGSIZE / 2 ^ (k + 4) : Nat) : Int) = some 1 ∧
      (∀ t : Nat, t < cfg.PGSIZE / 2 ^ (k + 4) → getBit s'.bitmap (t : Int) = some 0) ∧
      pagesGiven st'.trace = pagesGiven st.trace ++ [A] ∧
      pagesTaken st'.trace = pagesTaken st.trace := by
  induction rest generalizing st s with
  | nil => exact absurd rfl hne
  | cons p tl ih =>
    obtain ⟨hlaid, hpA, hpP, hok, hbits, htop, hnp, hused, hfree⟩ := hinv
    obtain ⟨m, hm, hp⟩ := hform p (List.mem_cons_self _ _)
    have hzpos : 0 < 2 ^ (k + 4) := Nat.pos_pow_of_pos _ (by norm_num)
    have hk : findSlab st.slab size cfg.NSLAB 0 = some k :=
      findSlab_of_least (sizesSet_of_laid hl) hkn hsize.1 hsize.2
    have hklen : k < st.slab.length := by rw [hl.1]; exact hkn
    have hm0 : 0 * (cfg.PGSIZE / 2 ^ (k + 4)) + m = m := by rw [Nat.zero_mul, Nat.zero_add]
    have hset : getBit s.bitmap
        ((0 * (cfg.PGSIZE / 2 ^ (k + 4)) + m : Nat) : Int) = some 1 := by
      rw [hm0, hbits m hm, if_pos]
      rw [← hp]
      exact List.mem_cons_self _ _
    obtain ⟨bm, hbm, hlast, hrest⟩ :=
      kmfree_live cfg hcfg st hl p size k 0 A m s hpos hk hs hok hpA hA0 hm hp hset
    rw [hm0] at hbm
    simp only [Nat.zero_mul, Nat.zero_add] at hlast hrest
    have hpn : p ∉ tl := (List.nodup_cons.1 hnd).1
    have hbits1 : ∀ t : Nat, t < cfg.PGSIZE / 2 ^ (k + 4) →
        getBit bm (t : Int) = some (if A + t * 2 ^ (k + 4) ∈ tl then 1 else 0) := by
      intro t ht
      by_cases he : t = m
      · subst he
        rw [getBit_setBit_same hbm, ← hp, if_neg hpn]
        simp only [ne_eq, not_true_eq_false, if_false]
      · rw [getBit_setBit_other (t : Int) hbm (by omega), hbits t ht]
        have hnep : A + t * 2 ^ (k + 4) ≠ p := by
          rw [hp]
          intro hc
          exact he (Nat.eq_of_mul_eq_mul_right hzpos (by omega))
        simp only [List.mem_cons, hnep, false_or]
    have htop1 : getBit bm ((cfg.PGSIZE / 2 ^ (k + 4) : Nat) : Int) = some 1 := by
      rw [getBit_setBit_other _ hbm (by omega)]
      exact htop
    by_cases htl : tl = []
    · subst htl
      have hclr : ∀ t : Nat, t < cfg.PGSIZE / 2 ^ (k + 4) → getBit bm (t : Int) = some 0 := by
        intro t ht
        rw [hbits1 t ht]
        simp only [List.not_mem_nil, if_false]
      have hm1 := hlast hclr
      have hlen1 : 1 < s.page.length := by
        by_contra hc
        rw [List.getElem?_eq_none (by omega)] at hpP
        cases hpP
      refine ⟨_, s.shrunk (s.page.set 0 0) bm, ?_, kmfree_laid hl hm1,
        List.getElem?_set_self hklen, ?_, ?_, ?_, ?_, ?_, htop1, hclr, ?_, ?_⟩
      · simp only [List.map_cons, List.map_nil, kmfree_seq, hm1]
      · show (s.page.set 0 0)[0]? = some 0
        exact List.getElem?_set_self (by omega)
      · show (s.page.set 0 0)[1]? = some P
        rw [List.getElem?_set_ne (by omega)]
        exact hpP
      · show s.num_pages - 1 = 1
        rw [hnp]; rfl
      · show s.num_used_objects - 1 = 1
        rw [hused]
        simp only [List.length_cons, List.length_nil]
        norm_num
      · show s.num_free_objects + 1 - s.num_objects_per_page = _
        rw [hfree, hlaid.2.1]
        simp only [List.length_cons, List.length_nil]
        push_cast
        ring
      · show pagesGiven (st.trace ++ [Event.acquire, Event.kfree A, Event.release]) = _
        rw [pagesGiven_append]
        simp only [pagesGiven]
      · show pagesTaken (st.trace ++ [Event.acquire, Event.kfree A, Event.release]) = _
        rw [pagesTaken_append]
        simp only [pagesTaken, List.append_nil]
    · obtain ⟨q, hq⟩ := List.exists_mem_of_ne_nil tl htl
      obtain ⟨mq, hmq, hqeq⟩ := hform q (List.mem_cons_of_mem _ hq)
      have hm1 := hrest (fun hall => by
        have h0 := hall mq hmq
        rw [hbits1 mq hmq, if_pos (by rw [← hqeq]; exact hq)] at h0
        cases h0)
      have hl1 := kmfree_laid hl hm1
      obtain ⟨st', s', hseq, hl', hs', h0, h1, h2, h3, h4, h5, h6, h7, h8⟩ :=
        ih htl (List.nodup_cons.1 hnd).2 (fun x hx => hform x (List.mem_cons_of_mem _ hx)) _ hl1
          (s.released bm) (List.getElem?_set_self hklen)
          ⟨hlaid.released_laid hbm, hpA, hpP, hok, hbits1, htop1, hnp, by
            show s.num_used_objects - 1 = _
            rw [hused]
            simp only [List.length_cons]
            push_cast
            ring, by
            show s.num_free_objects + 1 = _
            rw [hfree]
            simp only [List.length_cons]
            push_cast
            ring⟩
      refine ⟨st', s', ?_, hl', hs', h0, h1, h2, h3, h4, h5, h6, ?_, ?_⟩
      · simp only [List.map_cons, kmfree_seq, hm1]
        exact hseq
      · rw [h7]
        show pagesGiven (st.trace ++ [Event.acquire, Event.release]) ++ [A] = _
        rw [pagesGiven_append]
        simp only [pagesGiven, List.append_nil]
      · rw [h8]
        show pagesTaken (st.trace ++ [Event.acquire, Event.release]) = _
        rw [pagesTaken_append]
        simp only [pagesTaken, List.append_nil]

/-- The class right after the growth run is in the state `Slab.draining`, with
every object of the first page live. -/
theorem growth_draining {cfg : Config} {k : Nat} (hmax : 2 ≤ cfg.MAX_PAGES_PER_SLAB)
    (A P : Nat) (hAal : cfg.PGSIZE ∣ A) (hPal : cfg.PGSIZE ∣ P) (hP : P ≠ 0) (hAP : P ≠ A)
    (s1 : Slab) (bm : List Nat)
    (hf2 : (s1.grown (s1.page.set 1 P) bm).filled cfg k (cfg.PGSIZE / 2 ^ (k + 4) + 1))
    (hpage : s1.page = (List.replicate cfg.MAX_PAGES_PER_SLAB 0).set 0 A)
    (hnp : s1.num_pages = 1)
    (hused : s1.num_used_objects = ((cfg.PGSIZE / 2 ^ (k + 4) : Nat) : Int))
    (hfree : s1.num_free_objects = 0)
    (rest : List Nat)
    (hperm : rest.Perm ((List.range (cfg.PGSIZE / 2 ^ (k + 4))).map
      (fun j => A + j * 2 ^ (k + 4)))) :
    (s1.grown (s1.page.set 1 P) bm).draining cfg k A P rest := by
  obtain ⟨hlaid, hset, _, _, _⟩ := hf2
  have hlen : s1.page.length = cfg.MAX_PAGES_PER_SLAB := by
    rw [hpage, List.length_set, List.length_replicate]
  have hok1 : s1.pagesOk cfg := by
    have h := freshSlab_pagesOk cfg k A hAal
    unfold Slab.pagesOk at h ⊢
    rw [hpage]
    exact h
  have hw : writeAt s1.page ((1 : Nat) : Int) P = some (s1.page.set 1 P) :=
    writeAt_natCast _ _ _ (by rw [hlen]; omega)
  have hnot : P ∉ s1.page := by
    rw [hpage]
    intro hc
    rcases List.mem_or_eq_of_mem_set hc with h | h
    · exact hP (List.eq_of_mem_replicate h)
    · exact hAP h
  refine ⟨hlaid, ?_, ?_, hok1.grown_pages hw hPal hnot, ?_, hset _ (by omega), ?_, ?_, ?_⟩
  · show (s1.page.set 1 P)[0]? = some A
    rw [List.getElem?_set_ne (by omega), hpage]
    exact List.getElem?_set_self (by rw [List.length_replicate]; omega)
  · show (s1.page.set 1 P)[1]? = some P
    exact List.getElem?_set_self (by rw [hlen]; omega)
  · intro m hm
    rw [hset m (by omega), if_pos]
    exact hperm.mem_iff.2 (List.mem_map.2 ⟨m, List.mem_range.2 hm, rfl⟩)
  · show s1.num_pages + 1 = 2
    rw [hnp]; rfl
  · show s1.num_used_objects + 1 = _
    rw [hused, hperm.length_eq, List.length_map, List.length_range]
    ring
  · show s1.num_free_objects + (s1.num_objects_per_page - 1) = _
    have hopp1 : s1.num_objects_per_page = ((cfg.PGSIZE / 2 ^ (k + 4) : Nat) : Int) := hlaid.2.1
    rw [hfree, hopp1, hperm.length_eq, List.length_map, List.length_range]
    ring

/-! ## Live objects -/

/-- What a returning `kmalloc` does, on a laid-out table in which no set bit
lies in an empty slot, `kalloc` not failing: it returns null and leaves the
classes alone, or it returns object `m` of the page in slot `q` of the selected
class, whose bit was clear and is now set; the page was there, or it is the
page `kalloc` handed out, stored in a slot that was empty while every page of
the class was full. -/
theorem kmalloc_outcome {cfg : Config} (hcfg : cfg.ok) {st st' : Stable} (hl : Laid cfg st)
    {size : Int} {kr p : Nat}
    (hec : ∀ (k : Nat) (s : Slab), st.slab[k]? = some s → s.emptyClear)
    (hm : kmalloc cfg st size kr = some (st', p)) (hkr : kr ≠ 0) :
    ∃ k s, findSlab st.slab size cfg.NSLAB 0 = some k ∧ k < cfg.NSLAB ∧
      st.slab[k]? = some s ∧
      ((p = 0 ∧ st'.slab = st.slab) ∨
       ∃ s' q a m bm, st'.slab = st.slab.set k s' ∧ s'.laid cfg k ∧
         q < cfg.MAX_PAGES_PER_SLAB ∧ m < cfg.PGSIZE / 2 ^ (k + 4) ∧
         p = a + m * 2 ^ (k + 4) ∧ a ≠ 0 ∧ s'.page[q]? = some a ∧
         getBit s.bitmap ((q * (cfg.PGSIZE / 2 ^ (k + 4)) + m : Nat) : Int) = some 0 ∧
         setBit s.bitmap ((q * (cfg.PGSIZE / 2 ^ (k + 4)) + m : Nat) : Int) 1 = some bm ∧
         s'.bitmap = bm ∧
         ((s'.page = s.page) ∨
          (s.page[q]? = some 0 ∧ s'.page = s.page.set q kr ∧ a = kr ∧
            ∀ (q' a' : Nat), s.page[q']? = some a' → a' ≠ 0 →
              ∀ m', m' < cfg.PGSIZE / 2 ^ (k + 4) →
                getBit s.bitmap ((q' * (cfg.PGSIZE / 2 ^ (k + 4)) + m' : Nat) : Int)
                  = some 1))) := by
  obtain ⟨k, s, hk, hs, hcase⟩ := kmalloc_cases hm
  have hkn := lt_of_getElem?_eq_some hl hs
  have hlaid := hl.2 k s hs
  have hopos := Slab.laid.opp_pos hcfg hkn
  have hnbeq := hlaid.nbits_eq
  refine ⟨k, s, hk, hkn, hs, ?_⟩
  rcases hcase with ⟨i, pg, bm, h1, hpg, hbm, rfl, hp⟩ |
    ⟨i, pages, bm, h1, h2, hpg, hbm, rfl, rfl⟩ | ⟨_, _, rfl, hp⟩
  · right
    obtain ⟨_, hi, ⟨hclear, pg', hpg', hne⟩, _⟩ := (kmalloc_reuse_eq_some_iff s _ 0 i).1 h1
    rw [hpg] at hpg'
    cases hpg'
    rw [hnbeq] at hi
    have hidx : i / (cfg.PGSIZE / 2 ^ (k + 4)) * (cfg.PGSIZE / 2 ^ (k + 4))
        + i % (cfg.PGSIZE / 2 ^ (k + 4)) = i := by
      rw [Nat.mul_comm]; exact Nat.div_add_mod i _
    rw [hlaid.2.1, tdiv_natCast, readAt_natCast] at hpg
    rw [hlaid.ptr_eq] at hp
    refine ⟨s.claimed bm, i / (cfg.PGSIZE / 2 ^ (k + 4)), pg, i % (cfg.PGSIZE / 2 ^ (k + 4)),
      bm, rfl, hlaid.claimed_laid hbm, Nat.div_lt_of_lt_mul (by omega), Nat.mod_lt _ hopos, hp,
      hne, hpg, ?_, ?_, rfl, Or.inl rfl⟩
    · rw [hidx]; exact hclear
    · rw [hidx]; exact hbm
  · right
    obtain ⟨hmod, hslot⟩ := growth_index_aligned hlaid hopos (hec k s hs) h1 h2
    obtain ⟨_, hi, hclear, _⟩ := (kmalloc_grow_eq_some_iff s _ 0 i).1 h2
    rw [hnbeq] at hi
    have hq : i / (cfg.PGSIZE / 2 ^ (k + 4)) < cfg.MAX_PAGES_PER_SLAB :=
      Nat.div_lt_of_lt_mul (by omega)
    have hidx : i / (cfg.PGSIZE / 2 ^ (k + 4)) * (cfg.PGSIZE / 2 ^ (k + 4)) + 0 = i := by
      have := Nat.div_add_mod i (cfg.PGSIZE / 2 ^ (k + 4))
      rw [hmod, Nat.mul_comm] at this
      exact this
    have hlaid' := hlaid.grown_laid hbm hpg
    rw [hlaid.2.1, tdiv_natCast,
      writeAt_natCast _ _ _ (by rw [hlaid.2.2.2]; exact hq)] at hpg
    cases hpg
    refine ⟨_, i / (cfg.PGSIZE / 2 ^ (k + 4)), p, 0, bm, rfl, hlaid', hq, hopos,
      by rw [Nat.zero_mul, Nat.add_zero], hkr, ?_, ?_, ?_, rfl, Or.inr ⟨hslot, rfl, rfl, ?_⟩⟩
    · show (s.page.set (i / (cfg.PGSIZE / 2 ^ (k + 4))) p)[i / (cfg.PGSIZE / 2 ^ (k + 4))]?
        = some p
      exact List.getElem?_set_self (by rw [hlaid.2.2.2]; exact hq)
    · rw [hidx]; exact hclear
    · rw [hidx]; exact hbm
    · intro q' a' hq' ha' m' hm'
      have hq'lt : q' < cfg.MAX_PAGES_PER_SLAB := by
        by_contra hc
        rw [List.getElem?_eq_none (by rw [hlaid.2.2.2]; omega)] at hq'
        cases hq'
      have hjlt : q' * (cfg.PGSIZE / 2 ^ (k + 4)) + m' < s.nbits cfg := by
        rw [hnbeq]
        calc q' * (cfg.PGSIZE / 2 ^ (k + 4)) + m'
            < (q' + 1) * (cfg.PGSIZE / 2 ^ (k + 4)) := by rw [Nat.add_mul, Nat.one_mul]; omega
          _ ≤ cfg.MAX_PAGES_PER_SLAB * (cfg.PGSIZE / 2 ^ (k + 4)) :=
              Nat.mul_le_mul_right _ hq'lt
          _ = cfg.PGSIZE / 2 ^ (k + 4) * cfg.MAX_PAGES_PER_SLAB := Nat.mul_comm _ _
      have hdiv : (q' * (cfg.PGSIZE / 2 ^ (k + 4)) + m') / (cfg.PGSIZE / 2 ^ (k + 4)) = q' := by
        rw [Nat.mul_comm, Nat.mul_add_div hopos, Nat.div_eq_of_lt hm', Nat.add_zero]
      rcases (kmalloc_reuse_eq_none_iff s _ 0).1 h1 (q' * (cfg.PGSIZE / 2 ^ (k + 4)) + m')
          (Nat.zero_le _) (by rw [Nat.zero_add]; exact hjlt) with h | ⟨_, h⟩
      · exact h
      · exfalso
        rw [hlaid.2.1, tdiv_natCast, readAt_natCast, hdiv, hq'] at h
        cases h
        exact ha' rfl
  · exact Or.inl ⟨hp, rfl⟩

theorem object_end_le {cfg : Config} (hcfg : cfg.ok) {k : Nat} (hkn : k < cfg.NSLAB) {m : Nat}
    (hm : m < cfg.PGSIZE / 2 ^ (k + 4)) : m * 2 ^ (k + 4) + 2 ^ (k + 4) ≤ cfg.PGSIZE := by
  calc m * 2 ^ (k + 4) + 2 ^ (k + 4) = (m + 1) * 2 ^ (k + 4) := by rw [Nat.add_mul, Nat.one_mul]
    _ ≤ cfg.PGSIZE / 2 ^ (k + 4) * 2 ^ (k + 4) := Nat.mul_le_mul_right _ hm
    _ = cfg.PGSIZE := Nat.div_mul_cancel (two_pow_class_dvd hcfg hkn)

/-- Two objects, each an object slot of a page-aligned page of its class, do
not overlap unless they are the same slot of the same page. -/
theorem objects_disjoint {cfg : Config} (hcfg : cfg.ok) {k k' : Nat} (hkn : k < cfg.NSLAB)
    (hkn' : k' < cfg.NSLAB) {a a' m m' p p' : Nat} (hal : cfg.PGSIZE ∣ a)
    (hal' : cfg.PGSIZE ∣ a') (hm : m < cfg.PGSIZE / 2 ^ (k + 4))
    (hm' : m' < cfg.PGSIZE / 2 ^ (k' + 4)) (hp : p = a + m * 2 ^ (k + 4))
    (hp' : p' = a' + m' * 2 ^ (k' + 4)) (hsame : a = a' → k = k' ∧ m ≠ m') :
    p + 2 ^ (k + 4) ≤ p' ∨ p' + 2 ^ (k' + 4) ≤ p := by
  have he := object_end_le hcfg hkn hm
  have he' := object_end_le hcfg hkn' hm'
  by_cases haa : a = a'
  · obtain ⟨hkk, hmm⟩ := hsame haa
    subst hkk
    subst haa
    rcases Nat.lt_or_gt_of_ne hmm with h | h
    · left
      have := Nat.mul_le_mul_right (2 ^ (k + 4)) (Nat.succ_le_of_lt h)
      rw [Nat.succ_mul] at this
      omega
    · right
      have := Nat.mul_le_mul_right (2 ^ (k + 4)) (Nat.succ_le_of_lt h)
      rw [Nat.succ_mul] at this
      omega
  · obtain ⟨x, rfl⟩ := hal
    obtain ⟨y, rfl⟩ := hal'
    have hxy : x ≠ y := fun hc => haa (by rw [hc])
    rcases Nat.lt_or_gt_of_ne hxy with h | h
    · left
      have := Nat.mul_le_mul_left cfg.PGSIZE (Nat.succ_le_of_lt h)
      rw [Nat.mul_succ] at this
      omega
    · right
      have := Nat.mul_le_mul_left cfg.PGSIZE (Nat.succ_le_of_lt h)
      rw [Nat.mul_succ] at this
      omega

/-- A returning `kmalloc`, in a table whose live objects are as `LiveOk` says,
keeps them so, and a non-null result is an object inside a present page of the
selected class that overlaps no live object. -/
theorem kmalloc_live_step {cfg : Config} (hcfg : cfg.ok) {st st' : Stable}
    {live : List (Nat × Int)} {size : Int} {kr p : Nat} (hl : Laid cfg st)
    (hok : ∀ (k : Nat) (s : Slab), st.slab[k]? = some s → s.pagesOk cfg)
    (hec : ∀ (k : Nat) (s : Slab), st.slab[k]? = some s → s.emptyClear)
    (hap : PagesApart st) (hlive : LiveOk cfg st live) (hkr : FreshPage cfg st kr)
    (hm : kmalloc cfg st size kr = some (st', p)) :
    LiveOk cfg st' (if p = 0 then live else (p, size) :: live) ∧
    (p ≠ 0 → ∃ (k : Nat) (s' : Slab) (q a : Nat),
      findSlab st.slab size cfg.NSLAB 0 = some k ∧ k < cfg.NSLAB ∧
      st'.slab[k]? = some s' ∧ s'.size = ((2 ^ (k + 4) : Nat) : Int) ∧
      s'.page[q]? = some a ∧ a ≠ 0 ∧ a ≤ p ∧ p + 2 ^ (k + 4) ≤ a + cfg.PGSIZE ∧
      ∀ (p' : Nat) (size' : Int), (p', size') ∈ live →
        ∃ k', findSlab st.slab size' cfg.NSLAB 0 = some k' ∧
          (p + 2 ^ (k + 4) ≤ p' ∨ p' + 2 ^ (k' + 4) ≤ p)) := by
  obtain ⟨k, s, hk, hkn, hs, hcase⟩ := kmalloc_outcome hcfg hl hec hm hkr.1
  rcases hcase with ⟨hp0, hslab⟩ |
    ⟨s', q, a, m, bm, hslab, hlaid', hq, hmlt, hp, ha, hpa, hclear, hbm, hbits, hpages⟩
  · subst hp0
    rw [if_pos rfl]
    refine ⟨?_, fun h => absurd rfl h⟩
    unfold LiveOk
    rw [hslab]
    exact hlive
  · have hpne : p ≠ 0 := by omega
    have hlaid := hl.2 k s hs
    have hklen : k < st.slab.length := by rw [hl.1]; exact hkn
    have hs' : st'.slab[k]? = some s' := by rw [hslab]; exact List.getElem?_set_self hklen
    have hsize : s'.size = s.size := by rw [hlaid'.1, hlaid.1]
    have hfs : ∀ sz, findSlab st'.slab sz cfg.NSLAB 0 = findSlab st.slab sz cfg.NSLAB 0 :=
      fun sz => by rw [hslab]; exact findSlab_set st.slab sz k s s' hs hsize _ _
    have hal : cfg.PGSIZE ∣ a := by
      rcases hpages with hsame | ⟨_, _, hakr, _⟩
      · exact (hok k s hs).1 q a (by rw [← hsame]; exact hpa) ha
      · rw [hakr]; exact hkr.2.1
    have hdisj : ∀ (p' : Nat) (size' : Int), (p', size') ∈ live →
        ∃ k', findSlab st.slab size' cfg.NSLAB 0 = some k' ∧
          (p + 2 ^ (k + 4) ≤ p' ∨ p' + 2 ^ (k' + 4) ≤ p) := by
      intro p' size' hmem
      obtain ⟨k', s2, hk', hs2, q', a', m', hpa', ha', hm', hp', hset'⟩ := hlive.2 p' size' hmem
      have hkn' := lt_of_getElem?_eq_some hl hs2
      refine ⟨k', hk', objects_disjoint hcfg hkn hkn' hal
        ((hok k' s2 hs2).1 q' a' hpa' ha') hmlt hm' hp hp' ?_⟩
      intro haa
      rcases hpages with hsame | ⟨_, _, hakr, _⟩
      · have hpa0 : s.page[q]? = some a := by rw [← hsame]; exact hpa
        have hkk : k = k' := hap k k' s s2 a hs hs2 (List.getElem?_mem hpa0)
          (by rw [haa]; exact List.getElem?_mem hpa') ha
        subst hkk
        rw [hs] at hs2
        cases hs2
        have hqq : q = q' := (hok k s hs).2 q q' a hpa0 (by rw [haa]; exact hpa') ha
        subst hqq
        refine ⟨rfl, fun hmm => ?_⟩
        subst hmm
        rw [hclear] at hset'
        cases hset'
      · exfalso
        apply hkr.2.2 k' s2 hs2
        rw [← hakr, haa]
        exact List.getElem?_mem hpa'
    have hend := object_end_le hcfg hkn hmlt
    refine ⟨?_, fun _ => ⟨k, s', q, a, hk, hkn, hs', hlaid'.1, hpa, ha, by omega, by omega,
      hdisj⟩⟩
    rw [if_neg hpne]
    refine ⟨?_, ?_⟩
    · simp only [List.map_cons, List.nodup_cons]
      refine ⟨?_, hlive.1⟩
      intro hin
      obtain ⟨⟨p1, size1⟩, hmem, hfst⟩ := List.mem_map.1 hin
      simp only at hfst
      subst hfst
      obtain ⟨k', _, hd⟩ := hdisj p1 size1 hmem
      have h1 : 0 < 2 ^ (k + 4) := Nat.pos_pow_of_pos _ (by norm_num)
      have h2 : 0 < 2 ^ (k' + 4) := Nat.pos_pow_of_pos _ (by norm_num)
      omega
    · intro p1 size1 hmem
      rcases List.mem_cons.1 hmem with heq | hmem
      · cases heq
        refine ⟨k, s', by rw [hfs]; exact hk, hs', q, a, m, hpa, ha, hmlt, hp, ?_⟩
        rw [hbits, getBit_setBit_same hbm]
        simp only [ne_eq, one_ne_zero, not_false_eq_true, if_true]
      · obtain ⟨k', s2, hk', hs2, q', a', m', hpa', ha', hm', hp', hset'⟩ :=
          hlive.2 p1 size1 hmem
        by_cases hkk : k' = k
        · rw [hkk] at hk' hs2 hm' hp' hset'
          rw [hs] at hs2
          cases hs2
          refine ⟨k, s', by rw [hfs]; exact hk', hs', q', a', m', ?_, ha', hm', hp', ?_⟩
          · rcases hpages with hsame | ⟨hslot, hpg, _, _⟩
            · rw [hsame]; exact hpa'
            · have hqq : q ≠ q' := by
                intro hc
                rw [hc, hpa'] at hslot
                cases hslot
                exact ha' rfl
              rw [hpg, List.getElem?_set_ne hqq]
              exact hpa'
          · rw [hbits, getBit_setBit_other _ hbm ?_]
            · exact hset'
            · intro hc
              rw [hc, hclear] at hset'
              cases hset'
        · refine ⟨k', s2, by rw [hfs]; exact hk', ?_, q', a', m', hpa', ha', hm', hp', hset'⟩
          rw [hslab, List.getElem?_set_ne (fun hc => hkk hc.symm)]
          exact hs2

theorem slot_index_inj {o q m q' m' : Nat} (hm : m < o) (hm' : m' < o)
    (h : q * o + m = q' * o + m') : q = q' ∧ m = m' := by
  have ho : 0 < o := by omega
  have h1 : (q * o + m) / o = q := by
    rw [Nat.mul_comm, Nat.mul_add_div ho, Nat.div_eq_of_lt hm, Nat.add_zero]
  have h2 : (q' * o + m') / o = q' := by
    rw [Nat.mul_comm, Nat.mul_add_div ho, Nat.div_eq_of_lt hm', Nat.add_zero]
  have hq : q = q' := by rw [← h1, ← h2, h]
  subst hq
  exact ⟨rfl, by omega⟩

/-- What `kmfree` does with a live object and a positive size: it returns,
having cleared the bit of the object; the page of the object stays when it
keeps a set bit, and its slot is emptied when it has none left. -/
theorem kmfree_outcome {cfg : Config} (hcfg : cfg.ok) {st : Stable} (hl : Laid cfg st)
    {addr : Nat} {size : Int} {k : Nat} {s : Slab} (hpos : 0 < size)
    (hk : findSlab st.slab size cfg.NSLAB 0 = some k) (hs : st.slab[k]? = some s)
    (hok : s.pagesOk cfg) (hlv : s.liveAt cfg k addr) :
    ∃ (q a m : Nat) (bm : List Nat) (s' : Slab) (tr : List Event),
      s.page[q]? = some a ∧ a ≠ 0 ∧ m < cfg.PGSIZE / 2 ^ (k + 4) ∧
      addr = a + m * 2 ^ (k + 4) ∧
      getBit s.bitmap ((q * (cfg.PGSIZE / 2 ^ (k + 4)) + m : Nat) : Int) = some 1 ∧
      setBit s.bitmap ((q * (cfg.PGSIZE / 2 ^ (k + 4)) + m : Nat) : Int) 0 = some bm ∧
      kmfree cfg st addr size = some { slab := st.slab.set k s', trace := tr } ∧
      s'.laid cfg k ∧ s'.bitmap = bm ∧
      ((s'.page = s.page ∧ ∃ t, t < cfg.PGSIZE / 2 ^ (k + 4) ∧
          getBit bm ((q * (cfg.PGSIZE / 2 ^ (k + 4)) + t : Nat) : Int) = some 1) ∨
       (s'.page = s.page.set q 0 ∧ ∀ t, t < cfg.PGSIZE / 2 ^ (k + 4) →
          getBit bm ((q * (cfg.PGSIZE / 2 ^ (k + 4)) + t : Nat) : Int) = some 0)) := by
  obtain ⟨q, a, m, hpa, ha, hm, haddr, hset⟩ := hlv
  have hlaid := hl.2 k s hs
  have hkn := lt_of_getElem?_eq_some hl hs
  have hq : q < cfg.MAX_PAGES_PER_SLAB := by
    by_contra hc
    rw [List.getElem?_eq_none (by rw [hlaid.2.2.2]; omega)] at hpa
    cases hpa
  obtain ⟨bm, hbm, hlast, hrest⟩ :=
    kmfree_live cfg hcfg st hl addr size k q a m s hpos hk hs hok hpa ha hm haddr hset
  by_cases hall : ∀ t, t < cfg.PGSIZE / 2 ^ (k + 4) →
      getBit bm ((q * (cfg.PGSIZE / 2 ^ (k + 4)) + t : Nat) : Int) = some 0
  · exact ⟨q, a, m, bm, _, _, hpa, ha, hm, haddr, hset, hbm, hlast hall,
      hlaid.shrunk_laid hbm (writeAt_natCast s.page q 0 (by rw [hlaid.2.2.2]; exact hq)), rfl,
      Or.inr ⟨rfl, hall⟩⟩
  · refine ⟨q, a, m, bm, _, _, hpa, ha, hm, haddr, hset, hbm, hrest hall,
      hlaid.released_laid hbm, rfl, Or.inl ⟨rfl, ?_⟩⟩
    by_contra hc
    apply hall
    intro t ht
    have hlt : q * (cfg.PGSIZE / 2 ^ (k + 4)) + t < 8 * cfg.PGSIZE := by
      have h1 := hlaid.nbits_le hcfg
      rw [hlaid.nbits_eq] at h1
      calc q * (cfg.PGSIZE / 2 ^ (k + 4)) + t
          < (q + 1) * (cfg.PGSIZE / 2 ^ (k + 4)) := by rw [Nat.add_mul, Nat.one_mul]; omega
        _ ≤ cfg.MAX_PAGES_PER_SLAB * (cfg.PGSIZE / 2 ^ (k + 4)) := Nat.mul_le_mul_right _ hq
        _ = cfg.PGSIZE / 2 ^ (k + 4) * cfg.MAX_PAGES_PER_SLAB := Nat.mul_comm _ _
        _ ≤ 8 * cfg.PGSIZE := h1
    obtain ⟨v, hv⟩ := (hlaid.released_laid hbm).getBit_defined _ hlt
    have hv' : getBit bm ((q * (cfg.PGSIZE / 2 ^ (k + 4)) + t : Nat) : Int) = some v := hv
    rcases getBit_zero_or_one hv' with h0 | h1
    · rw [hv', h0]
    · exfalso
      exact hc ⟨t, ht, by rw [hv', h1]⟩

/-- Freeing a live object with its original size returns and keeps the
remaining live objects as `LiveOk` says. -/
theorem kmfree_live_step {cfg : Config} (hcfg : cfg.ok) {st : Stable}
    {live : List (Nat × Int)} {addr : Nat} {size : Int} (hl : Laid cfg st)
    (hok : ∀ (k : Nat) (s : Slab), st.slab[k]? = some s → s.pagesOk cfg)
    (hlive : LiveOk cfg st live) (hmem : (addr, size) ∈ live) :
    ∃ st', kmfree cfg st addr size = some st' ∧
      LiveOk cfg st' (if 0 < size then live.erase (addr, size) else live) := by
  have hnd' : ((live.erase (addr, size)).map Prod.fst).Nodup :=
    hlive.1.sublist ((List.erase_sublist _ _).map _)
  by_cases hpos : 0 < size
  · rw [if_pos hpos]
    obtain ⟨k, s, hk, hs, hlv⟩ := hlive.2 addr size hmem
    obtain ⟨q, a, m, bm, s', tr, hpa, ha, hm, haddr, hset, hbm, hfree, hlaid', hbits, hpages⟩ :=
      kmfree_outcome hcfg hl hpos hk hs (hok k s hs) hlv
    have hlaid := hl.2 k s hs
    have hkn := lt_of_getElem?_eq_some hl hs
    have hklen : k < st.slab.length := by rw [hl.1]; exact hkn
    have hsize : s'.size = s.size := by rw [hlaid'.1, hlaid.1]
    refine ⟨_, hfree, hnd', ?_⟩
    intro p1 size1 hmem1
    have hmem0 : (p1, size1) ∈ live := List.mem_of_mem_erase hmem1
    have hne : (p1, size1) ≠ (addr, size) :=
      ((List.Nodup.mem_erase_iff (List.Nodup.of_map _ hlive.1)).1 hmem1).1
    have hpne : p1 ≠ addr := by
      intro hc
      exact hne (List.inj_on_of_nodup_map hlive.1 hmem0 hmem hc)
    obtain ⟨k', s2, hk', hs2, q', a', m', hpa', ha', hm', hp', hset'⟩ := hlive.2 p1 size1 hmem0
    have hfs : findSlab (st.slab.set k s') size1 cfg.NSLAB 0 = some k' := by
      rw [findSlab_set st.slab size1 k s s' hs hsize _ _]; exact hk'
    by_cases hkk : k' = k
    · rw [hkk] at hk' hs2 hm' hp' hset' hfs
      rw [hs] at hs2
      cases hs2
      have hidx : ((q' * (cfg.PGSIZE / 2 ^ (k + 4)) + m' : Nat) : Int)
          ≠ ((q * (cfg.PGSIZE / 2 ^ (k + 4)) + m : Nat) : Int) := by
        intro hc
        obtain ⟨hq, hmm⟩ := slot_index_inj hm' hm (Int.ofNat.inj hc)
        subst hq
        subst hmm
        rw [hpa] at hpa'
        cases hpa'
        exact hpne (by rw [hp', haddr])
      have hset1 : getBit bm ((q' * (cfg.PGSIZE / 2 ^ (k + 4)) + m' : Nat) : Int) = some 1 := by
        rw [getBit_setBit_other _ hbm hidx]; exact hset'
      refine ⟨k, s', hfs, List.getElem?_set_self hklen, q', a', m', ?_, ha', hm', hp', ?_⟩
      · rcases hpages with ⟨hsame, _⟩ | ⟨hpg, hall⟩
        · rw [hsame]; exact hpa'
        · have hqq : q ≠ q' := by
            intro hc
            subst hc
            rw [hall m' hm'] at hset1
            cases hset1
          rw [hpg, List.getElem?_set_ne hqq]
          exact hpa'
      · rw [hbits]; exact hset1
    · refine ⟨k', s2, hfs, ?_, q', a', m', hpa', ha', hm', hp', hset'⟩
      show (st.slab.set k s')[k']? = some s2
      rw [List.getElem?_set_ne (fun hc => hkk hc.symm)]
      exact hs2
  · rw [if_neg hpos]
    exact ⟨st, kmfree_of_invalid (Or.inr (by omega)), hlive⟩

/-- Forgetting the list of live objects. -/
theorem ReachLive.reach_forget {cfg : Config} {st : Stable} {live : List (Nat × Int)}
    (h : ReachLive cfg st live) : Reach cfg (FreshPage cfg) st := by
  induction h with
  | init kr st hkr _ hst =>
    exact Reach.init kr st (fun j => freshPage_zeroed cfg _ (hkr j).1 (hkr j).2) hst
  | alloc st live size kr st' p _ hgood hst ih => exact Reach.alloc st size kr st' p ih hgood hst
  | free st live addr size st' _ _ hst ih => exact Reach.free st addr size st' ih hst

/-- Replacing class `k` by one whose pages are pages of the old class, or pages
that no class holds, keeps the classes' pages apart. -/
theorem pagesApart_set {st : Stable} (hap : PagesApart st) {k : Nat} {s s' : Slab}
    (hs : st.slab[k]? = some s) (tr : List Event)
    (hpages : ∀ a, a ∈ s'.page → a ≠ 0 →
      a ∈ s.page ∨ ∀ (k2 : Nat) (s2 : Slab), st.slab[k2]? = some s2 → a ∉ s2.page) :
    PagesApart { slab := st.slab.set k s', trace := tr } := by
  have hget : ∀ (j : Nat) (t : Slab), (st.slab.set k s')[j]? = some t →
      (j = k ∧ t = s') ∨ (j ≠ k ∧ st.slab[j]? = some t) := by
    intro j t hj
    rw [List.getElem?_set] at hj
    by_cases he : k = j
    · rw [if_pos he] at hj
      split at hj
      · cases hj; exact Or.inl ⟨he.symm, rfl⟩
      · cases hj
    · rw [if_neg he] at hj
      exact Or.inr ⟨fun hc => he hc.symm, hj⟩
  intro k1 k2 s1 s2 a h1 h2 ha1 ha2 hne
  rcases hget k1 s1 h1 with ⟨e1, rfl⟩ | ⟨n1, o1⟩ <;> rcases hget k2 s2 h2 with ⟨e2, rfl⟩ | ⟨n2, o2⟩
  · rw [e1, e2]
  · rcases hpages a ha1 hne with h | h
    · rw [e1]; exact hap k k2 s s2 a hs o2 h ha2 hne
    · exact absurd ha2 (h k2 s2 o2)
  · rcases hpages a ha2 hne with h | h
    · rw [e2]; exact hap k1 k s1 s a o1 hs ha1 h hne
    · exact absurd ha1 (h k1 s1 o1)
  · exact hap k1 k2 s1 s2 a o1 o2 ha1 ha2 hne

/-- In reachable tables no page is held by two classes. -/
theorem ReachLive.reach_apart {cfg : Config} {st : Stable} {live : List (Nat × Int)}
    (h : ReachLive cfg st live) : PagesApart st := by
  induction h with
  | init kr st _ hinj hst =>
    have hf := fresh_of_slabinit cfg kr st hst
    intro k1 k2 s1 s2 a h1 h2 ha1 ha2 hne
    rw [(hf.fresh_getElem? h1).2] at ha1
    rw [(hf.fresh_getElem? h2).2] at ha2
    simp only [freshSlab] at ha1 ha2
    have e1 : a = kr (2 * k1 + 1) := by
      rcases List.mem_or_eq_of_mem_set ha1 with h | h
      · exact absurd (List.eq_of_mem_replicate h) hne
      · exact h
    have e2 : a = kr (2 * k2 + 1) := by
      rcases List.mem_or_eq_of_mem_set ha2 with h | h
      · exact absurd (List.eq_of_mem_replicate h) hne
      · exact h
    have := hinj _ _ (e1.symm.trans e2)
    omega
  | alloc st live size kr st' p _ hgood hst ih =>
    obtain ⟨k, s, _, hs, hcase⟩ := kmalloc_cases hst
    rcases hcase with ⟨i, pg, bm, _, _, _, rfl, _⟩ | ⟨i, pages, bm, _, _, hpg, _, rfl, _⟩ |
      ⟨_, _, rfl, _⟩
    · exact pagesApart_set ih hs _ (fun a ha _ => Or.inl ha)
    · obtain ⟨_, _, rfl⟩ := writeAt_eq_some hpg
      refine pagesApart_set ih hs _ (fun a ha _ => ?_)
      rcases List.mem_or_eq_of_mem_set ha with h | h
      · exact Or.inl h
      · right
        rw [h]
        exact hgood.2.2
    · exact ih
  | free st live addr size st' _ _ hst ih =>
    rcases kmfree_cases hst with ⟨_, rfl⟩ | ⟨_, _, k, s, i, offset, _, hs, _, hcase⟩
    · exact ih
    · rcases hcase with ⟨_, rfl⟩ | ⟨_, bm, _, ⟨_, rfl⟩ | ⟨_, pg, pages, _, hpages, rfl⟩⟩
      · exact ih
      · exact pagesApart_set ih hs _ (fun a ha _ => Or.inl ha)
      · obtain ⟨_, _, rfl⟩ := writeAt_eq_some hpages
        refine pagesApart_set ih hs _ (fun a ha hne => ?_)
        rcases List.mem_or_eq_of_mem_set ha with h | h
        · exact Or.inl h
        · exact absurd h hne

theorem ReachLive.live_laid {cfg : Config} (hcfg : cfg.ok) {st : Stable}
    {live : List (Nat × Int)} (h : ReachLive cfg st live) : Laid cfg st :=
  (h.reach_forget.reach_mono (freshPage_neverFails cfg)).reach_laid hcfg

theorem ReachLive.live_emptyClear {cfg : Config} (hcfg : cfg.ok) {st : Stable}
    {live : List (Nat × Int)} (h : ReachLive cfg st live) :
    ∀ (k : Nat) (s : Slab), st.slab[k]? = some s → s.emptyClear :=
  (h.reach_forget.reach_mono (freshPage_neverFails cfg)).reach_emptyClear hcfg

/-- In reachable tables the live objects are as `LiveOk` says. -/
theorem ReachLive.reach_liveOk {cfg : Config} (hcfg : cfg.ok) {st : Stable}
    {live : List (Nat × Int)} (h : ReachLive cfg st live) : LiveOk cfg st live := by
  induction h with
  | init kr st _ _ _ =>
    exact ⟨List.nodup_nil, fun p size hmem => absurd hmem (List.not_mem_nil _)⟩
  | alloc st live size kr st' p hreach hgood hst ih =>
    exact (kmalloc_live_step hcfg (hreach.live_laid hcfg) (hreach.reach_forget.reach_pagesOk hcfg)
      (hreach.live_emptyClear hcfg) hreach.reach_apart ih hgood hst).1
  | free st live addr size st' hreach hmem hst ih =>
    obtain ⟨st1, h1, hlive⟩ := kmfree_live_step hcfg (hreach.live_laid hcfg)
      (hreach.reach_forget.reach_pagesOk hcfg) ih hmem
    rw [h1] at hst
    cases hst
    exact hlive

theorem freshSlab_page_entry {cfg : Config} {k a0 q a : Nat}
    (h : (freshSlab cfg k a0).page[q]? = some a) (ha : a ≠ 0) : q = 0 ∧ a = a0 := by
  simp only [freshSlab, List.getElem?_set, List.length_replicate] at h
  by_cases h0 : 0 = q
  · rw [if_pos h0] at h
    split at h
    · cases h; exact ⟨h0.symm, rfl⟩
    · cases h
  · rw [if_neg h0, List.getElem?_replicate] at h
    split at h
    · cases h; exact absurd rfl ha
    · cases h

/-- In reachable tables every page of a class has a set bit in its range,
unless the class is still as `slabinit` left it. -/
theorem ReachLive.reach_backed {cfg : Config} (hcfg : cfg.ok) {st : Stable}
    {live : List (Nat × Int)} (h : ReachLive cfg st live) :
    ∀ (k : Nat) (s : Slab), st.slab[k]? = some s → s.backed cfg k := by
  induction h with
  | init kr st _ _ hst =>
    intro k s hs
    exact Or.inl ⟨_, ((fresh_of_slabinit cfg kr st hst).fresh_getElem? hs).2⟩
  | alloc st live size kr st' p hreach hgood hst ih =>
    obtain ⟨k, s, hk, hkn, hs, hcase⟩ :=
      kmalloc_outcome hcfg (hreach.live_laid hcfg) (hreach.live_emptyClear hcfg) hst hgood.1
    rcases hcase with ⟨_, hslab⟩ |
      ⟨s', q, a, m, bm, hslab, hlaid', hq, hmlt, hp, ha, hpa, hclear, hbm, hbits, hpages⟩
    · rw [hslab]; exact ih
    · rw [hslab]
      refine forall_getElem?_set (P := fun k s => s.backed cfg k) ih (Or.inr ?_)
      have hopos := Slab.laid.opp_pos hcfg hkn
      have hkeep : ∀ (q1 m1 : Nat),
          getBit s.bitmap ((q1 * (cfg.PGSIZE / 2 ^ (k + 4)) + m1 : Nat) : Int) = some 1 →
          getBit s'.bitmap ((q1 * (cfg.PGSIZE / 2 ^ (k + 4)) + m1 : Nat) : Int) = some 1 := by
        intro q1 m1 h1
        rw [hbits, getBit_setBit_other _ hbm ?_]
        · exact h1
        · intro hc
          rw [hc, hclear] at h1
          cases h1
      intro q1 a1 hq1 ha1
      by_cases hqq : q1 = q
      · refine ⟨m, hmlt, ?_⟩
        rw [hqq, hbits, getBit_setBit_same hbm]
        simp only [ne_eq, one_ne_zero, not_false_eq_true, if_true]
      · rcases hpages with hsame | ⟨_, hpg, _, hfull⟩
        · rw [hsame] at hq1 hpa
          rcases ih k s hs with ⟨a0, hfr⟩ | hb
          · exfalso
            rw [hfr] at hq1 hpa
            have e1 := (freshSlab_page_entry hq1 ha1).1
            have e2 := (freshSlab_page_entry hpa ha).1
            exact hqq (by rw [e1, e2])
          · obtain ⟨m1, hm1, hb1⟩ := hb q1 a1 hq1 ha1
            exact ⟨m1, hm1, hkeep q1 m1 hb1⟩
        · rw [hpg, List.getElem?_set_ne (fun hc => hqq hc.symm)] at hq1
          exact ⟨0, hopos, hkeep q1 0 (hfull q1 a1 hq1 ha1 0 hopos)⟩
  | free st live addr size st' hreach hmem hst ih =>
    by_cases hpos : 0 < size
    · obtain ⟨k, s, hk, hs, hlv⟩ := (hreach.reach_liveOk hcfg).2 addr size hmem
      obtain ⟨q, a, m, bm, s', tr, hpa, ha, hm, haddr, hset, hbm, hfree, hlaid', hbits,
          hpages⟩ :=
        kmfree_outcome hcfg (hreach.live_laid hcfg) hpos hk hs
          (hreach.reach_forget.reach_pagesOk hcfg k s hs) hlv
      rw [hfree] at hst
      cases hst
      refine forall_getElem?_set (P := fun k s => s.backed cfg k) ih (Or.inr ?_)
      have hb : ∀ (q1 a1 : Nat), s.page[q1]? = some a1 → a1 ≠ 0 →
          ∃ m1, m1 < cfg.PGSIZE / 2 ^ (k + 4) ∧
            getBit s.bitmap ((q1 * (cfg.PGSIZE / 2 ^ (k + 4)) + m1 : Nat) : Int) = some 1 := by
        rcases ih k s hs with ⟨a0, hfr⟩ | hb
        · exfalso
          rw [hfr] at hset
          exact getBit_replicate_zero _ _ hset
        · exact hb
      have hother : ∀ (q1 a1 : Nat), q1 ≠ q → s.page[q1]? = some a1 → a1 ≠ 0 →
          ∃ m1, m1 < cfg.PGSIZE / 2 ^ (k + 4) ∧
            getBit s'.bitmap ((q1 * (cfg.PGSIZE / 2 ^ (k + 4)) + m1 : Nat) : Int)
              = some 1 := by
        intro q1 a1 hqq hq1 ha1
        obtain ⟨m1, hm1, hb1⟩ := hb q1 a1 hq1 ha1
        refine ⟨m1, hm1, ?_⟩
        rw [hbits, getBit_setBit_other _ hbm ?_]
        · exact hb1
        · intro hc
          exact hqq (slot_index_inj hm1 hm (Int.ofNat.inj hc)).1
      intro q1 a1 hq1 ha1
      rcases hpages with ⟨hsame, t, ht, hbt⟩ | ⟨hpg, _⟩
      · rw [hsame] at hq1
        by_cases hqq : q1 = q
        · exact ⟨t, ht, by rw [hqq, hbits]; exact hbt⟩
        · exact hother q1 a1 hqq hq1 ha1
      · have hqq : q1 ≠ q := by
          intro hc
          have hlen : q < s.page.length := by
            by_contra hn
            rw [List.getElem?_eq_none (by omega)] at hpa
            cases hpa
          rw [hpg, hc, List.getElem?_set_self hlen] at hq1
          cases hq1
          exact ha1 rfl
        rw [hpg, List.getElem?_set_ne (fun hc => hqq hc.symm)] at hq1
        exact hother q1 a1 hqq hq1 ha1
    · rw [kmfree_of_invalid (Or.inr (by omega))] at hst
      cases hst
      exact ih

/-! ## The demo tables and their live objects -/

theorem demoTable_live : ReachLive demoCfg demoTable [] :=
  ReachLive.init demoPages demoTable (fun j => ⟨demoPages_ne_zero j, ⟨200 + j, rfl⟩⟩)
    (fun i j h => by unfold demoPages at h; omega) demoTable_eq

theorem demoOne_live : ReachLive demoCfg demoOne [(4096 * 215, 2048)] :=
  ReachLive.alloc demoTable [] 2048 demoPage demoOne (4096 * 215) demoTable_live
    demoPage_fresh_table demoOne_eq

/-! ## The claims -/

/-- C1 (counter invariant).  Under the assumptions `Config.ok` on the build-time
constants: (1) `slabinit` on the zeroed table completes once `kalloc` supplies
the bitmap pages, and leaves a laid-out table in which every class satisfies
`num_used_objects + num_free_objects = num_pages * num_objects_per_page`;
(2) on a laid-out table satisfying the equation, `kmalloc(size)` with
`0 < size ≤ 16 * 2^(NSLAB-1)` returns and its result is again laid out and
satisfies the equation in every class; (3) so does `kmfree(addr, size)` when
`addr` lies in a present page of the class derived from `size`. -/
theorem counter_invariant (cfg : Config) (hcfg : cfg.ok) :
    (∀ kr : Nat → Nat, (∀ k, k < cfg.NSLAB → kr (2 * k) ≠ 0) →
      ∃ st, slabinit cfg kr (zeroed cfg) = some st ∧ Laid cfg st ∧ Counted st) ∧
    (∀ (st : Stable) (size : Int) (kr : Nat), Laid cfg st → Counted st →
      0 < size → size ≤ 16 * 2 ^ (cfg.NSLAB - 1) →
      ∃ st' p, kmalloc cfg st size kr = some (st', p) ∧ Laid cfg st' ∧ Counted st') ∧
    (∀ (st : Stable) (addr : Nat) (size : Int) (k : Nat) (s : Slab), Laid cfg st → Counted st →
      findSlab st.slab size cfg.NSLAB 0 = some k → st.slab[k]? = some s →
      (∃ p, PageHit cfg s.page addr p) →
      ∃ st', kmfree cfg st addr size = some st' ∧ Laid cfg st' ∧ Counted st') := by
  refine ⟨?_, ?_, ?_⟩
  · intro kr hkr
    obtain ⟨st, h1, h2⟩ := slabinit_fresh cfg hcfg.2.1 kr hkr
    exact ⟨st, h1, h2.fresh_laid, h2.fresh_counted⟩
  · intro st size kr hl hc _ hle
    obtain ⟨st', p, h⟩ := kmalloc_defined hcfg hl hle kr
    exact ⟨st', p, h, kmalloc_laid hl h, kmalloc_counted hc h⟩
  · intro st addr size k s hl hc hk hs hhit
    obtain ⟨st', h⟩ := kmfree_defined hcfg hl hk hs hhit
    exact ⟨st', h, kmfree_laid hl h, kmfree_counted hc h⟩

/-- Witness of C1 with `demoCfg`: `slabinit` with `demoPages`, a
`kmalloc(2048)` on `demoTable`, and the `kmfree` of the object of `demoOne`. -/
theorem counter_invariant_witness :
    demoCfg.ok ∧
    (∃ st, slabinit demoCfg demoPages (zeroed demoCfg) = some st ∧ Laid demoCfg st ∧
      Counted st) ∧
    (∃ st' p, kmalloc demoCfg demoTable 2048 demoPage = some (st', p) ∧ Laid demoCfg st' ∧
      Counted st') ∧
    (∃ st', kmfree demoCfg demoOne (4096 * 215) 2048 = some st' ∧ Laid demoCfg st' ∧
      Counted st') :=
  ⟨demoCfg_ok,
    (counter_invariant demoCfg demoCfg_ok).1 demoPages (fun k _ => demoPages_ne_zero (2 * k)),
    (counter_invariant demoCfg demoCfg_ok).2.1 demoTable 2048 demoPage demoTable_fresh.fresh_laid
      demoTable_fresh.fresh_counted (by decide) (by decide),
    (counter_invariant demoCfg demoCfg_ok).2.2 demoOne (4096 * 215) 2048 7 demoOneSlab
      demoOne_laid demoOne_counted demoOne_findSlab demoOneSlab_eq
      ⟨0, 4096 * 215, demoOneSlab_page, by decide, by decide, by decide⟩⟩

/-- C2, counterexample (round trip on the fresh table).  With 4096-byte pages,
on the table `slabinit` leaves, `kmalloc(16)` succeeds (it returns the base of
the pre-seeded page of class 0) and the `kmfree` of that pointer that follows
releases the pre-seeded page: before the `kmalloc` class 0 has
`num_pages = 1`, `num_free_objects = 256`, `num_used_objects = 0`; after the
`kmfree` it has `num_pages = 0`, `num_free_objects = 0`,
`num_used_objects = 0`. -/
theorem round_trip_fresh_counterexample :
    ((slabinit demoCfg demoPages (zeroed demoCfg)).bind fun st0 =>
      (kmalloc demoCfg st0 16 demoPage).bind fun r =>
        (kmfree demoCfg r.1 r.2 16).bind fun st2 =>
          (st0.slab[0]?).bind fun s0 => (st2.slab[0]?).map fun s2 =>
            (r.2, [s0.num_pages, s0.num_free_objects, s0.num_used_objects],
              [s2.num_pages, s2.num_free_objects, s2.num_used_objects]))
      = some (4096 * 201, [1, 256, 0], [0, 0, 0]) := by
  decide!

/-- C2, amended (round trip).  In every table reachable from `slabinit` by
`kmalloc` and `kmfree` calls, the page allocator handing out fresh page-aligned
pages, if `kmalloc(size)` with `size > 0` returns a non-null pointer `p`, then
the `kmfree(p, size)` that follows returns and restores `num_used_objects` of
the selected class.  It restores `num_pages` and `num_free_objects` too, unless
`kmalloc` took the object from a present page none of whose bits was set (the
page `slabinit` pre-seeds, before its first allocation): `kmfree` then releases
that page, and `num_pages` ends 1 lower and `num_free_objects` lower by
`num_objects_per_page` than before the `kmalloc`. -/
theorem round_trip_amended (cfg : Config) (hcfg : cfg.ok) (st : Stable)
    (hreach : Reach cfg (FreshPage cfg) st) (size : Int) (kr : Nat)
    (hgood : FreshPage cfg st kr) (hpos : 0 < size) (st1 : Stable) (p : Nat)
    (hm : kmalloc cfg st size kr = some (st1, p)) (hp : p ≠ 0) :
    ∃ k s st2 s2, findSlab st.slab size cfg.NSLAB 0 = some k ∧ st.slab[k]? = some s ∧
      kmfree cfg st1 p size = some st2 ∧ st2.slab[k]? = some s2 ∧
      s2.num_used_objects = s.num_used_objects ∧
      ((∃ i, kmalloc_reuse s (s.nbits cfg) 0 = some (some i) ∧
          ∀ t, t < cfg.PGSIZE / 2 ^ (k + 4) →
            getBit s.bitmap
              ((i / (cfg.PGSIZE / 2 ^ (k + 4)) * (cfg.PGSIZE / 2 ^ (k + 4)) + t : Nat) : Int)
              = some 0) →
        s2.num_pages = s.num_pages - 1 ∧
        s2.num_free_objects = s.num_free_objects - s.num_objects_per_page) ∧
      (¬ (∃ i, kmalloc_reuse s (s.nbits cfg) 0 = some (some i) ∧
          ∀ t, t < cfg.PGSIZE / 2 ^ (k + 4) →
            getBit s.bitmap
              ((i / (cfg.PGSIZE / 2 ^ (k + 4)) * (cfg.PGSIZE / 2 ^ (k + 4)) + t : Nat) : Int)
              = some 0) →
        s2.num_pages = s.num_pages ∧ s2.num_free_objects = s.num_free_objects) := by
  have hreachN := hreach.reach_mono (freshPage_neverFails cfg)
  have hl := hreachN.reach_laid hcfg
  have hl1 := kmalloc_laid hl hm
  obtain ⟨k, s, hk, hs, hcase⟩ := kmalloc_cases hm
  have hlaid := hl.2 k s hs
  have hec := hreachN.reach_emptyClear hcfg k s hs
  have hok := hreach.reach_pagesOk hcfg k s hs
  have hkn := lt_of_getElem?_eq_some hl hs
  have hklen : k < st.slab.length := by rw [hl.1]; exact hkn
  have hopos := Slab.laid.opp_pos hcfg hkn
  rcases hcase with ⟨i, pg, bm, h1, hpg, hbm, hst1, hpeq⟩ |
    ⟨i, pages, bm, h1, h2, hpg, hbm, hst1, hpeq⟩ | ⟨_, _, _, hpeq⟩
  · -- reuse pass
    obtain ⟨_, hi, ⟨hclear, pg', hpg', hne⟩, _⟩ := (kmalloc_reuse_eq_some_iff s _ 0 i).1 h1
    rw [hpg] at hpg'
    cases hpg'
    have hpa : s.page[i / (cfg.PGSIZE / 2 ^ (k + 4))]? = some pg := by
      rw [hlaid.2.1, tdiv_natCast, readAt_natCast] at hpg; exact hpg
    have hk1 : findSlab st1.slab size cfg.NSLAB 0 = some k := by
      rw [hst1]
      show findSlab (st.slab.set k (s.claimed bm)) size cfg.NSLAB 0 = some k
      rw [findSlab_set st.slab size k s (s.claimed bm) hs rfl]; exact hk
    have hs1 : st1.slab[k]? = some (s.claimed bm) := by
      rw [hst1]; exact List.getElem?_set_self hklen
    have hdm := Nat.div_add_mod i (cfg.PGSIZE / 2 ^ (k + 4))
    have hidx : i / (cfg.PGSIZE / 2 ^ (k + 4)) * (cfg.PGSIZE / 2 ^ (k + 4))
        + i % (cfg.PGSIZE / 2 ^ (k + 4)) = i := by
      rw [Nat.mul_comm]; exact hdm
    have hset : getBit (s.claimed bm).bitmap
        ((i / (cfg.PGSIZE / 2 ^ (k + 4)) * (cfg.PGSIZE / 2 ^ (k + 4))
          + i % (cfg.PGSIZE / 2 ^ (k + 4)) : Nat) : Int) = some 1 := by
      rw [hidx]
      have := getBit_setBit_same hbm
      simpa using this
    obtain ⟨bm2, hbm2, hlast, hrest⟩ :=
      kmfree_live cfg hcfg st1 hl1 p size k (i / (cfg.PGSIZE / 2 ^ (k + 4))) pg
        (i % (cfg.PGSIZE / 2 ^ (k + 4))) (s.claimed bm) hpos hk1 hs1 hok hpa hne
        (Nat.mod_lt _ hopos) (by rw [hpeq]; exact hlaid.ptr_eq pg i) hset
    rw [hidx] at hbm2
    have hz : getBit bm2 (i : Int) = some 0 := by
      have := getBit_setBit_same hbm2
      simpa using this
    have hother : ∀ j : Int, j ≠ (i : Int) → getBit bm2 j = getBit bm j :=
      fun j hj => getBit_setBit_other j hbm2 hj
    have hbits : ∀ j : Nat, getBit bm2 (j : Int) = getBit s.bitmap (j : Int) := by
      intro j
      by_cases he : j = i
      · rw [he, hz, hclear]
      · have hne' : (j : Int) ≠ (i : Int) := by omega
        rw [hother j hne']
        exact getBit_setBit_other (j : Int) hbm hne'
    have hlen1 : k < st1.slab.length := by
      rw [hst1]; simp only [List.length_set]; exact hklen
    by_cases hC : ∀ t, t < cfg.PGSIZE / 2 ^ (k + 4) →
        getBit bm2 ((i / (cfg.PGSIZE / 2 ^ (k + 4)) * (cfg.PGSIZE / 2 ^ (k + 4)) + t : Nat) : Int)
          = some 0
    · refine ⟨k, s, _, _, hk, hs, hlast hC, List.getElem?_set_self hlen1, ?_, ?_, ?_⟩
      · show s.num_used_objects + 1 - 1 = s.num_used_objects
        omega
      · intro _
        refine ⟨rfl, ?_⟩
        show s.num_free_objects - 1 + 1 - s.num_objects_per_page
          = s.num_free_objects - s.num_objects_per_page
        omega
      · intro hnot
        exfalso
        exact hnot ⟨i, h1, fun t ht => by rw [← hbits]; exact hC t ht⟩
    · refine ⟨k, s, _, _, hk, hs, hrest hC, List.getElem?_set_self hlen1, ?_, ?_, ?_⟩
      · show s.num_used_objects + 1 - 1 = s.num_used_objects
        omega
      · rintro ⟨i', hi', hall⟩
        rw [h1] at hi'
        cases hi'
        exfalso
        exact hC (fun t ht => by rw [hbits]; exact hall t ht)
      · intro _
        refine ⟨rfl, ?_⟩
        show s.num_free_objects - 1 + 1 = s.num_free_objects
        omega
  · -- growth pass
    obtain ⟨hmod, hslot⟩ := growth_index_aligned hlaid hopos hec h1 h2
    obtain ⟨_, hi, hclear, _⟩ := (kmalloc_grow_eq_some_iff s _ 0 i).1 h2
    have hq : i / (cfg.PGSIZE / 2 ^ (k + 4)) < cfg.MAX_PAGES_PER_SLAB := by
      by_contra hc
      rw [List.getElem?_eq_none (by rw [hlaid.2.2.2]; omega)] at hslot
      cases hslot
    have hpages : pages = s.page.set (i / (cfg.PGSIZE / 2 ^ (k + 4))) kr := by
      obtain ⟨_, _, h3⟩ := writeAt_eq_some hpg
      rw [hlaid.2.1, tdiv_natCast, Int.toNat_ofNat] at h3
      exact h3
    have hk1 : findSlab st1.slab size cfg.NSLAB 0 = some k := by
      rw [hst1]
      show findSlab (st.slab.set k (s.grown pages bm)) size cfg.NSLAB 0 = some k
      rw [findSlab_set st.slab size k s (s.grown pages bm) hs rfl]; exact hk
    have hs1 : st1.slab[k]? = some (s.grown pages bm) := by
      rw [hst1]; exact List.getElem?_set_self hklen
    have hok1 : (s.grown pages bm).pagesOk cfg :=
      hok.grown_pages hpg hgood.2.1 (hgood.2.2 k s hs)
    have hpa : (s.grown pages bm).page[i / (cfg.PGSIZE / 2 ^ (k + 4))]? = some kr := by
      simp only [Slab.grown]
      rw [hpages]
      exact List.getElem?_set_self (by rw [hlaid.2.2.2]; exact hq)
    have hdm := Nat.div_add_mod i (cfg.PGSIZE / 2 ^ (k + 4))
    have hidx : i / (cfg.PGSIZE / 2 ^ (k + 4)) * (cfg.PGSIZE / 2 ^ (k + 4)) = i := by
      rw [Nat.mul_comm]; omega
    have hset : getBit (s.grown pages bm).bitmap
        ((i / (cfg.PGSIZE / 2 ^ (k + 4)) * (cfg.PGSIZE / 2 ^ (k + 4)) + 0 : Nat) : Int)
          = some 1 := by
      rw [Nat.add_zero, hidx]
      have := getBit_setBit_same hbm
      simpa using this
    have hkr : kr ≠ 0 := hgood.1
    obtain ⟨bm2, hbm2, hlast, _⟩ :=
      kmfree_live cfg hcfg st1 hl1 p size k (i / (cfg.PGSIZE / 2 ^ (k + 4))) kr 0
        (s.grown pages bm) hpos hk1 hs1 hok1 hpa hkr hopos (by rw [hpeq]; omega) hset
    rw [Nat.add_zero, hidx] at hbm2
    have hz : getBit bm2 (i : Int) = some 0 := by
      have := getBit_setBit_same hbm2
      simpa using this
    have hother : ∀ j : Int, j ≠ (i : Int) → getBit bm2 j = getBit bm j :=
      fun j hj => getBit_setBit_other j hbm2 hj
    have hnb := hlaid.nbits_le hcfg
    rw [hlaid.nbits_eq] at hnb hi
    have hC : ∀ t, t < cfg.PGSIZE / 2 ^ (k + 4) →
        getBit bm2 ((i / (cfg.PGSIZE / 2 ^ (k + 4)) * (cfg.PGSIZE / 2 ^ (k + 4)) + t : Nat) : Int)
          = some 0 := by
      intro t ht
      rw [hidx]
      by_cases he : t = 0
      · rw [he, Nat.add_zero]; exact hz
      · have hne' : ((i + t : Nat) : Int) ≠ (i : Int) := by omega
        rw [hother _ hne']
        show getBit bm ((i + t : Nat) : Int) = some 0
        rw [getBit_setBit_other _ hbm hne']
        have hrow : (i / (cfg.PGSIZE / 2 ^ (k + 4)) + 1) * (cfg.PGSIZE / 2 ^ (k + 4))
            ≤ cfg.PGSIZE / 2 ^ (k + 4) * cfg.MAX_PAGES_PER_SLAB := by
          rw [Nat.mul_comm (cfg.PGSIZE / 2 ^ (k + 4))]
          exact Nat.mul_le_mul_right _ hq
        have hrow2 : (i / (cfg.PGSIZE / 2 ^ (k + 4)) + 1) * (cfg.PGSIZE / 2 ^ (k + 4))
            = i + cfg.PGSIZE / 2 ^ (k + 4) := by
          rw [Nat.add_mul, hidx, Nat.one_mul]
        obtain ⟨v, hv⟩ := hlaid.getBit_defined (i + t) (by omega)
        rcases getBit_zero_or_one hv with rfl | rfl
        · exact hv
        · exfalso
          refine hec (i + t) ?_ hv
          rw [hlaid.2.1, tdiv_natCast, readAt_natCast]
          have : (i + t) / (cfg.PGSIZE / 2 ^ (k + 4)) = i / (cfg.PGSIZE / 2 ^ (k + 4)) := by
            apply Nat.div_eq_of_lt_le
            · rw [hidx]; omega
            · rw [hrow2]; omega
          rw [this]; exact hslot
    have hlen1 : k < st1.slab.length := by
      rw [hst1]; simp only [List.length_set]; exact hklen
    refine ⟨k, s, _, _, hk, hs, hlast hC, List.getElem?_set_self hlen1, ?_, ?_, ?_⟩
    · show s.num_used_objects + 1 - 1 = s.num_used_objects
      omega
    · rintro ⟨i', hi', _⟩
      rw [h1] at hi'
      cases hi'
    · intro _
      refine ⟨?_, ?_⟩
      · show s.num_pages + 1 - 1 = s.num_pages
        omega
      · show s.num_free_objects + (s.num_objects_per_page - 1) + 1 - s.num_objects_per_page
          = s.num_free_objects
        omega
  · exact absurd hpeq hp

/-- Witness of C2 as amended: the second `kmalloc(2048)`, on `demoOne`, followed
by the `kmfree` of its result. -/
theorem round_trip_amended_witness :
    demoCfg.ok ∧ Reach demoCfg (FreshPage demoCfg) demoOne ∧
    FreshPage demoCfg demoOne demoPage ∧
    kmalloc demoCfg demoOne 2048 demoPage = some (demoTwo, 4096 * 215 + 2048) ∧
    ∃ k s st2 s2, findSlab demoOne.slab 2048 demoCfg.NSLAB 0 = some k ∧
      demoOne.slab[k]? = some s ∧
      kmfree demoCfg demoTwo (4096 * 215 + 2048) 2048 = some st2 ∧ st2.slab[k]? = some s2 ∧
      s2.num_used_objects = s.num_used_objects ∧
      ((∃ i, kmalloc_reuse s (s.nbits demoCfg) 0 = some (some i) ∧
          ∀ t, t < demoCfg.PGSIZE / 2 ^ (k + 4) →
            getBit s.bitmap
              ((i / (demoCfg.PGSIZE / 2 ^ (k + 4)) * (demoCfg.PGSIZE / 2 ^ (k + 4)) + t : Nat) : Int)
              = some 0) →
        s2.num_pages = s.num_pages - 1 ∧
        s2.num_free_objects = s.num_free_objects - s.num_objects_per_page) ∧
      (¬ (∃ i, kmalloc_reuse s (s.nbits demoCfg) 0 = some (some i) ∧
          ∀ t, t < demoCfg.PGSIZE / 2 ^ (k + 4) →
            getBit s.bitmap
              ((i / (demoCfg.PGSIZE / 2 ^ (k + 4)) * (demoCfg.PGSIZE / 2 ^ (k + 4)) + t : Nat) : Int)
              = some 0) →
        s2.num_pages = s.num_pages ∧ s2.num_free_objects = s.num_free_objects) :=
  ⟨demoCfg_ok, demoOne_reach, demoPage_fresh_one, demoTwo_eq,
    round_trip_amended demoCfg demoCfg_ok demoOne demoOne_reach 2048 demoPage
      demoPage_fresh_one (by decide) demoTwo (4096 * 215 + 2048) demoTwo_eq (by decide)⟩

/-- C3 (class selection).  On a table whose `size` fields are the ones
`slabinit` writes, and for a request `size` no larger than the largest class
size `16 * 2^(NSLAB-1)`, the class scan shared by `kmalloc` and `kmfree`
returns the least index `k` with `size ≤ 16 * 2^k`.  The index is the same on
every table with these size fields, whatever its bitmaps, pages and counters
are, and it is monotone in `size`. -/
theorem class_selection (cfg : Config) (st : Stable) (size : Int)
    (hn : 0 < cfg.NSLAB) (hst : SizesSet cfg st)
    (hle : size ≤ 16 * 2 ^ (cfg.NSLAB - 1)) :
    ∃ k, findSlab st.slab size cfg.NSLAB 0 = some k ∧
      k < cfg.NSLAB ∧ size ≤ 16 * 2 ^ k ∧ (∀ j, j < k → (16 * 2 ^ j : Int) < size) ∧
      (∀ st2, SizesSet cfg st2 → findSlab st2.slab size cfg.NSLAB 0 = some k) ∧
      (∀ size1, size1 ≤ size →
        ∃ k1, findSlab st.slab size1 cfg.NSLAB 0 = some k1 ∧ k1 ≤ k) := by
  obtain ⟨k, hk, hk1, hk2⟩ := exists_least_class cfg.NSLAB hn size hle
  refine ⟨k, findSlab_of_least hst hk hk1 hk2, hk, hk1, hk2,
    fun st2 hst2 => findSlab_of_least hst2 hk hk1 hk2, ?_⟩
  intro size1 h1
  obtain ⟨k1, hk1', hk1'', hk1'''⟩ := exists_least_class cfg.NSLAB hn size1 (by omega)
  refine ⟨k1, findSlab_of_least hst hk1' hk1'' hk1''', ?_⟩
  by_contra hc
  have := hk1''' k (by omega)
  omega

/-- Witness of C3: a request of 100 bytes on `demoTable`. -/
theorem class_selection_witness :
    0 < demoCfg.NSLAB ∧ SizesSet demoCfg demoTable ∧
    (100 : Int) ≤ 16 * 2 ^ (demoCfg.NSLAB - 1) ∧
    ∃ k, findSlab demoTable.slab 100 demoCfg.NSLAB 0 = some k ∧
      k < demoCfg.NSLAB ∧ (100 : Int) ≤ 16 * 2 ^ k ∧
      (∀ j, j < k → (16 * 2 ^ j : Int) < 100) ∧
      (∀ st2, SizesSet demoCfg st2 → findSlab st2.slab 100 demoCfg.NSLAB 0 = some k) ∧
      (∀ size1, size1 ≤ (100 : Int) →
        ∃ k1, findSlab demoTable.slab size1 demoCfg.NSLAB 0 = some k1 ∧ k1 ≤ k) :=
  ⟨by decide, sizesSet_of_laid demoTable_fresh.fresh_laid, by decide,
    class_selection demoCfg demoTable 100 (by decide) (sizesSet_of_laid demoTable_fresh.fresh_laid)
      (by decide)⟩

/-- C4 (reuse pass).  Let `s` be the class `kmalloc(size)` selects.  If bit
`i < MAX_PAGES_PER_SLAB * num_objects_per_page` is clear, its page slot
`i / num_objects_per_page` holds the non-null page `pg`, and no smaller index
has a clear bit in a non-empty slot, then `kmalloc` returns, changes only class
`s`, sets bit `i` and no other bit, adds 1 to `num_used_objects`, takes 1 from
`num_free_objects`, leaves `num_pages`, the page slots, `size` and
`num_objects_per_page` as they were, makes no call to the page allocator (the
trace gains `acquire`, `release` only) and returns
`pg + (i % num_objects_per_page) * size`. -/
theorem reuse_pass (cfg : Config) (st : Stable) (size : Int) (kr k i pg : Nat) (s : Slab)
    (hk : findSlab st.slab size cfg.NSLAB 0 = some k) (hs : st.slab[k]? = some s)
    (hsize : 0 ≤ s.size)
    (hi : i < s.nbits cfg) (hclear : getBit s.bitmap i = some 0)
    (hpg : readAt s.page (Int.tdiv i s.num_objects_per_page) = some pg) (hne : pg ≠ 0)
    (hmin : ∀ j, j < i → ¬ Reusable s j) :
    ∃ s', kmalloc cfg st size kr =
        some ({ slab := st.slab.set k s', trace := st.trace ++ [Event.acquire, Event.release] },
              pg + i % s.num_objects_per_page.toNat * s.size.toNat) ∧
      getBit s'.bitmap i = some 1 ∧
      (∀ j : Int, j ≠ i → getBit s'.bitmap j = getBit s.bitmap j) ∧
      s'.num_used_objects = s.num_used_objects + 1 ∧
      s'.num_free_objects = s.num_free_objects - 1 ∧
      s'.num_pages = s.num_pages ∧ s'.page = s.page ∧ s'.size = s.size ∧
      s'.num_objects_per_page = s.num_objects_per_page := by
  have hopp := Slab.nbits_pos hi
  obtain ⟨o, ho⟩ := Int.eq_ofNat_of_zero_le (le_of_lt hopp)
  obtain ⟨z, hz⟩ := Int.eq_ofNat_of_zero_le hsize
  have hpg' : s.page[i / o]? = some pg := by
    rw [ho, tdiv_natCast, readAt_natCast] at hpg; exact hpg
  have hlen : i / o < s.page.length := by
    by_contra hc
    rw [List.getElem?_eq_none (by omega)] at hpg'
    cases hpg'
  have h1 : kmalloc_reuse s (s.nbits cfg) 0 = some (some i) := by
    rw [kmalloc_reuse_eq_some_iff]
    refine ⟨Nat.zero_le _, by omega, ⟨hclear, pg, hpg, hne⟩, ?_⟩
    intro j _ hj
    obtain ⟨v, hv⟩ := getBit_defined_of_le hclear (le_of_lt hj)
    rcases getBit_zero_or_one hv with rfl | rfl
    · right
      refine ⟨hv, ?_⟩
      have hjo : j / o < s.page.length :=
        lt_of_le_of_lt (Nat.div_le_div_right (le_of_lt hj)) hlen
      have hq : readAt s.page (Int.tdiv j s.num_objects_per_page) = some s.page[j / o] := by
        rw [ho, tdiv_natCast, readAt_natCast]
        exact List.getElem?_eq_getElem hjo
      by_cases hq0 : s.page[j / o] = 0
      · rw [hq, hq0]
      · exact absurd ⟨hv, _, hq, hq0⟩ (hmin j hj)
    · exact Or.inl hv
  obtain ⟨bm, hbm⟩ := setBit_isSome_of_getBit 1 hclear
  refine ⟨s.claimed bm, ?_, ?_, ?_, rfl, rfl, rfl, rfl, rfl, rfl⟩
  · rw [kmalloc_of_reuse hk hs h1 hpg hbm]
    have hptr : ((pg : Int) + Int.tmod i s.num_objects_per_page * s.size).toNat
        = pg + i % s.num_objects_per_page.toNat * s.size.toNat := by
      rw [ho, hz, tmod_natCast, Int.toNat_ofNat, Int.toNat_ofNat, ← Int.ofNat_mul,
        ← Int.ofNat_add, Int.toNat_ofNat]
    rw [hptr]
  · have := getBit_setBit_same hbm
    simpa using this
  · intro j hj
    exact getBit_setBit_other j hbm hj

/-- Witness of C4: the second `kmalloc(2048)`, on `demoOne`, reuses the
pre-seeded page and claims bit 1. -/
theorem reuse_pass_witness :
    findSlab demoOne.slab 2048 demoCfg.NSLAB 0 = some 7 ∧
    demoOne.slab[7]? = some demoOneSlab ∧
    1 < demoOneSlab.nbits demoCfg ∧
    getBit demoOneSlab.bitmap ((1 : Nat) : Int) = some 0 ∧
    readAt demoOneSlab.page (Int.tdiv ((1 : Nat) : Int) demoOneSlab.num_objects_per_page)
      = some (4096 * 215) ∧
    (∀ j, j < 1 → ¬ Reusable demoOneSlab j) ∧
    ∃ s', kmalloc demoCfg demoOne 2048 demoPage =
        some ({ slab := demoOne.slab.set 7 s'
                trace := demoOne.trace ++ [Event.acquire, Event.release] },
              4096 * 215 + 1 % demoOneSlab.num_objects_per_page.toNat * demoOneSlab.size.toNat) ∧
      getBit s'.bitmap ((1 : Nat) : Int) = some 1 ∧
      (∀ j : Int, j ≠ ((1 : Nat) : Int) → getBit s'.bitmap j = getBit demoOneSlab.bitmap j) ∧
      s'.num_used_objects = demoOneSlab.num_used_objects + 1 ∧
      s'.num_free_objects = demoOneSlab.num_free_objects - 1 ∧
      s'.num_pages = demoOneSlab.num_pages ∧ s'.page = demoOneSlab.page ∧
      s'.size = demoOneSlab.size ∧
      s'.num_objects_per_page = demoOneSlab.num_objects_per_page :=
  have hmin : ∀ j, j < 1 → ¬ Reusable demoOneSlab j := fun j hj hre => by
    have hj0 : j = 0 := by omega
    subst hj0
    have h1 := hre.1
    rw [demoOneSlab_bit] at h1
    cases h1
  ⟨demoOne_findSlab, demoOneSlab_eq, by decide!, by decide!, by decide!, hmin,
    reuse_pass demoCfg demoOne 2048 demoPage 7 1 (4096 * 215) demoOneSlab demoOne_findSlab
      demoOneSlab_eq (by decide!) (by decide!) (by decide!) (by decide!) (by decide) hmin⟩

/-- C5 (growth pass).  Let `s` be the class `kmalloc(size)` selects, with a
bitmap that covers the `MAX_PAGES_PER_SLAB * num_objects_per_page` bit indices.
If every clear bit of that range lies in an empty page slot and `i` is the
least clear bit, then `kmalloc` returns, calls `kalloc` once, stores its result
`P` in page slot `i / num_objects_per_page`, sets bit `i` and no other bit,
adds 1 to `num_pages` and to `num_used_objects`, adds
`num_objects_per_page - 1` to `num_free_objects`, and returns `P`. -/
theorem growth_pass (cfg : Config) (st : Stable) (size : Int) (P k i : Nat) (s : Slab)
    (hk : findSlab st.slab size cfg.NSLAB 0 = some k) (hs : st.slab[k]? = some s)
    (hrange : s.nbits cfg ≤ 8 * s.bitmap.length)
    (hnone : ∀ j, j < s.nbits cfg → getBit s.bitmap j = some 0 →
      readAt s.page (Int.tdiv j s.num_objects_per_page) = some 0)
    (hi : i < s.nbits cfg) (hclear : getBit s.bitmap i = some 0)
    (hmin : ∀ j, j < i → getBit s.bitmap j ≠ some 0) :
    ∃ s', kmalloc cfg st size P =
        some ({ slab := st.slab.set k s'
                trace := st.trace ++ [Event.acquire, Event.kalloc P, Event.release] }, P) ∧
      s'.page = s.page.set (i / s.num_objects_per_page.toNat) P ∧
      getBit s'.bitmap i = some 1 ∧
      (∀ j : Int, j ≠ i → getBit s'.bitmap j = getBit s.bitmap j) ∧
      s'.num_pages = s.num_pages + 1 ∧
      s'.num_used_objects = s.num_used_objects + 1 ∧
      s'.num_free_objects = s.num_free_objects + (s.num_objects_per_page - 1) ∧
      s'.size = s.size ∧ s'.num_objects_per_page = s.num_objects_per_page := by
  have hopp := Slab.nbits_pos hi
  obtain ⟨o, ho⟩ := Int.eq_ofNat_of_zero_le (le_of_lt hopp)
  have hbit : ∀ j, j < s.nbits cfg → ∃ v, getBit s.bitmap j = some v := by
    intro j hj
    rw [getBit_isSome_iff]
    omega
  have h1 : kmalloc_reuse s (s.nbits cfg) 0 = some none := by
    rw [kmalloc_reuse_eq_none_iff]
    intro j _ hj
    obtain ⟨v, hv⟩ := hbit j (by omega)
    rcases getBit_zero_or_one hv with rfl | rfl
    · exact Or.inr ⟨hv, hnone j (by omega) hv⟩
    · exact Or.inl hv
  have h2 : kmalloc_grow s (s.nbits cfg) 0 = some (some i) := by
    rw [kmalloc_grow_eq_some_iff]
    refine ⟨Nat.zero_le _, by omega, hclear, ?_⟩
    intro j _ hj
    obtain ⟨v, hv⟩ := hbit j (by omega)
    rcases getBit_zero_or_one hv with rfl | rfl
    · exact absurd hv (hmin j hj)
    · exact hv
  have hslot := hnone i hi hclear
  have hslot' : s.page[i / o]? = some 0 := by
    rw [ho, tdiv_natCast, readAt_natCast] at hslot; exact hslot
  have hlen : i / o < s.page.length := by
    by_contra hc
    rw [List.getElem?_eq_none (by omega)] at hslot'
    cases hslot'
  have hw : writeAt s.page (Int.tdiv i s.num_objects_per_page) P = some (s.page.set (i / o) P) := by
    rw [ho, tdiv_natCast]
    exact writeAt_natCast _ _ _ hlen
  obtain ⟨bm, hbm⟩ := setBit_isSome_of_getBit 1 hclear
  refine ⟨s.grown (s.page.set (i / o) P) bm, kmalloc_of_grow hk hs h1 h2 hw hbm, ?_, ?_, ?_,
    rfl, rfl, rfl, rfl, rfl⟩
  · rw [ho, Int.toNat_ofNat]; rfl
  · have := getBit_setBit_same hbm
    simpa using this
  · intro j hj
    exact getBit_setBit_other j hbm hj

/-- Witness of C5: the third `kmalloc(2048)`, on `demoTwo`, grows the class. -/
theorem growth_pass_witness :
    findSlab demoTwo.slab 2048 demoCfg.NSLAB 0 = some 7 ∧
    demoTwo.slab[7]? = some demoTwoSlab ∧
    demoTwoSlab.nbits demoCfg ≤ 8 * demoTwoSlab.bitmap.length ∧
    (∀ j : Nat, j < demoTwoSlab.nbits demoCfg → getBit demoTwoSlab.bitmap j = some 0 →
      readAt demoTwoSlab.page (Int.tdiv j demoTwoSlab.num_objects_per_page) = some 0) ∧
    2 < demoTwoSlab.nbits demoCfg ∧
    getBit demoTwoSlab.bitmap ((2 : Nat) : Int) = some 0 ∧
    (∀ j : Nat, j < 2 → getBit demoTwoSlab.bitmap j ≠ some 0) ∧
    ∃ s', kmalloc demoCfg demoTwo 2048 demoPage =
        some ({ slab := demoTwo.slab.set 7 s'
                trace := demoTwo.trace ++
                  [Event.acquire, Event.kalloc demoPage, Event.release] }, demoPage) ∧
      s'.page = demoTwoSlab.page.set (2 / demoTwoSlab.num_objects_per_page.toNat) demoPage ∧
      getBit s'.bitmap ((2 : Nat) : Int) = some 1 ∧
      (∀ j : Int, j ≠ ((2 : Nat) : Int) → getBit s'.bitmap j = getBit demoTwoSlab.bitmap j) ∧
      s'.num_pages = demoTwoSlab.num_pages + 1 ∧
      s'.num_used_objects = demoTwoSlab.num_used_objects + 1 ∧
      s'.num_free_objects
        = demoTwoSlab.num_free_objects + (demoTwoSlab.num_objects_per_page - 1) ∧
      s'.size = demoTwoSlab.size ∧
      s'.num_objects_per_page = demoTwoSlab.num_objects_per_page :=
  ⟨demoTwo_findSlab, demoTwoSlab_eq, by decide!, by decide!, by decide!, by decide!, by decide!,
    growth_pass demoCfg demoTwo 2048 demoPage 7 2 demoTwoSlab demoTwo_findSlab demoTwoSlab_eq
      (by decide!) (by decide!) (by decide!) (by decide!) (by decide!)⟩

/-- C6 (growth claims slot 0 only).  In every table reachable from `slabinit`
by `kmalloc` and `kmfree` calls with a page allocator that never fails (frees of
live pointers with their original sizes are among the steps), when `kmalloc`
takes the growth pass (the first scan finds nothing, the second finds bit `i`),
then `i % num_objects_per_page = 0` and page slot `i / num_objects_per_page`
was empty; `kmalloc` stores the new page `P` there, sets bit `i` and returns
`P`, which is the address `P + (i % num_objects_per_page) * size` of the object
slot of bit `i`. -/
theorem growth_claims_first_slot (cfg : Config) (hcfg : cfg.ok) (st : Stable)
    (hreach : Reach cfg NeverFails st) (size : Int) (P k i : Nat) (s : Slab)
    (hk : findSlab st.slab size cfg.NSLAB 0 = some k) (hs : st.slab[k]? = some s)
    (h1 : kmalloc_reuse s (s.nbits cfg) 0 = some none)
    (h2 : kmalloc_grow s (s.nbits cfg) 0 = some (some i)) :
    i % s.num_objects_per_page.toNat = 0 ∧
      readAt s.page (Int.tdiv i s.num_objects_per_page) = some 0 ∧
      ∃ s', kmalloc cfg st size P =
          some ({ slab := st.slab.set k s'
                  trace := st.trace ++ [Event.acquire, Event.kalloc P, Event.release] }, P) ∧
        readAt s'.page (Int.tdiv i s.num_objects_per_page) = some P ∧
        getBit s'.bitmap i = some 1 ∧
        P = P + i % s.num_objects_per_page.toNat * s.size.toNat := by
  have hl := hreach.reach_laid hcfg
  have hlaid := hl.2 k s hs
  have hec := hreach.reach_emptyClear hcfg k s hs
  have hpos := Slab.laid.opp_pos hcfg (lt_of_getElem?_eq_some hl hs)
  obtain ⟨_, hi, hclear, hmin⟩ := (kmalloc_grow_eq_some_iff s _ 0 i).1 h2
  have hskip := (kmalloc_reuse_eq_none_iff s _ 0).1 h1 i (Nat.zero_le _) hi
  have hslot : readAt s.page (Int.tdiv i s.num_objects_per_page) = some 0 := by
    rcases hskip with hc | ⟨_, hc⟩
    · rw [hclear] at hc; cases hc
    · exact hc
  have hmod : i % s.num_objects_per_page.toNat = 0 := by
    rw [hlaid.2.1, Int.toNat_ofNat]
    by_contra hc
    have hdm := Nat.div_add_mod i (cfg.PGSIZE / 2 ^ (k + 4))
    have hlt : cfg.PGSIZE / 2 ^ (k + 4) * (i / (cfg.PGSIZE / 2 ^ (k + 4))) < i := by omega
    have hset := hmin _ (Nat.zero_le _) hlt
    refine hec _ ?_ hset
    rw [hlaid.2.1, tdiv_natCast, Nat.mul_div_cancel_left _ hpos]
    rw [hlaid.2.1, tdiv_natCast] at hslot
    exact hslot
  obtain ⟨h0, hlen, _⟩ : 0 ≤ Int.tdiv i s.num_objects_per_page ∧
      (Int.tdiv i s.num_objects_per_page).toNat < s.page.length ∧ True := by
    rw [hlaid.2.1, tdiv_natCast] at hslot ⊢
    rw [readAt_natCast] at hslot
    refine ⟨Int.ofNat_nonneg _, ?_, trivial⟩
    rw [Int.toNat_ofNat]
    by_contra hc
    rw [List.getElem?_eq_none (by omega)] at hslot
    cases hslot
  have hw : writeAt s.page (Int.tdiv i s.num_objects_per_page) P
      = some (s.page.set (Int.tdiv i s.num_objects_per_page).toNat P) := by
    unfold writeAt
    rw [if_pos ⟨h0, hlen⟩]
  obtain ⟨bm, hbm⟩ := setBit_isSome_of_getBit 1 hclear
  refine ⟨hmod, hslot, s.grown _ bm, kmalloc_of_grow hk hs h1 h2 hw hbm, ?_, ?_, ?_⟩
  · exact readAt_set_same P h0 hlen
  · have := getBit_setBit_same hbm
    simpa using this
  · rw [hmod]; omega

/-- Witness of C6: `demoTwo` is reachable and its 2048-byte class takes the
growth pass at bit 2, the first bit of page slot 1. -/
theorem growth_claims_first_slot_witness :
    demoCfg.ok ∧ Reach demoCfg NeverFails demoTwo ∧
    findSlab demoTwo.slab 2048 demoCfg.NSLAB 0 = some 7 ∧
    demoTwo.slab[7]? = some demoTwoSlab ∧
    kmalloc_reuse demoTwoSlab (demoTwoSlab.nbits demoCfg) 0 = some none ∧
    kmalloc_grow demoTwoSlab (demoTwoSlab.nbits demoCfg) 0 = some (some 2) ∧
    (2 % demoTwoSlab.num_objects_per_page.toNat = 0 ∧
      readAt demoTwoSlab.page (Int.tdiv ((2 : Nat) : Int) demoTwoSlab.num_objects_per_page)
        = some 0 ∧
      ∃ s', kmalloc demoCfg demoTwo 2048 demoPage =
          some ({ slab := demoTwo.slab.set 7 s'
                  trace := demoTwo.trace ++
                    [Event.acquire, Event.kalloc demoPage, Event.release] }, demoPage) ∧
        readAt s'.page (Int.tdiv ((2 : Nat) : Int) demoTwoSlab.num_objects_per_page)
          = some demoPage ∧
        getBit s'.bitmap ((2 : Nat) : Int) = some 1 ∧
        demoPage = demoPage + 2 % demoTwoSlab.num_objects_per_page.toNat
          * demoTwoSlab.size.toNat) :=
  ⟨demoCfg_ok, demoTwo_reach.reach_mono (freshPage_neverFails demoCfg), demoTwo_findSlab,
    demoTwoSlab_eq, by decide!, by decide!,
    growth_claims_first_slot demoCfg demoCfg_ok demoTwo
      (demoTwo_reach.reach_mono (freshPage_neverFails demoCfg)) 2048 demoPage 7 2 demoTwoSlab
      demoTwo_findSlab demoTwoSlab_eq (by decide!) (by decide!)⟩

/-- C7 (free of a live object).  On a laid-out table, let `s` be the class
derived from `size > 0`, with page-aligned and pairwise distinct page bases, `a`
the page in slot `p`, and `addr = a + m * size` with `m < num_objects_per_page`.
If bit `p * num_objects_per_page + m` is set, `kmfree(addr, size)` clears that
bit and no other, takes 1 from `num_used_objects` and adds 1 to
`num_free_objects`.  If then every bit of the page's range
`[p * num_objects_per_page, (p+1) * num_objects_per_page)` is clear, it calls
`kfree(a)`, empties slot `p`, takes 1 from `num_pages` and
`num_objects_per_page` from `num_free_objects`; if some bit of the range is
still set, it calls no `kfree` and leaves the page slots and `num_pages`
unchanged. -/
theorem free_live_object (cfg : Config) (hcfg : cfg.ok) (st : Stable) (hl : Laid cfg st)
    (addr : Nat) (size : Int) (k p a m : Nat) (s : Slab)
    (hsz : 0 < size)
    (hk : findSlab st.slab size cfg.NSLAB 0 = some k) (hs : st.slab[k]? = some s)
    (hok : s.pagesOk cfg)
    (hpa : s.page[p]? = some a) (ha : a ≠ 0)
    (hm : m < cfg.PGSIZE / 2 ^ (k + 4)) (haddr : addr = a + m * 2 ^ (k + 4))
    (hset : getBit s.bitmap ((p * (cfg.PGSIZE / 2 ^ (k + 4)) + m : Nat) : Int) = some 1) :
    ∃ bm, setBit s.bitmap ((p * (cfg.PGSIZE / 2 ^ (k + 4)) + m : Nat) : Int) 0 = some bm ∧
      getBit bm ((p * (cfg.PGSIZE / 2 ^ (k + 4)) + m : Nat) : Int) = some 0 ∧
      (∀ j : Int, j ≠ ((p * (cfg.PGSIZE / 2 ^ (k + 4)) + m : Nat) : Int) →
        getBit bm j = getBit s.bitmap j) ∧
      ((∀ t, t < cfg.PGSIZE / 2 ^ (k + 4) →
          getBit bm ((p * (cfg.PGSIZE / 2 ^ (k + 4)) + t : Nat) : Int) = some 0) →
        ∃ s', kmfree cfg st addr size =
            some { slab := st.slab.set k s'
                   trace := st.trace ++ [Event.acquire, Event.kfree a, Event.release] } ∧
          s'.bitmap = bm ∧ s'.page = s.page.set p 0 ∧
          s'.num_pages = s.num_pages - 1 ∧
          s'.num_used_objects = s.num_used_objects - 1 ∧
          s'.num_free_objects = s.num_free_objects + 1 - s.num_objects_per_page ∧
          s'.size = s.size ∧ s'.num_objects_per_page = s.num_objects_per_page) ∧
      (¬ (∀ t, t < cfg.PGSIZE / 2 ^ (k + 4) →
          getBit bm ((p * (cfg.PGSIZE / 2 ^ (k + 4)) + t : Nat) : Int) = some 0) →
        ∃ s', kmfree cfg st addr size =
            some { slab := st.slab.set k s'
                   trace := st.trace ++ [Event.acquire, Event.release] } ∧
          s'.bitmap = bm ∧ s'.page = s.page ∧
          s'.num_pages = s.num_pages ∧
          s'.num_used_objects = s.num_used_objects - 1 ∧
          s'.num_free_objects = s.num_free_objects + 1 ∧
          s'.size = s.size ∧ s'.num_objects_per_page = s.num_objects_per_page) := by
  obtain ⟨bm, hbm, hlast, hrest⟩ :=
    kmfree_live cfg hcfg st hl addr size k p a m s hsz hk hs hok hpa ha hm haddr hset
  have hsame := getBit_setBit_same hbm
  simp only [ne_eq, not_true_eq_false, if_false] at hsame
  refine ⟨bm, hbm, hsame, fun j hj => getBit_setBit_other j hbm hj, ?_, ?_⟩
  · intro hall
    exact ⟨s.shrunk (s.page.set p 0) bm, hlast hall, rfl, rfl, rfl, rfl, rfl, rfl, rfl⟩
  · intro hnot
    exact ⟨s.released bm, hrest hnot, rfl, rfl, rfl, rfl, rfl, rfl, rfl⟩

/-- Witness of C7: `kmfree` of the one live object of `demoOne`, which empties
the pre-seeded page of the 2048-byte class. -/
theorem free_live_object_witness :
    demoCfg.ok ∧ Laid demoCfg demoOne ∧
    findSlab demoOne.slab 2048 demoCfg.NSLAB 0 = some 7 ∧
    demoOne.slab[7]? = some demoOneSlab ∧ demoOneSlab.pagesOk demoCfg ∧
    demoOneSlab.page[0]? = some (4096 * 215) ∧
    getBit demoOneSlab.bitmap ((0 * (demoCfg.PGSIZE / 2 ^ (7 + 4)) + 0 : Nat) : Int) = some 1 ∧
    ∃ bm, setBit demoOneSlab.bitmap
        ((0 * (demoCfg.PGSIZE / 2 ^ (7 + 4)) + 0 : Nat) : Int) 0 = some bm ∧
      getBit bm ((0 * (demoCfg.PGSIZE / 2 ^ (7 + 4)) + 0 : Nat) : Int) = some 0 ∧
      (∀ j : Int, j ≠ ((0 * (demoCfg.PGSIZE / 2 ^ (7 + 4)) + 0 : Nat) : Int) →
        getBit bm j = getBit demoOneSlab.bitmap j) ∧
      ((∀ t, t < demoCfg.PGSIZE / 2 ^ (7 + 4) →
          getBit bm ((0 * (demoCfg.PGSIZE / 2 ^ (7 + 4)) + t : Nat) : Int) = some 0) →
        ∃ s', kmfree demoCfg demoOne (4096 * 215) 2048 =
            some { slab := demoOne.slab.set 7 s'
                   trace := demoOne.trace ++
                     [Event.acquire, Event.kfree (4096 * 215), Event.release] } ∧
          s'.bitmap = bm ∧ s'.page = demoOneSlab.page.set 0 0 ∧
          s'.num_pages = demoOneSlab.num_pages - 1 ∧
          s'.num_used_objects = demoOneSlab.num_used_objects - 1 ∧
          s'.num_free_objects
            = demoOneSlab.num_free_objects + 1 - demoOneSlab.num_objects_per_page ∧
          s'.size = demoOneSlab.size ∧
          s'.num_objects_per_page = demoOneSlab.num_objects_per_page) ∧
      (¬ (∀ t, t < demoCfg.PGSIZE / 2 ^ (7 + 4) →
          getBit bm ((0 * (demoCfg.PGSIZE / 2 ^ (7 + 4)) + t : Nat) : Int) = some 0) →
        ∃ s', kmfree demoCfg demoOne (4096 * 215) 2048 =
            some { slab := demoOne.slab.set 7 s'
                   trace := demoOne.trace ++ [Event.acquire, Event.release] } ∧
          s'.bitmap = bm ∧ s'.page = demoOneSlab.page ∧
          s'.num_pages = demoOneSlab.num_pages ∧
          s'.num_used_objects = demoOneSlab.num_used_objects - 1 ∧
          s'.num_free_objects = demoOneSlab.num_free_objects + 1 ∧
          s'.size = demoOneSlab.size ∧
          s'.num_objects_per_page = demoOneSlab.num_objects_per_page) :=
  ⟨demoCfg_ok, demoOne_laid, demoOne_findSlab, demoOneSlab_eq,
    demoOne_reach.reach_pagesOk demoCfg_ok 7 demoOneSlab demoOneSlab_eq, demoOneSlab_page,
    by decide!,
    free_live_object demoCfg demoCfg_ok demoOne demoOne_laid (4096 * 215) 2048 7 0 (4096 * 215)
      0 demoOneSlab (by decide) demoOne_findSlab demoOneSlab_eq
      (demoOne_reach.reach_pagesOk demoCfg_ok 7 demoOneSlab demoOneSlab_eq) demoOneSlab_page
      (by decide) (by decide) (by decide) (by decide!)⟩

/-- C8, the code at the failing input (double free after the page was
released).  In `doubleFreeTable` the four `kmalloc(2048)` returned
`A, A + 2048, B, B + 2048` with `A = 4096 * 215` the pre-seeded page and
`B = 4096 * 115`, and the two objects of `B` were freed, which released `B`:
the class has `num_pages = 1`, `num_used_objects = 2`, `num_free_objects = 0`,
slot 0 holds `A`, slot 1 is empty.  On the second `kmfree(B + 2048, 2048)` the
page scan matches no slot and ends with `i = 100 = MAX_PAGES_PER_SLAB` and the
stale `offset = B + 2048 - A = -407552`; the bit index `100 * 2 + offset / 2048`
is `1`, the bit of the live object `A + 2048`, which is set, so the call does
not take the already-clear exit; it goes on to the counters and to
`s->page[100]`, outside the array, and has no defined result. -/
theorem double_free_after_release :
    (kmalloc_seq demoCfg demoTable
        [(2048, demoPage), (2048, demoPage), (2048, demoPage), (2048, demoPage)]).map
        (fun r => r.2)
      = some [4096 * 215, 4096 * 215 + 2048, 4096 * 115, 4096 * 115 + 2048] ∧
    (doubleFreeTable.bind fun st => (st.slab[7]?).map fun s =>
        ([s.num_pages, s.num_used_objects, s.num_free_objects], s.page.take 2,
          kmfree_find demoCfg s.page (demoPage + 2048) 100 0 0))
      = some ([1, 2, 0], [4096 * 215, 0], some (100, -407552)) ∧
    (doubleFreeTable.bind fun st => (st.slab[7]?).map fun s =>
        getBit s.bitmap (100 * s.num_objects_per_page + Int.tdiv (-407552) s.size))
      = some (some 1) ∧
    (doubleFreeTable.map fun st => kmfree demoCfg st (demoPage + 2048) 2048) = some none := by
  refine ⟨?_, ?_, ?_, ?_⟩
  · decide!
  · decide!
  · decide!
  · decide!

/-- C9, the code at the failing input (`kalloc` fails in the growth pass).  In
`demoTwo` the pre-seeded page of the 2048-byte class is full
(`num_pages = 1`, `num_used_objects = 2`, `num_free_objects = 0`, bit 2
clear).  A `kmalloc(2048)` for which `kalloc` returns null returns null, and
yet it leaves the class with `num_pages = 2`, `num_used_objects = 3`,
`num_free_objects = 1` and bit 2 set, page slot 1 still empty. -/
theorem kalloc_failure_changes_state :
    (kmalloc demoCfg demoTwo 2048 0).map (fun r => r.2) = some 0 ∧
    ((demoTwo.slab[7]?).map fun s =>
        ([s.num_pages, s.num_used_objects, s.num_free_objects], getBit s.bitmap 2,
          s.page.take 2))
      = some ([1, 2, 0], some 0, [4096 * 215, 0]) ∧
    ((kmalloc demoCfg demoTwo 2048 0).bind fun r => (r.1.slab[7]?).map fun s2 =>
        ([s2.num_pages, s2.num_used_objects, s2.num_free_objects], getBit s2.bitmap 2,
          s2.page.take 2))
      = some ([2, 3, 1], some 1, [4096 * 215, 0]) := by
  refine ⟨?_, ?_, ?_⟩
  · decide!
  · decide!
  · decide!

/-- C10 (exhaustion).  Start from the table `slabinit` leaves, with a page
allocator that never fails.  For every class `k`, any run of
`MAX_PAGES_PER_SLAB * num_objects_per_page` calls of `kmalloc` with sizes of
that class and no `kmfree` in between returns a non-null pointer each time, and
the next `kmalloc` of that class returns null and leaves every class (bits,
page slots, counters) as it was. -/
theorem exhaustion (cfg : Config) (hcfg : cfg.ok) (kr0 : Nat → Nat) (hkr0 : ∀ j, kr0 j ≠ 0)
    (st0 : Stable) (h0 : slabinit cfg kr0 (zeroed cfg) = some st0)
    (k : Nat) (hk : k < cfg.NSLAB) (calls : List (Int × Nat))
    (hcalls : ∀ c, c ∈ calls → InClass k c.1 ∧ c.2 ≠ 0)
    (hlen : calls.length = cfg.MAX_PAGES_PER_SLAB * (cfg.PGSIZE / 2 ^ (k + 4)))
    (size : Int) (hsize : InClass k size) (kr : Nat) :
    ∃ st ps, kmalloc_seq cfg st0 calls = some (st, ps) ∧ ps.length = calls.length ∧
      (∀ p, p ∈ ps → p ≠ 0) ∧
      kmalloc cfg st size kr =
        some ({ slab := st.slab, trace := st.trace ++ [Event.acquire, Event.release] }, 0) := by
  have hfresh := fresh_of_init hcfg hkr0 h0
  have hs0 := hfresh.2 k hk
  obtain ⟨st, ps, s, hseq, hpl, hps, hl, hs, hf⟩ :=
    kmalloc_seq_filled hcfg hk calls hcalls st0 hfresh.fresh_laid _ hs0 0
      (freshSlab_filled cfg hcfg k _ hk (hkr0 _)) (by omega)
  refine ⟨st, ps, hseq, hpl, hps, ?_⟩
  rw [Nat.zero_add, hlen] at hf
  exact kmalloc_filled_full
    (findSlab_of_least (sizesSet_of_laid hl) hk hsize.1 hsize.2) hs hf

/-- Witness of C10: 200 calls `kmalloc(2048)` on `demoTable` fill the 100 page
slots of the 2048-byte class (2 objects per page); the next call fails. -/
theorem exhaustion_witness :
    demoCfg.ok ∧ slabinit demoCfg demoPages (zeroed demoCfg) = some demoTable ∧
    (List.replicate 200 ((2048 : Int), demoPage)).length
      = demoCfg.MAX_PAGES_PER_SLAB * (demoCfg.PGSIZE / 2 ^ (7 + 4)) ∧
    InClass 7 2048 ∧
    ∃ st ps, kmalloc_seq demoCfg demoTable (List.replicate 200 ((2048 : Int), demoPage))
        = some (st, ps) ∧
      ps.length = (List.replicate 200 ((2048 : Int), demoPage)).length ∧
      (∀ p, p ∈ ps → p ≠ 0) ∧
      kmalloc demoCfg st 2048 demoPage =
        some ({ slab := st.slab, trace := st.trace ++ [Event.acquire, Event.release] }, 0) :=
  ⟨demoCfg_ok, demoTable_eq, by decide!, inClass_demo,
    exhaustion demoCfg demoCfg_ok demoPages demoPages_ne_zero demoTable demoTable_eq 7
      (by decide) (List.replicate 200 ((2048 : Int), demoPage))
      (fun c hc => by
        rw [List.eq_of_mem_replicate hc]
        exact ⟨inClass_demo, by decide⟩)
      (by decide!) 2048 inClass_demo demoPage⟩

/-- C11, the code at the failing input (oversized request).  With eight classes
of 16 to 2048 bytes, on the table `slabinit` leaves, the class scan of
`kmalloc(4096)` matches no class and ends with `s = &stable.slab[8]`, one past
the array; `kmalloc` then reads `s->bitmap` and `s->num_objects_per_page`
there, so the call has no defined result instead of returning null. -/
theorem oversized_request_undefined :
    findSlab demoTable.slab 4096 demoCfg.NSLAB 0 = some 8 ∧
    demoTable.slab[8]? = none ∧
    kmalloc demoCfg demoTable 4096 demoPage = none := by
  refine ⟨?_, ?_, ?_⟩
  · decide!
  · decide!
  · decide!

/-- C12, the code at the failing input (unrecognized pointer).  In `demoOne` the
2048-byte class holds one live object, at the base of its only page
`A = 4096 * 215` (bit 0 set).  The pointer `4096 * 115` lies in no page of the
class.  The page scan of `kmfree(4096 * 115, 2048)` matches no slot and ends
with `i = 100 = MAX_PAGES_PER_SLAB` and `offset = 4096 * 115 - A = -409600`;
the bit index `100 * 2 + offset / 2048` is `0`, the bit of the live object,
which is set, so the call does not take the already-clear exit: it goes on to
the counters and to `s->page[100]`, outside the array, and has no defined
result instead of being a no-op. -/
theorem foreign_pointer_free :
    demoOneSlab.page.all (fun a => a = 0 ∨ ¬ (a ≤ 4096 * 115 ∧ 4096 * 115 < a + 4096)) = true ∧
    kmfree_find demoCfg demoOneSlab.page (4096 * 115) 100 0 0 = some (100, -409600) ∧
    getBit demoOneSlab.bitmap
      (100 * demoOneSlab.num_objects_per_page + Int.tdiv (-409600) demoOneSlab.size) = some 1 ∧
    kmfree demoCfg demoOne (4096 * 115) 2048 = none := by
  refine ⟨?_, ?_, ?_, ?_⟩
  · decide!
  · decide!
  · decide!
  · decide!

/-- C13 (bitset laws).  For every bitmap `b`, in-range bit indices `i` and `j`
and value `v`: `setBit(b, i, v)` is defined; reading bit `i` back gives `1` if
`v != 0` and `0` otherwise; every other bit `j` reads as before; no byte other
than byte `i / 8` changes and the length is kept; and `getBit` returns `0` or
`1`. -/
theorem bitset_laws (b : List Nat) (i j : Nat) (v : Int)
    (hi : i / 8 < b.length) (hj : j / 8 < b.length) :
    ∃ b', setBit b i v = some b' ∧
      getBit b' i = some (if v ≠ 0 then 1 else 0) ∧
      (j ≠ i → getBit b' j = getBit b j) ∧
      (∀ m, m ≠ i / 8 → b'[m]? = b[m]?) ∧ b'.length = b.length ∧
      ∃ w, getBit b j = some w ∧ (w = 0 ∨ w = 1) := by
  obtain ⟨u, hu⟩ := (getBit_isSome_iff b i).2 hi
  obtain ⟨w, hw⟩ := (getBit_isSome_iff b j).2 hj
  obtain ⟨b', hb'⟩ := setBit_isSome_of_getBit v hu
  refine ⟨b', hb', getBit_setBit_same hb', ?_, ?_, setBit_length hb',
    w, hw, getBit_zero_or_one hw⟩
  · intro hne
    exact getBit_setBit_other (j : Int) hb' (by omega)
  · intro m hm
    rw [setBit_nat, List.getElem?_eq_getElem hi] at hb'
    simp only [Option.map_some', Option.some.injEq] at hb'
    rw [← hb', List.getElem?_set_ne (fun hc => hm hc.symm)]

/-- Witness of C13: in the two-byte bitmap `[0, 255]`, setting bit 3 gives a
bitmap in which bit 3 reads 1 and bit 9 reads as before. -/
theorem bitset_laws_witness :
    3 / 8 < [0, 255].length ∧ 9 / 8 < [0, 255].length ∧
    ∃ b', setBit [0, 255] ((3 : Nat) : Int) 1 = some b' ∧
      getBit b' ((3 : Nat) : Int) = some (if (1 : Int) ≠ 0 then 1 else 0) ∧
      (9 ≠ 3 → getBit b' ((9 : Nat) : Int) = getBit [0, 255] ((9 : Nat) : Int)) ∧
      (∀ m, m ≠ 3 / 8 → b'[m]? = [0, 255][m]?) ∧ b'.length = [0, 255].length ∧
      ∃ w, getBit [0, 255] ((9 : Nat) : Int) = some w ∧ (w = 0 ∨ w = 1) :=
  ⟨by decide, by decide, bitset_laws [0, 255] 3 9 1 (by decide) (by decide)⟩

/-- C14 (initialisation postcondition).  On the zeroed table, with at least one
page slot per class and a page allocator that succeeds, `slabinit` returns,
and for every tier `i < NSLAB`: `size = 16 * 2^i`,
`num_objects_per_page = PGSIZE / size`, `num_used_objects = 0`,
`num_free_objects = num_objects_per_page`, `num_pages = 1`, page slot 0 holds
the (non-null) page `kalloc` returned for it, every other page slot is empty,
and every bit of the one-page bitmap is clear. -/
theorem init_postcondition (cfg : Config) (hmax : 0 < cfg.MAX_PAGES_PER_SLAB)
    (kr : Nat → Nat) (hkr : ∀ j, kr j ≠ 0) :
    ∃ st, slabinit cfg kr (zeroed cfg) = some st ∧ st.slab.length = cfg.NSLAB ∧
      ∀ i, i < cfg.NSLAB → ∃ s, st.slab[i]? = some s ∧
        s.size = 16 * 2 ^ i ∧
        s.num_objects_per_page = Int.tdiv cfg.PGSIZE s.size ∧
        s.num_used_objects = 0 ∧
        s.num_free_objects = s.num_objects_per_page ∧
        s.num_pages = 1 ∧
        s.page.length = cfg.MAX_PAGES_PER_SLAB ∧
        (∃ a, s.page[0]? = some a ∧ a ≠ 0 ∧ a = kr (2 * i + 1)) ∧
        (∀ q, 0 < q → q < cfg.MAX_PAGES_PER_SLAB → s.page[q]? = some 0) ∧
        s.bitmap.length = cfg.PGSIZE ∧
        ∀ j : Nat, j < 8 * cfg.PGSIZE → getBit s.bitmap j = some 0 := by
  obtain ⟨st, hst, hlen, hfresh⟩ := slabinit_fresh cfg hmax kr (fun k _ => hkr (2 * k))
  refine ⟨st, hst, hlen, fun i hi => ⟨freshSlab cfg i (kr (2 * i + 1)), hfresh i hi, ?_, rfl,
    rfl, rfl, rfl, ?_, ?_, ?_, ?_, ?_⟩⟩
  · simp only [freshSlab, Nat.one_shiftLeft]
    push_cast
    rw [pow_add]
    ring
  · simp only [freshSlab, List.length_set, List.length_replicate]
  · refine ⟨kr (2 * i + 1), ?_, hkr _, rfl⟩
    simp only [freshSlab]
    exact List.getElem?_set_self (by rw [List.length_replicate]; exact hmax)
  · intro q hq0 hq
    simp only [freshSlab]
    rw [List.getElem?_set_ne (by omega), List.getElem?_replicate, if_pos hq]
  · simp only [freshSlab, List.length_replicate]
  · intro j hj
    simp only [freshSlab]
    rw [getBit_nat, List.getElem?_replicate, if_pos (by omega)]
    simp

/-- Witness of C14: `slabinit` with `demoCfg` and the page allocator
`demoPages`. -/
theorem init_postcondition_witness :
    0 < demoCfg.MAX_PAGES_PER_SLAB ∧ (∀ j, demoPages j ≠ 0) ∧
    ∃ st, slabinit demoCfg demoPages (zeroed demoCfg) = some st ∧
      st.slab.length = demoCfg.NSLAB ∧
      ∀ i, i < demoCfg.NSLAB → ∃ s, st.slab[i]? = some s ∧
        s.size = 16 * 2 ^ i ∧
        s.num_objects_per_page = Int.tdiv demoCfg.PGSIZE s.size ∧
        s.num_used_objects = 0 ∧
        s.num_free_objects = s.num_objects_per_page ∧
        s.num_pages = 1 ∧
        s.page.length = demoCfg.MAX_PAGES_PER_SLAB ∧
        (∃ a, s.page[0]? = some a ∧ a ≠ 0 ∧ a = demoPages (2 * i + 1)) ∧
        (∀ q, 0 < q → q < demoCfg.MAX_PAGES_PER_SLAB → s.page[q]? = some 0) ∧
        s.bitmap.length = demoCfg.PGSIZE ∧
        ∀ j : Nat, j < 8 * demoCfg.PGSIZE → getBit s.bitmap j = some 0 :=
  ⟨by decide, demoPages_ne_zero,
    init_postcondition demoCfg (by decide) demoPages demoPages_ne_zero⟩

/-- C15 (growth scenario).  With `PGSIZE = 4096` (and constants satisfying
`Config.ok`, at least two page slots per class), on the table `slabinit`
leaves with a non-null first page `page[0]` in class 0: 256 calls `kmalloc(16)`
all return, whatever `kalloc` would hand out (it is not called), and return
the pairwise distinct addresses `page[0] + 16 * j` for `j = 0 .. 255` in order,
leaving `num_pages` of class 0 at 1; the 257th call `kmalloc(16)`, `kalloc`
handing out the non-null page `P`, takes exactly that page, stores it in slot
1, makes `num_pages` 2 and returns `P`. -/
theorem growth_scenario (cfg : Config) (hcfg : cfg.ok) (hpg : cfg.PGSIZE = 4096)
    (hmax : 2 ≤ cfg.MAX_PAGES_PER_SLAB) (kr0 : Nat → Nat) (st0 : Stable)
    (hinit : slabinit cfg kr0 (zeroed cfg) = some st0) (hA : kr0 1 ≠ 0)
    (krs : List Nat) (hlen : krs.length = 256) (P : Nat) (hP : P ≠ 0) :
    ∃ s0 st1 s1 st2 s2,
      st0.slab[0]? = some s0 ∧ s0.page[0]? = some (kr0 1) ∧ s0.num_pages = 1 ∧
      kmalloc_seq cfg st0 (krs.map (fun kr => ((16 : Int), kr))) =
        some (st1, (List.range 256).map (fun j => kr0 1 + 16 * j)) ∧
      ((List.range 256).map (fun j => kr0 1 + 16 * j)).Nodup ∧
      st1.slab[0]? = some s1 ∧ s1.num_pages = 1 ∧
      pagesTaken st1.trace = pagesTaken st0.trace ∧
      kmalloc cfg st1 16 P = some (st2, P) ∧
      st2.slab[0]? = some s2 ∧ s2.num_pages = 2 ∧ s2.page[1]? = some P ∧
      pagesTaken st2.trace = pagesTaken st1.trace ++ [P] := by
  have hopp : cfg.PGSIZE / 2 ^ (0 + 4) = 256 := by rw [hpg]; rfl
  have hin : InClass 0 16 := ⟨by norm_num, fun j hj => by omega⟩
  obtain ⟨st1, s1, st2, bm, hseq, hs0, hl1, hs1, hf1, hpage, hnp, _, _, htk, _, _, hm, hslab,
      htr, _⟩ :=
    growth_run hcfg hcfg.1 hmax kr0 st0 hinit hA (krs.map (fun kr => ((16 : Int), kr)))
      (fun c hc => by
        obtain ⟨kr, _, rfl⟩ := List.mem_map.1 hc
        exact hin)
      (by rw [List.length_map, hlen, hopp]) 16 hin P hP
  rw [hopp] at hseq
  refine ⟨_, st1, s1, st2, s1.grown (s1.page.set 1 P) bm, hs0, ?_, rfl, ?_, ?_, hs1, hnp, htk,
    hm, ?_, ?_, ?_, ?_⟩
  · simp only [freshSlab]
    exact List.getElem?_set_self (by rw [List.length_replicate]; exact hcfg.2.1)
  · have hj : ∀ j, kr0 (2 * 0 + 1) + j * 2 ^ (0 + 4) = kr0 1 + 16 * j := fun j => by
      show kr0 1 + j * 16 = kr0 1 + 16 * j
      omega
    rw [hseq]
    simp only [hj]
  · apply List.Nodup.map _ (List.nodup_range 256)
    intro a b hab
    simp only at hab
    omega
  · rw [hslab]
    exact List.getElem?_set_self (by rw [hl1.1]; exact hcfg.1)
  · show s1.num_pages + 1 = 2
    rw [hnp]; rfl
  · show (s1.page.set 1 P)[1]? = some P
    exact List.getElem?_set_self (by rw [hl1.2 0 s1 hs1 |>.2.2.2]; omega)
  · rw [htr, pagesTaken_append]
    simp only [pagesTaken]

/-- Witness of C15: the growth scenario with `demoCfg`, on `demoTable`; the
page allocator would fail during the first 256 calls (it is not asked) and
hands out `demoPage` in the 257th. -/
theorem growth_scenario_witness :
    demoCfg.ok ∧ demoCfg.PGSIZE = 4096 ∧ 2 ≤ demoCfg.MAX_PAGES_PER_SLAB ∧
    slabinit demoCfg demoPages (zeroed demoCfg) = some demoTable ∧ demoPages 1 ≠ 0 ∧
    (List.replicate 256 0).length = 256 ∧ demoPage ≠ 0 ∧
    ∃ s0 st1 s1 st2 s2,
      demoTable.slab[0]? = some s0 ∧ s0.page[0]? = some (demoPages 1) ∧ s0.num_pages = 1 ∧
      kmalloc_seq demoCfg demoTable ((List.replicate 256 0).map (fun kr => ((16 : Int), kr))) =
        some (st1, (List.range 256).map (fun j => demoPages 1 + 16 * j)) ∧
      ((List.range 256).map (fun j => demoPages 1 + 16 * j)).Nodup ∧
      st1.slab[0]? = some s1 ∧ s1.num_pages = 1 ∧
      pagesTaken st1.trace = pagesTaken demoTable.trace ∧
      kmalloc demoCfg st1 16 demoPage = some (st2, demoPage) ∧
      st2.slab[0]? = some s2 ∧ s2.num_pages = 2 ∧ s2.page[1]? = some demoPage ∧
      pagesTaken st2.trace = pagesTaken st1.trace ++ [demoPage] :=
  ⟨demoCfg_ok, rfl, by decide, demoTable_eq, by decide, List.length_replicate _ _, by decide,
    growth_scenario demoCfg demoCfg_ok rfl (by decide) demoPages demoTable demoTable_eq
      (by decide) (List.replicate 256 0) (List.length_replicate _ _) demoPage (by decide)⟩

/-- C16 (shrink scenario).  With `PGSIZE = 4096` (constants satisfying
`Config.ok`, at least two page slots per class), after the growth scenario on
the table `slabinit` leaves (256 calls `kmalloc(16)` returning `A + 16 * j`,
`A` the first page of class 0, then a 257th that takes the page `P`), the pages
`A` and `P` being non-null, page-aligned and distinct: `kmfree(p, 16)` for the
256 pointers of the first page, taken in any order `ptrs`, all return; together
they give back exactly the page `A` and take no page; class 0 ends with
`num_pages = 1`, `num_used_objects = 1`, `num_free_objects = 255`, slot 0
empty, the page `P` still in slot 1 and bit 256, the first object of `P`,
still set. -/
theorem shrink_scenario (cfg : Config) (hcfg : cfg.ok) (hpg : cfg.PGSIZE = 4096)
    (hmax : 2 ≤ cfg.MAX_PAGES_PER_SLAB) (kr0 : Nat → Nat) (st0 : Stable)
    (hinit : slabinit cfg kr0 (zeroed cfg) = some st0) (hA : kr0 1 ≠ 0)
    (hAal : 4096 ∣ kr0 1) (krs : List Nat) (hlen : krs.length = 256)
    (P : Nat) (hP : P ≠ 0) (hPal : 4096 ∣ P) (hPA : P ≠ kr0 1)
    (ptrs : List Nat) (hperm : ptrs.Perm ((List.range 256).map (fun j => kr0 1 + 16 * j))) :
    ∃ st1 st2 st3 s3,
      kmalloc_seq cfg st0 (krs.map (fun kr => ((16 : Int), kr))) =
        some (st1, (List.range 256).map (fun j => kr0 1 + 16 * j)) ∧
      kmalloc cfg st1 16 P = some (st2, P) ∧
      kmfree_seq cfg st2 (ptrs.map (fun p => (p, (16 : Int)))) = some st3 ∧
      pagesGiven st3.trace = pagesGiven st2.trace ++ [kr0 1] ∧
      pagesTaken st3.trace = pagesTaken st2.trace ∧
      st3.slab[0]? = some s3 ∧ s3.num_pages = 1 ∧ s3.num_used_objects = 1 ∧
      s3.num_free_objects = 255 ∧ s3.page[0]? = some 0 ∧ s3.page[1]? = some P ∧
      getBit s3.bitmap ((256 : Nat) : Int) = some 1 := by
  have hopp : cfg.PGSIZE / 2 ^ (0 + 4) = 256 := by rw [hpg]; rfl
  have hin : InClass 0 16 := ⟨by norm_num, fun j hj => by omega⟩
  have hj : ∀ j, kr0 (2 * 0 + 1) + j * 2 ^ (0 + 4) = kr0 1 + 16 * j := fun j => by
    show kr0 1 + j * 16 = kr0 1 + 16 * j
    omega
  obtain ⟨st1, s1, st2, bm, hseq, _, hl1, hs1, _, hpage, hnp, hused, hfree, _, _, _, hm, hslab,
      htr, hf2⟩ :=
    growth_run hcfg hcfg.1 hmax kr0 st0 hinit hA (krs.map (fun kr => ((16 : Int), kr)))
      (fun c hc => by
        obtain ⟨kr, _, rfl⟩ := List.mem_map.1 hc
        exact hin)
      (by rw [List.length_map, hlen, hopp]) 16 hin P hP
  have hl2 : Laid cfg st2 := kmalloc_laid hl1 hm
  have hs2 : st2.slab[0]? = some (s1.grown (s1.page.set 1 P) bm) := by
    rw [hslab]
    exact List.getElem?_set_self (by rw [hl1.1]; exact hcfg.1)
  have hperm0 : ptrs.Perm ((List.range (cfg.PGSIZE / 2 ^ (0 + 4))).map
      (fun j => kr0 (2 * 0 + 1) + j * 2 ^ (0 + 4))) := by
    simp only [hj]
    rw [hopp]
    exact hperm
  have hdr := growth_draining hmax (kr0 (2 * 0 + 1)) P (by rw [hpg]; exact hAal)
    (by rw [hpg]; exact hPal) hP hPA s1 bm hf2 hpage hnp hused hfree ptrs hperm0
  have hne : ptrs ≠ [] := by
    intro hc
    have := hperm.length_eq
    rw [hc, List.length_map, List.length_range] at this
    cases this
  have hform : ∀ p, p ∈ ptrs →
      ∃ m, m < cfg.PGSIZE / 2 ^ (0 + 4) ∧ p = kr0 (2 * 0 + 1) + m * 2 ^ (0 + 4) := by
    intro p hp
    obtain ⟨m, hm1, hm2⟩ := List.mem_map.1 (hperm0.mem_iff.1 hp)
    exact ⟨m, List.mem_range.1 hm1, hm2.symm⟩
  have hnd : ptrs.Nodup := by
    rw [hperm.nodup_iff]
    apply List.Nodup.map _ (List.nodup_range 256)
    intro a b hab
    simp only at hab
    omega
  obtain ⟨st3, s3, hfr, _, hs3, h0, h1, h2, h3, h4, h5, _, h7, h8⟩ :=
    kmfree_seq_drain hcfg hcfg.1 (kr0 (2 * 0 + 1)) P hA 16 hin (by norm_num) ptrs hne hnd hform
      st2 hl2 _ hs2 hdr
  rw [hopp] at hseq h4 h5
  refine ⟨st1, st2, st3, s3, ?_, hm, hfr, h7, h8, hs3, h2, h3, ?_, h0, h1, h5⟩
  · rw [hseq]
    simp only [hj]
  · rw [h4]
    norm_num

/-- Witness of C16: the shrink scenario with `demoCfg`, on `demoTable`, the 256
pointers of the first page being freed from the last one to the first. -/
theorem shrink_scenario_witness :
    demoCfg.ok ∧ demoCfg.PGSIZE = 4096 ∧ 2 ≤ demoCfg.MAX_PAGES_PER_SLAB ∧
    slabinit demoCfg demoPages (zeroed demoCfg) = some demoTable ∧ demoPages 1 ≠ 0 ∧
    4096 ∣ demoPages 1 ∧ (List.replicate 256 0).length = 256 ∧
    demoPage ≠ 0 ∧ 4096 ∣ demoPage ∧ demoPage ≠ demoPages 1 ∧
    (((List.range 256).map (fun j => demoPages 1 + 16 * j)).reverse).Perm
      ((List.range 256).map (fun j => demoPages 1 + 16 * j)) ∧
    ∃ st1 st2 st3 s3,
      kmalloc_seq demoCfg demoTable ((List.replicate 256 0).map (fun kr => ((16 : Int), kr))) =
        some (st1, (List.range 256).map (fun j => demoPages 1 + 16 * j)) ∧
      kmalloc demoCfg st1 16 demoPage = some (st2, demoPage) ∧
      kmfree_seq demoCfg st2
        ((((List.range 256).map (fun j => demoPages 1 + 16 * j)).reverse).map
          (fun p => (p, (16 : Int)))) = some st3 ∧
      pagesGiven st3.trace = pagesGiven st2.trace ++ [demoPages 1] ∧
      pagesTaken st3.trace = pagesTaken st2.trace ∧
      st3.slab[0]? = some s3 ∧ s3.num_pages = 1 ∧ s3.num_used_objects = 1 ∧
      s3.num_free_objects = 255 ∧ s3.page[0]? = some 0 ∧ s3.page[1]? = some demoPage ∧
      getBit s3.bitmap ((256 : Nat) : Int) = some 1 :=
  ⟨demoCfg_ok, rfl, by decide, demoTable_eq, by decide, by decide, List.length_replicate _ _,
    by decide, by decide, by decide, List.reverse_perm _,
    shrink_scenario demoCfg demoCfg_ok rfl (by decide) demoPages demoTable demoTable_eq
      (by decide) (by decide) (List.replicate 256 0) (List.length_replicate _ _) demoPage
      (by decide) (by decide) (by decide) _ (List.reverse_perm _)⟩

/-- C17, counterexample (page slot without a set bit).  On the table `slabinit`
leaves with `demoCfg`, a state reached before any `kmalloc` or `kmfree`, slot 0
of the 2048-byte class (2 objects per page, bit range `[0, 2)`) is non-empty,
it holds the pre-seeded page `4096 * 215`, and neither bit 0 nor bit 1 is
set. -/
theorem slot_without_bit_counterexample :
    ((slabinit demoCfg demoPages (zeroed demoCfg)).bind fun st0 =>
      (st0.slab[7]?).map fun s =>
        (s.num_objects_per_page, s.page[0]?, getBit s.bitmap 0, getBit s.bitmap 1))
      = some (2, some (4096 * 215), some 0, some 0) := by
  decide!

/-- C17, amended (page slots and bitmap).  In every table reachable from
`slabinit` by `kmalloc` calls and `kmfree` calls on live pointers with their
original sizes (constants satisfying `Config.ok`, the page allocator handing
out non-null, page-aligned pages that no class holds), for every class `k` and
every page slot `q`: if the slot is empty, every bit of
`[q * objects_per_page, (q + 1) * objects_per_page)` is clear; if it is
non-empty, some bit of that range is set, unless `q = 0` and the class is still
exactly as `slabinit` left it (the pre-seeded page, no allocation yet). -/
theorem slot_bitmap_invariant (cfg : Config) (hcfg : cfg.ok) (st : Stable)
    (live : List (Nat × Int)) (hreach : ReachLive cfg st live) (k : Nat) (s : Slab)
    (hs : st.slab[k]? = some s) (q : Nat) (hq : q < cfg.MAX_PAGES_PER_SLAB) :
    s.num_objects_per_page = ((cfg.PGSIZE / 2 ^ (k + 4) : Nat) : Int) ∧
    ∃ a, s.page[q]? = some a ∧
      (a = 0 → ∀ m, m < cfg.PGSIZE / 2 ^ (k + 4) →
        getBit s.bitmap ((q * (cfg.PGSIZE / 2 ^ (k + 4)) + m : Nat) : Int) = some 0) ∧
      (a ≠ 0 →
        (∃ m, m < cfg.PGSIZE / 2 ^ (k + 4) ∧
          getBit s.bitmap ((q * (cfg.PGSIZE / 2 ^ (k + 4)) + m : Nat) : Int) = some 1) ∨
        (q = 0 ∧ s = freshSlab cfg k a)) := by
  have hlaid := (hreach.live_laid hcfg).2 k s hs
  have hkn := lt_of_getElem?_eq_some (hreach.live_laid hcfg) hs
  have hopos := Slab.laid.opp_pos hcfg hkn
  have hqlen : q < s.page.length := by rw [hlaid.2.2.2]; exact hq
  refine ⟨hlaid.2.1, s.page[q], List.getElem?_eq_getElem hqlen, ?_, ?_⟩
  · intro h0 m hm
    have hdiv : (q * (cfg.PGSIZE / 2 ^ (k + 4)) + m) / (cfg.PGSIZE / 2 ^ (k + 4)) = q := by
      rw [Nat.mul_comm, Nat.mul_add_div hopos, Nat.div_eq_of_lt hm, Nat.add_zero]
    have hne := hreach.live_emptyClear hcfg k s hs (q * (cfg.PGSIZE / 2 ^ (k + 4)) + m) (by
      rw [hlaid.2.1, tdiv_natCast, readAt_natCast, hdiv, List.getElem?_eq_getElem hqlen, h0])
    have hlt : q * (cfg.PGSIZE / 2 ^ (k + 4)) + m < 8 * cfg.PGSIZE := by
      have h1 := hlaid.nbits_le hcfg
      rw [hlaid.nbits_eq] at h1
      calc q * (cfg.PGSIZE / 2 ^ (k + 4)) + m
          < (q + 1) * (cfg.PGSIZE / 2 ^ (k + 4)) := by rw [Nat.add_mul, Nat.one_mul]; omega
        _ ≤ cfg.MAX_PAGES_PER_SLAB * (cfg.PGSIZE / 2 ^ (k + 4)) := Nat.mul_le_mul_right _ hq
        _ = cfg.PGSIZE / 2 ^ (k + 4) * cfg.MAX_PAGES_PER_SLAB := Nat.mul_comm _ _
        _ ≤ 8 * cfg.PGSIZE := h1
    obtain ⟨v, hv⟩ := hlaid.getBit_defined _ hlt
    rcases getBit_zero_or_one hv with hv0 | hv1
    · rw [hv, hv0]
    · rw [hv1] at hv
      exact absurd hv hne
  · intro hne
    rcases hreach.reach_backed hcfg k s hs with ⟨a0, hfr⟩ | hb
    · right
      have hpq : (freshSlab cfg k a0).page[q]? = some s.page[q] := by
        rw [← hfr]; exact List.getElem?_eq_getElem hqlen
      obtain ⟨e1, e2⟩ := freshSlab_page_entry hpq hne
      exact ⟨e1, by rw [e2]; exact hfr⟩
    · exact Or.inl (hb q _ (List.getElem?_eq_getElem hqlen) hne)

/-- Witness of C17: slot 0 of the 2048-byte class of `demoOne`, where one
object is live. -/
theorem slot_bitmap_invariant_witness :
    demoCfg.ok ∧ ReachLive demoCfg demoOne [(4096 * 215, 2048)] ∧
    demoOne.slab[7]? = some demoOneSlab ∧ 0 < demoCfg.MAX_PAGES_PER_SLAB ∧
    (demoOneSlab.num_objects_per_page = ((demoCfg.PGSIZE / 2 ^ (7 + 4) : Nat) : Int) ∧
    ∃ a, demoOneSlab.page[0]? = some a ∧
      (a = 0 → ∀ m, m < demoCfg.PGSIZE / 2 ^ (7 + 4) →
        getBit demoOneSlab.bitmap ((0 * (demoCfg.PGSIZE / 2 ^ (7 + 4)) + m : Nat) : Int)
          = some 0) ∧
      (a ≠ 0 →
        (∃ m, m < demoCfg.PGSIZE / 2 ^ (7 + 4) ∧
          getBit demoOneSlab.bitmap ((0 * (demoCfg.PGSIZE / 2 ^ (7 + 4)) + m : Nat) : Int)
            = some 1) ∨
        (0 = 0 ∧ demoOneSlab = freshSlab demoCfg 7 a))) :=
  ⟨demoCfg_ok, demoOne_live, demoOneSlab_eq, by decide,
    slot_bitmap_invariant demoCfg demoCfg_ok demoOne _ demoOne_live 7 demoOneSlab
      demoOneSlab_eq 0 (by decide)⟩

/-- C18 (lock discipline).  Replay the calls an operation adds to the trace
against the guard, starting with the guard free (`guardRun false`).  For every
run of `slabinit`, `kmalloc` and `kmfree` that returns, on every exit path, the
replay succeeds and ends with the guard free: the guard is released before the
return (or, on the early return of `kmfree` for a null pointer or a
non-positive size, never taken), and every `kalloc` and `kfree` call happens
while the guard is held. -/
theorem lock_discipline (cfg : Config) :
    (∀ (kr : Nat → Nat) (st st' : Stable), slabinit cfg kr st = some st' →
      ∃ tr, st'.trace = st.trace ++ tr ∧ guardRun false tr = some false) ∧
    (∀ (st st' : Stable) (size : Int) (kr p : Nat), kmalloc cfg st size kr = some (st', p) →
      ∃ tr, st'.trace = st.trace ++ tr ∧ guardRun false tr = some false) ∧
    (∀ (st st' : Stable) (addr : Nat) (size : Int), kmfree cfg st addr size = some st' →
      ∃ tr, st'.trace = st.trace ++ tr ∧ guardRun false tr = some false) := by
  refine ⟨?_, ?_, ?_⟩
  · intro kr st st' h
    unfold slabinit at h
    cases hl : slabinit_loop cfg kr cfg.NSLAB 0 (acquire st) with
    | none => rw [hl] at h; cases h
    | some st1 =>
      rw [hl] at h
      simp only [Option.map_some', Option.some.injEq] at h
      obtain ⟨tr, htr, hg⟩ := slabinit_loop_trace cfg kr _ _ _ _ hl
      refine ⟨[Event.acquire] ++ tr ++ [Event.release], ?_, ?_⟩
      · rw [← h]
        simp only [release, htr, acquire, List.append_assoc]
      · rw [guardRun_append, guardRun_append]
        simp only [guardRun, Bool.false_eq_true, if_false, Option.some_bind, hg, if_true]
  · intro st st' size kr p h
    obtain ⟨k, s, _, _, hcase⟩ := kmalloc_cases h
    rcases hcase with ⟨_, _, _, _, _, _, rfl, _⟩ | ⟨_, _, _, _, _, _, _, rfl, _⟩ | ⟨_, _, rfl, _⟩
    · exact ⟨[Event.acquire, Event.release], rfl, rfl⟩
    · exact ⟨[Event.acquire, Event.kalloc kr, Event.release], rfl, rfl⟩
    · exact ⟨[Event.acquire, Event.release], rfl, rfl⟩
  · intro st st' addr size h
    rcases kmfree_cases h with ⟨_, rfl⟩ | ⟨_, _, k, s, i, offset, _, _, _, hcase⟩
    · exact ⟨[], (List.append_nil _).symm, rfl⟩
    · rcases hcase with ⟨_, rfl⟩ | ⟨_, bm, _, ⟨_, rfl⟩ | ⟨_, pg, pages, _, _, rfl⟩⟩
      · exact ⟨[Event.acquire, Event.release], rfl, rfl⟩
      · exact ⟨[Event.acquire, Event.release], rfl, rfl⟩
      · exact ⟨[Event.acquire, Event.kfree pg, Event.release], rfl, rfl⟩

/-- Witness of C18: the three operations on the demo tables: `slabinit`
producing `demoTable`, the `kmalloc(2048)` producing `demoOne`, and the early
return of `kmfree` for a null pointer. -/
theorem lock_discipline_witness :
    (∃ tr, demoTable.trace = (zeroed demoCfg).trace ++ tr ∧ guardRun false tr = some false) ∧
    (∃ tr, demoOne.trace = demoTable.trace ++ tr ∧ guardRun false tr = some false) ∧
    (∃ tr, demoOne.trace = demoOne.trace ++ tr ∧ guardRun false tr = some false) :=
  ⟨(lock_discipline demoCfg).1 demoPages (zeroed demoCfg) demoTable demoTable_eq,
    (lock_discipline demoCfg).2.1 demoTable demoOne 2048 demoPage _ demoOne_eq,
    (lock_discipline demoCfg).2.2 demoOne demoOne 0 16 (kmfree_of_invalid (Or.inl rfl))⟩

/-- C19 (no double allocation).  In every table reachable from `slabinit` by
`kmalloc` calls and `kmfree` calls on live pointers with their original sizes
(constants satisfying `Config.ok`; `slabinit` gets non-null, page-aligned,
pairwise distinct pages, and every later `kalloc` hands out a non-null,
page-aligned page that no class holds), `live` being the pointers returned by
earlier `kmalloc` calls and not freed since: a `kmalloc(size)` that returns a
non-null `p` returns an object of the selected class `k`, of `2^(k+4)` bytes,
such that `[p, p + 2^(k+4))` lies inside one present page of that class and is
disjoint from the object range `[p', p' + 2^(k'+4))` of every live pointer
`p'`, `k'` being the class its size selects.  Moreover `kmfree` of a live
pointer with its original size always returns. -/
theorem no_double_allocation (cfg : Config) (hcfg : cfg.ok) (st : Stable)
    (live : List (Nat × Int)) (hreach : ReachLive cfg st live) (size : Int) (kr : Nat)
    (hkr : FreshPage cfg st kr) (st' : Stable) (p : Nat)
    (hm : kmalloc cfg st size kr = some (st', p)) (hp : p ≠ 0) :
    (∃ (k : Nat) (s' : Slab) (q a : Nat),
      findSlab st.slab size cfg.NSLAB 0 = some k ∧ k < cfg.NSLAB ∧
      st'.slab[k]? = some s' ∧ s'.size = ((2 ^ (k + 4) : Nat) : Int) ∧
      s'.page[q]? = some a ∧ a ≠ 0 ∧ a ≤ p ∧ p + 2 ^ (k + 4) ≤ a + cfg.PGSIZE ∧
      ∀ (p' : Nat) (size' : Int), (p', size') ∈ live →
        ∃ k', findSlab st.slab size' cfg.NSLAB 0 = some k' ∧
          (p + 2 ^ (k + 4) ≤ p' ∨ p' + 2 ^ (k' + 4) ≤ p)) ∧
    (∀ (addr : Nat) (size' : Int), (addr, size') ∈ live →
      ∃ st1, kmfree cfg st addr size' = some st1) := by
  have hl := hreach.live_laid hcfg
  have hok := hreach.reach_forget.reach_pagesOk hcfg
  have hlive := hreach.reach_liveOk hcfg
  refine ⟨(kmalloc_live_step hcfg hl hok (hreach.live_emptyClear hcfg) hreach.reach_apart hlive
    hkr hm).2 hp, ?_⟩
  intro addr size' hmem
  obtain ⟨st1, h1, _⟩ := kmfree_live_step hcfg hl hok hlive hmem
  exact ⟨st1, h1⟩

/-- Witness of C19: the second `kmalloc(2048)` on the demo table, while the
object returned by the first one is live. -/
theorem no_double_allocation_witness :
    demoCfg.ok ∧ ReachLive demoCfg demoOne [(4096 * 215, 2048)] ∧
    FreshPage demoCfg demoOne demoPage ∧
    kmalloc demoCfg demoOne 2048 demoPage = some (demoTwo, 4096 * 215 + 2048) ∧
    4096 * 215 + 2048 ≠ 0 ∧
    ((∃ (k : Nat) (s' : Slab) (q a : Nat),
      findSlab demoOne.slab 2048 demoCfg.NSLAB 0 = some k ∧ k < demoCfg.NSLAB ∧
      demoTwo.slab[k]? = some s' ∧ s'.size = ((2 ^ (k + 4) : Nat) : Int) ∧
      s'.page[q]? = some a ∧ a ≠ 0 ∧ a ≤ 4096 * 215 + 2048 ∧
      4096 * 215 + 2048 + 2 ^ (k + 4) ≤ a + demoCfg.PGSIZE ∧
      ∀ (p' : Nat) (size' : Int), (p', size') ∈ [(4096 * 215, (2048 : Int))] →
        ∃ k', findSlab demoOne.slab size' demoCfg.NSLAB 0 = some k' ∧
          (4096 * 215 + 2048 + 2 ^ (k + 4) ≤ p' ∨ p' + 2 ^ (k' + 4) ≤ 4096 * 215 + 2048)) ∧
    (∀ (addr : Nat) (size' : Int), (addr, size') ∈ [(4096 * 215, (2048 : Int))] →
      ∃ st1, kmfree demoCfg demoOne addr size' = some st1)) :=
  ⟨demoCfg_ok, demoOne_live, demoPage_fresh_one, demoTwo_eq, by decide,
    no_double_allocation demoCfg demoCfg_ok demoOne _ demoOne_live 2048 demoPage
      demoPage_fresh_one demoTwo _ demoTwo_eq (by decide)⟩

/-- C20 (used count equals bitmap population).  In every table reachable from
`slabinit` by `kmalloc` and `kmfree` calls that return (whatever the page
allocator hands out; `kmalloc` with `0 < size ≤ 16 * 2^(NSLAB-1)` and `kmfree`
on an address in a present page of the derived class are among the steps), in
every class `num_used_objects` is the number of set bits of the bitmap in
`[0, MAX_PAGES_PER_SLAB * num_objects_per_page)`, so
`0 ≤ num_used_objects ≤ MAX_PAGES_PER_SLAB * num_objects_per_page`. -/
theorem used_equals_population (cfg : Config) (st : Stable) (hreach : Reach cfg AnyPage st)
    (k : Nat) (s : Slab) (hs : st.slab[k]? = some s) :
    s.num_used_objects = (popcount s.bitmap (s.nbits cfg) : Nat) ∧
      ((s.nbits cfg : Nat) : Int) = cfg.MAX_PAGES_PER_SLAB * s.num_objects_per_page ∧
      0 ≤ s.num_used_objects ∧
      s.num_used_objects ≤ cfg.MAX_PAGES_PER_SLAB * s.num_objects_per_page := by
  obtain ⟨hused, _, hopp⟩ := hreach.reach_tallied k s hs
  have hn : ((s.nbits cfg : Nat) : Int) = cfg.MAX_PAGES_PER_SLAB * s.num_objects_per_page := by
    unfold Slab.nbits
    rw [Int.toNat_of_nonneg (mul_nonneg hopp (Int.ofNat_nonneg _))]
    ring
  have hle := popcount_le s.bitmap (s.nbits cfg)
  refine ⟨hused, hn, ?_, ?_⟩
  · rw [hused]; exact Int.ofNat_nonneg _
  · rw [hused, ← hn]
    exact_mod_cast hle

/-- Witness of C20: the 2048-byte class of `demoTwo`, two objects live. -/
theorem used_equals_population_witness :
    Reach demoCfg AnyPage demoTwo ∧ demoTwo.slab[7]? = some demoTwoSlab ∧
    demoTwoSlab.num_used_objects
      = (popcount demoTwoSlab.bitmap (demoTwoSlab.nbits demoCfg) : Nat) ∧
    ((demoTwoSlab.nbits demoCfg : Nat) : Int)
      = demoCfg.MAX_PAGES_PER_SLAB * demoTwoSlab.num_objects_per_page ∧
    0 ≤ demoTwoSlab.num_used_objects ∧
    demoTwoSlab.num_used_objects
      ≤ demoCfg.MAX_PAGES_PER_SLAB * demoTwoSlab.num_objects_per_page :=
  ⟨demoTwo_reach.reach_mono (fun _ _ _ => trivial), demoTwoSlab_eq,
    used_equals_population demoCfg demoTwo (demoTwo_reach.reach_mono (fun _ _ _ => trivial))
      7 demoTwoSlab demoTwoSlab_eq⟩

end SlabAlloc
